import Mathlib

/-!
# Disco Elysium scraper: the binary Lua-table reader, the cleaner, the classifier

A shallow embedding of `scraper/parser/lua_parser.go`, `scraper/cleaner/cleaner.go`
and `scraper/classifier/classifier.go`, and theorems about it.

Modelling conventions.

* A byte is a `Fin 256`; a Go `string` or `[]byte` is a list of bytes.
* `bytes.Reader` is the pair of the unread bytes and the absolute index of the
  next byte (`Reader.rest`, `Reader.off`); the buffer itself never changes.
* Go's `int` is the 64-bit two's-complement integer: the accumulator of
  `read7BitInt` is kept as its bit pattern modulo `2^64` and read back signed.
* A `float64` is its IEEE-754 bit pattern (a natural number below `2^64`);
  the operations the parser applies to it (`==`, `<=`, `math.Trunc`,
  `int64(_)`) are defined on the bit pattern, exactly.
* Go errors are a tree: a root cause wrapped by the contexts `fmt.Errorf`
  adds (`"string length: %w"`, `"table key %d: %w"`, ...).
* A call that does not return to its caller is the result `Res.panic`: a
  run-time panic (`make([]byte, n)` with `n` negative or out of range) or the
  fatal error of the run time when an allocation cannot be served.
* The two allocations whose size is read from the input, `make([]byte, length)`
  and `make(map[string]interface{}, int(count))`, succeed up to a limit of the
  run (`GoFmt.maxAlloc`, `GoFmt.maxMapHint`); the limit is taken to be no less
  than the size of the input buffer, which the same run holds in memory
  (`sliceLimit`, `mapLimit`). Other allocations and the stack are not bounded.
* `ReadValue` is recursive; the embedding recurses on a fuel counter, and
  `none` means the fuel ran out (never a behaviour of the program:
  `ReadValue_isSome`, `ReadAll_total`).
* A Go map is an association list with distinct keys; `range` over a map
  visits the entries in list order (Go leaves the order unspecified).
* `strings.TrimFunc` with `unicode.IsControl` is modelled on the UTF-8 bytes:
  the control runes are the one-byte `00..1F`, `7F` and the two-byte
  `C2 80 .. C2 9F`.
* The wire format of section 6 of the specification (`Wire`, `Entries`,
  `Wire.encode`) and the value of a double (`f64Val`) are written from the
  specification, to state the claims against the code.
-/

namespace LuaParser

abbrev Byte := Fin 256

abbrev Str := List Byte

/-- Tag byte `'S'`. -/
def TypeString : Byte := 0x53

/-- Tag byte `'N'`. -/
def TypeNumber : Byte := 0x4E

/-- Tag byte `'B'`. -/
def TypeBoolean : Byte := 0x42

/-- Tag byte `'T'`. -/
def TypeTable : Byte := 0x54

/-- The state of the `bytes.Reader` held by `LuaParser`: the unread bytes and
the absolute index of the first of them. -/
structure Reader where
  rest : List Byte
  off : Nat
deriving DecidableEq, Repr

/-- `New(data)`: a reader positioned at the start of `data`. -/
def New (data : List Byte) : Reader := ⟨data, 0⟩

/-- `bytes.Reader.Len`: number of unread bytes. -/
def Reader.Len (r : Reader) : Nat := r.rest.length

/-- `bytes.Reader.Size`: length of the underlying buffer. -/
def Reader.Size (r : Reader) : Nat := r.off + r.rest.length

/-- Errors returned by the parser: the two `io` sentinels, the unknown-tag
error of `ReadValue`, and the wrappers added by `fmt.Errorf("...: %w", err)`. -/
inductive Err where
  | EOF
  | ErrUnexpectedEOF
  | unknownType (t : Byte) (offset : Int)
  | stringLength (e : Err)
  | stringBody (e : Err)
  | number (e : Err)
  | boolean (e : Err)
  | tablePadding (e : Err)
  | tableCount (e : Err)
  | tableKey (i : Nat) (e : Err)
  | tableVal (i : Nat) (e : Err)
deriving DecidableEq, Repr

/-- The root cause of an error (`errors.Unwrap` iterated). -/
def Err.cause : Err → Err
  | .stringLength e => e.cause
  | .stringBody e => e.cause
  | .number e => e.cause
  | .boolean e => e.cause
  | .tablePadding e => e.cause
  | .tableCount e => e.cause
  | .tableKey _ e => e.cause
  | .tableVal _ e => e.cause
  | e => e

/-- Outcome of one read: a value and the reader after it, an error and the
reader where the failed read stopped, or no return at all (a run-time panic,
or the fatal error of an allocation that cannot be served). -/
inductive Res (α : Type) where
  | ok (v : α) (r : Reader)
  | err (e : Err) (r : Reader)
  | panic
deriving DecidableEq, Repr

/-- `bytes.Reader.ReadByte`. -/
def ReadByte (r : Reader) : Res Byte :=
  match r.rest with
  | [] => .err .EOF r
  | b :: t => .ok b ⟨t, r.off + 1⟩

/-- `io.ReadFull(p.R, buf)` with `len(buf) = n`: all `n` bytes or an error
(`io.EOF` when nothing could be read, `io.ErrUnexpectedEOF` when some could);
a failed read leaves the reader at the end of the buffer. -/
def ReadFull (n : Nat) (r : Reader) : Res (List Byte) :=
  if n ≤ r.rest.length then .ok (r.rest.take n) ⟨r.rest.drop n, r.off + n⟩
  else if r.rest.length = 0 then .err .EOF r
  else .err .ErrUnexpectedEOF ⟨[], r.off + r.rest.length⟩

/-- Little-endian value of a byte sequence. -/
def leNat : List Byte → Nat
  | [] => 0
  | b :: t => b.val + 256 * leNat t

/-- A 64-bit pattern read as a signed `int`/`int64`. -/
def toInt64 (u : Nat) : Int :=
  if u % 2 ^ 64 < 2 ^ 63 then ((u % 2 ^ 64 : Nat) : Int) else ((u % 2 ^ 64 : Nat) : Int) - 2 ^ 64

/-- A 32-bit pattern read as a signed `int32`. -/
def toInt32 (u : Nat) : Int :=
  if u % 2 ^ 32 < 2 ^ 31 then ((u % 2 ^ 32 : Nat) : Int) else ((u % 2 ^ 32 : Nat) : Int) - 2 ^ 32

/-- The loop of `read7BitInt` (lines 40-50): `result` is the bit pattern of the
`int` accumulator, `shift` the `uint` shift count. -/
def read7BitIntLoop : List Byte → Nat → Nat → Nat → Res Int
  | [], _, _, off => .err .EOF ⟨[], off⟩
  | b :: t, result, shift, off =>
    let result1 := (result ||| ((b.val &&& 0x7F) <<< shift)) % 2 ^ 64
    if b.val &&& 0x80 = 0 then .ok (toInt64 result1) ⟨t, off + 1⟩
    else read7BitIntLoop t result1 ((shift + 7) % 2 ^ 64) (off + 1)

/-- `read7BitInt` (lines 37-52). -/
def read7BitInt (r : Reader) : Res Int :=
  read7BitIntLoop r.rest 0 0 r.off

/-! ## float64 as a bit pattern -/

/-- Biased exponent field. -/
def f64Exp (x : Nat) : Nat := x / 2 ^ 52 % 2 ^ 11

/-- Fraction field. -/
def f64Frac (x : Nat) : Nat := x % 2 ^ 52

/-- Sign bit. -/
def f64Neg (x : Nat) : Bool := x / 2 ^ 63 % 2 = 1

def f64IsNaN (x : Nat) : Bool := f64Exp x = 2047 && f64Frac x ≠ 0

def f64IsInf (x : Nat) : Bool := f64Exp x = 2047 && f64Frac x = 0

/-- Order key of a non-NaN double: the exponent and fraction bits, negated
for a negative sign. It is monotone in the value denoted and sends both
zeros to `0`. -/
def f64Key (x : Nat) : Int :=
  if f64Neg x then -((x % 2 ^ 63 : Nat) : Int) else ((x % 2 ^ 63 : Nat) : Int)

/-- Go's `a == b` on `float64`. -/
def f64Eq (a b : Nat) : Bool := !f64IsNaN a && !f64IsNaN b && f64Key a = f64Key b

/-- Go's `a <= b` on `float64`. -/
def f64Le (a b : Nat) : Bool := !f64IsNaN a && !f64IsNaN b && f64Key a ≤ f64Key b

/-- `math.Trunc`: magnitudes below one become a signed zero, values with
exponent at least 52 (and infinities, NaN) are returned as they are, and
otherwise the fraction bits below the binary point are cleared. -/
def f64Trunc (x : Nat) : Nat :=
  if f64Exp x < 1023 then x / 2 ^ 63 % 2 * 2 ^ 63
  else if 1075 ≤ f64Exp x then x
  else x - x % 2 ^ (1075 - f64Exp x)

/-- The constant `math.MinInt64` converted to `float64`: exactly `-2^63`. -/
def f64MinInt64 : Nat := 0xC3E0000000000000

/-- The constant `math.MaxInt64 = 2^63 - 1` converted to `float64`. It is not
representable and rounds to the nearest double, `2^63`. -/
def f64MaxInt64 : Nat := 0x43E0000000000000

/-- The result of `int64(x)` when the value of `x` is outside the `int64` range.
The Go specification leaves it implementation-dependent; this is the amd64
result (the "integer indefinite" value `-2^63`). -/
def int64Indefinite : Int := -2 ^ 63

/-- The integer part of the magnitude of a finite double: zero below one,
otherwise the significand `2^52 + fraction` scaled by the exponent. -/
def f64IntMag (x : Nat) : Nat :=
  if f64Exp x < 1023 then 0
  else if 1075 ≤ f64Exp x then (2 ^ 52 + f64Frac x) * 2 ^ (f64Exp x - 1075)
  else (2 ^ 52 + f64Frac x) / 2 ^ (1075 - f64Exp x)

/-- The integer part of a finite double, with its sign. -/
def f64IntPart (x : Nat) : Int :=
  if f64Neg x then -((f64IntMag x : Nat) : Int) else ((f64IntMag x : Nat) : Int)

/-- Go's conversion `int64(x)` of a `float64`: truncation toward zero when the
result fits, `int64Indefinite` otherwise (an exponent field of 1087 or more
means a magnitude of at least `2^64`, an infinity or a NaN). -/
def f64ToInt64 (x : Nat) : Int :=
  if 1087 ≤ f64Exp x then int64Indefinite
  else if -2 ^ 63 ≤ f64IntPart x ∧ f64IntPart x < 2 ^ 63 then f64IntPart x
  else int64Indefinite

/-! ## Values -/

/-- What `ReadValue` returns: `string`, `int64`, `float64` (bit pattern), `bool`
or `map[string]interface{}` (an association list with distinct keys). -/
inductive Value where
  | str (s : Str)
  | int (n : Int)
  | float (bits : Nat)
  | bool (b : Bool)
  | table (m : List (Str × Value))

abbrev Table := List (Str × Value)

/-- Map assignment `m[k] = v`. -/
def mapSet {α : Type} : List (Str × α) → Str → α → List (Str × α)
  | [], k, v => [(k, v)]
  | (k1, v1) :: t, k, v => if k1 = k then (k, v) :: t else (k1, v1) :: mapSet t k v

/-- Map lookup `m[k]`. -/
def mapGet {α : Type} : List (Str × α) → Str → Option α
  | [], _ => none
  | (k1, v1) :: t, k => if k1 = k then some v1 else mapGet t k

/-- The loop `for k, v := range table { all[k] = v }` of `ReadAll`. -/
def mapMerge {α : Type} (all table : List (Str × α)) : List (Str × α) :=
  table.foldl (fun acc kv => mapSet acc kv.1 kv.2) all

/-- The parts of the Go library and run time that are not modelled concretely:
the `%v` rendering of a `float64` and of a map by `fmt.Sprint`, and the largest
allocations the run can serve, `maxAlloc` bytes for a byte slice and
`maxMapHint` entries for the size hint of a map. -/
structure GoFmt where
  float : Nat → Str
  table : List (Str × Value) → Str
  maxAlloc : Nat
  maxMapHint : Nat

/-- ASCII code of a decimal digit character. -/
def digitByte (c : Char) : Byte := ⟨c.toNat % 256, Nat.mod_lt _ (by decide)⟩

/-- Decimal rendering of an `int64` (`%d`). -/
def fmtInt (n : Int) : Str :=
  if n < 0 then 0x2D :: (Nat.toDigits 10 n.natAbs).map digitByte
  else (Nat.toDigits 10 n.natAbs).map digitByte

/-- `fmt.Sprint(key)` for the dynamic types `ReadValue` returns. -/
def Sprint (F : GoFmt) : Value → Str
  | .str s => s
  | .int n => fmtInt n
  | .float x => F.float x
  | .bool b => if b then [0x74, 0x72, 0x75, 0x65] else [0x66, 0x61, 0x6C, 0x73, 0x65]
  | .table m => F.table m

/-! ## ReadValue -/

/-- Lines 79-82: an integral double within the compared range becomes an
`int64`, any other stays a `float64`. -/
def numberValue (n : Nat) : Value :=
  if f64Eq n (f64Trunc n) && f64Le f64MinInt64 n && f64Le n f64MaxInt64 then .int (f64ToInt64 n)
  else .float n

/-- The longest byte slice `make([]byte, n)` returns while the buffer of `r`
is held: the limit of the run, and no less than the size of that buffer. -/
def sliceLimit (F : GoFmt) (r : Reader) : Nat := max F.maxAlloc r.Size

/-- The largest size hint `make(map[string]interface{}, n)` returns for while
the buffer of `r` is held: the limit of the run, and no less than the size of
that buffer (a table that is complete has fewer pairs than the buffer has
bytes). -/
def mapLimit (F : GoFmt) (r : Reader) : Nat := max F.maxMapHint r.Size

/-- The `TypeString` case (lines 63-72). `make([]byte, length)` on line 68
does not return for a negative length or one above the limit. -/
def readString (F : GoFmt) (r : Reader) : Res Value :=
  match read7BitInt r with
  | .err e r1 => .err (.stringLength e) r1
  | .panic => .panic
  | .ok length r1 =>
    if length < 0 ∨ (sliceLimit F r1 : Int) < length then .panic
    else
      match ReadFull length.toNat r1 with
      | .err e r2 => .err (.stringBody e) r2
      | .panic => .panic
      | .ok buf r2 => .ok (.str buf) r2

/-- The `TypeNumber` case (lines 74-82). -/
def readNumber (r : Reader) : Res Value :=
  match ReadFull 8 r with
  | .err e r1 => .err (.number e) r1
  | .panic => .panic
  | .ok bs r1 => .ok (numberValue (leNat bs)) r1

/-- The `TypeBoolean` case (lines 84-89). -/
def readBoolean (r : Reader) : Res Value :=
  match ReadByte r with
  | .err e r1 => .err (.boolean e) r1
  | .panic => .panic
  | .ok b r1 => .ok (.bool (b != 0)) r1

/-- The table header (lines 92-99): four padding bytes, then the `int32`
entry count. -/
def readTableHeader (r : Reader) : Res Int :=
  match ReadFull 4 r with
  | .err e r1 => .err (.tablePadding e) r1
  | .panic => .panic
  | .ok _ r1 =>
    match ReadFull 4 r1 with
    | .err e r2 => .err (.tableCount e) r2
    | .panic => .panic
    | .ok bs r2 => .ok (toInt32 (leNat bs)) r2

/-- The table loop (lines 102-112) with `n` iterations left, `i` the loop
counter, `rv` the recursive `ReadValue`. -/
def readPairs (F : GoFmt) (rv : Reader → Option (Res Value)) :
    Nat → Nat → Table → Reader → Option (Res Value)
  | 0, _, table, r => some (.ok (.table table) r)
  | n + 1, i, table, r =>
    match rv r with
    | none => none
    | some .panic => some .panic
    | some (.err e r1) => some (.err (.tableKey i e) r1)
    | some (.ok key r1) =>
      match rv r1 with
      | none => none
      | some .panic => some .panic
      | some (.err e r2) => some (.err (.tableVal i e) r2)
      | some (.ok val r2) => readPairs F rv n (i + 1) (mapSet table (Sprint F key) val) r2

/-- `ReadValue` (lines 56-119) with a bound on the recursion depth.
`make(map[string]interface{}, int(count))` on line 101 allocates for `count`
entries before the first pair is read, and does not return for a count above
the limit; a negative hint allocates nothing. -/
def ReadValueFuel (F : GoFmt) : Nat → Reader → Option (Res Value)
  | 0, _ => none
  | fuel + 1, r =>
    match ReadByte r with
    | .err e r1 => some (.err e r1)
    | .panic => some .panic
    | .ok t r1 =>
      if t = TypeString then some (readString F r1)
      else if t = TypeNumber then some (readNumber r1)
      else if t = TypeBoolean then some (readBoolean r1)
      else if t = TypeTable then
        match readTableHeader r1 with
        | .err e r2 => some (.err e r2)
        | .panic => some .panic
        | .ok count r2 =>
          if (mapLimit F r2 : Int) < count then some .panic
          else readPairs F (ReadValueFuel F fuel) count.toNat 0 [] r2
      else some (.err (.unknownType t ((r1.Size : Int) - (r1.Len : Int) - 1)) r1)

/-- `ReadValue`: every level of nesting consumes at least one byte, so the
number of unread bytes plus one bounds the recursion depth. -/
def ReadValue (F : GoFmt) (r : Reader) : Option (Res Value) :=
  ReadValueFuel F (r.rest.length + 1) r

/-! ## ReadAll -/

/-- What `ReadAll` returns: the merged map, an error, or no return at all. -/
inductive AllRes where
  | ok (all : Table)
  | err (e : Err)
  | panic

/-- Effect of one iteration of the loop of `ReadAll`. -/
inductive Step where
  | next (r : Reader) (all : Table)
  | done (res : AllRes)

/-- Lines 136-139: after a failure that was not skipped. -/
def giveUp (all : Table) (e : Err) : Step :=
  if all.length > 0 then .done (.ok all) else .done (.err e)

/-- The body of the loop of `ReadAll` (lines 126-145). -/
def ReadAllStep (F : GoFmt) (r : Reader) (all : Table) : Option Step :=
  match ReadValue F r with
  | none => none
  | some .panic => some (.done .panic)
  | some (.err e r1) =>
    match r1.rest with
    | [] => some (giveUp all e)
    | b :: t => if b = 0 then some (.next ⟨t, r1.off + 1⟩ all) else some (giveUp all e)
  | some (.ok (.table table) r1) => some (.next r1 (mapMerge all table))
  | some (.ok _ r1) => some (.next r1 all)

/-- The loop of `ReadAll` (lines 125-147), at most `fuel` iterations. -/
def ReadAllLoop (F : GoFmt) : Nat → Reader → Table → Option AllRes
  | 0, _, _ => none
  | fuel + 1, r, all =>
    if r.Len > 0 then
      match ReadAllStep F r all with
      | none => none
      | some (.done res) => some res
      | some (.next r1 all1) => ReadAllLoop F fuel r1 all1
    else some (.ok all)

/-- `New(data).ReadAll()`: every iteration consumes at least one byte, so
`len(data) + 1` bounds the number of loop tests. -/
def ReadAll (F : GoFmt) (data : List Byte) : Option AllRes :=
  ReadAllLoop F (data.length + 1) (New data) []

/-! ## The wire format, as the specification describes it -/

/-- The value of a VarInt: the sum of `(b_i AND 0x7F) * 2^(7 i)`. -/
def varintVal : List Byte → Nat
  | [] => 0
  | b :: t => (b.val &&& 0x7F) + 128 * varintVal t

/-- A terminated VarInt: every byte but the last has the high bit set, the
last has it clear. -/
def Terminated : List Byte → Bool
  | [] => false
  | [b] => b.val &&& 0x80 = 0
  | b :: t => b.val &&& 0x80 ≠ 0 && Terminated t

/-- The byte with value `n mod 256`. -/
def byteOf (n : Nat) : Byte := ⟨n % 256, Nat.mod_lt _ (by decide)⟩

/-- The `n` low bytes of `x`, least significant first. -/
def leBytes : Nat → Nat → List Byte
  | 0, _ => []
  | n + 1, x => byteOf x :: leBytes n (x / 256)

/-- The groups of the minimal VarInt of `n`, least significant first; the
first argument bounds the number of continuation groups. -/
def encVarintFuel : Nat → Nat → List Byte
  | 0, n => [byteOf (n % 128)]
  | f + 1, n => if n < 128 then [byteOf n] else byteOf (128 + n % 128) :: encVarintFuel f (n / 128)

/-- The minimal VarInt of `n` (`n` continuation groups are more than enough). -/
def encVarint (n : Nat) : List Byte := encVarintFuel n n

mutual
/-- The syntax of a well-formed encoding of one value, as section 6 of the
specification lays it out: a string body, the eight bytes of a number (as
their little-endian value), the byte of a boolean, or the four padding bytes
and the (key, value) pairs of a table. -/
inductive Wire where
  | str (s : Str)
  | num (bits : Nat)
  | bool (b : Byte)
  | table (pad : List Byte) (es : Entries)
/-- The (key, value) pairs of a table, in order. -/
inductive Entries where
  | nil
  | cons (k v : Wire) (rest : Entries)
end

/-- Number of pairs. -/
def Entries.count : Entries → Nat
  | .nil => 0
  | .cons _ _ rest => rest.count + 1

mutual
/-- The bytes of an encoding: tag, then payload. -/
def Wire.encode : Wire → List Byte
  | .str s => TypeString :: (encVarint s.length ++ s)
  | .num bits => TypeNumber :: leBytes 8 bits
  | .bool b => [TypeBoolean, b]
  | .table pad es => TypeTable :: (pad ++ (leBytes 4 es.count ++ es.encode))
/-- The bytes of the pairs: key then value, pair after pair. -/
def Entries.encode : Entries → List Byte
  | .nil => []
  | .cons k v rest => k.encode ++ (v.encode ++ rest.encode)
end

mutual
/-- The sizes fit their fields: a string shorter than `2^63` bytes, a number of
64 bits, four padding bytes, a pair count below `2^31`. -/
def Wire.fits : Wire → Bool
  | .str s => s.length < 2 ^ 63
  | .num bits => bits < 2 ^ 64
  | .bool _ => true
  | .table pad es => pad.length = 4 && es.count < 2 ^ 31 && es.fits
def Entries.fits : Entries → Bool
  | .nil => true
  | .cons k v rest => k.fits && v.fits && rest.fits
end

mutual
/-- Nesting depth of tables. -/
def Wire.depth : Wire → Nat
  | .table _ es => es.depth + 1
  | _ => 0
def Entries.depth : Entries → Nat
  | .nil => 0
  | .cons k v rest => max (max k.depth v.depth) rest.depth
end

mutual
/-- The value an encoding denotes: the string, the boolean (nonzero is true),
the number as `numberValue` resolves it, or the table built from the pairs. -/
def Wire.value (F : GoFmt) : Wire → Value
  | .str s => .str s
  | .num bits => numberValue bits
  | .bool b => .bool (b != 0)
  | .table _ es => .table (es.insertInto F [])
/-- Inserting the pairs in order into a mapping, each key under its canonical
string. -/
def Entries.insertInto (F : GoFmt) : Entries → Table → Table
  | .nil, table => table
  | .cons k v rest, table => rest.insertInto F (mapSet table (Sprint F (k.value F)) (v.value F))
end

/-- The value the last pair with canonical key `key` carries, if any. -/
def Entries.lastValue (F : GoFmt) : Entries → Str → Option Value
  | .nil, _ => none
  | .cons k v rest, key =>
    match rest.lastValue F key with
    | some x => some x
    | none => if Sprint F (k.value F) = key then some (v.value F) else none

/-- The rational number a finite double denotes: sign, significand (with the
implicit leading bit unless the exponent field is zero) and power of two. -/
def f64Val (x : Nat) : ℚ :=
  let m : ℚ := if f64Exp x = 0 then (f64Frac x : ℚ) else 2 ^ 52 + (f64Frac x : ℚ)
  let e : ℤ := if f64Exp x = 0 then -1074 else (f64Exp x : ℤ) - 1075
  (if f64Neg x then -m else m) * 2 ^ e

/-- The numeric-collapse condition in the words of the specification: the
double `x` is finite, has zero fractional part (it equals the integer `n`) and
lies within the signed 64-bit range. -/
def SpecInteger (x : Nat) (n : Int) : Prop :=
  f64Exp x ≠ 2047 ∧ f64Val x = (n : ℚ) ∧ -2 ^ 63 ≤ n ∧ n ≤ 2 ^ 63 - 1

/-- A run for examples: no key is a float or a map, and the allocation limits
are `2^32` bytes for a byte slice and `2^24` entries for a map. -/
def exampleFmt : GoFmt := ⟨fun _ => [], fun _ => [], 2 ^ 32, 2 ^ 24⟩

/-- Top-level encodings concatenated with no separators. -/
def encodeAll : List Wire → List Byte
  | [] => []
  | w :: ws => w.encode ++ encodeAll ws

/-- The value of `key` in the last table of the sequence that contains it;
values that are not tables are passed over. -/
def lastTableValue (F : GoFmt) : List Wire → Str → Option Value
  | [], _ => none
  | w :: ws, key =>
    match lastTableValue F ws key with
    | some x => some x
    | none =>
      match w with
      | .table _ es => es.lastValue F key
      | _ => none

/-- What one successful iteration of `ReadAll` does to the accumulator. -/
def mergeValue (all : Table) : Value → Table
  | .table table => mapMerge all table
  | _ => all

/-- What a step of `ReadAll` guarantees: a continuing step leaves strictly fewer
unread bytes and keeps a non-empty accumulator non-empty; a step that ends with
a mapping ends with the accumulator; a step ends with an error only when the
accumulator is empty. -/
def StepOk (r : Reader) (all : Table) : Step → Prop
  | .next r1 all1 => r1.rest.length < r.rest.length ∧ (0 < all.length → 0 < all1.length)
  | .done (.ok m) => m = all
  | .done (.err _) => all.length = 0
  | .done .panic => True

/-- The `d + 1`-fold nesting of one-entry tables: the innermost table is empty,
and each enclosing table holds it under the key `"k"`. -/
def nestedTable : Nat → Wire
  | 0 => .table [0, 0, 0, 0] .nil
  | d + 1 => .table [0, 0, 0, 0] (.cons (.str [0x6B]) (nestedTable d) .nil)

/-- A read depends only on the bytes it consumes: whenever it succeeds, the
unread bytes split into the consumed bytes `c` and what is left, the cursor has
moved by the length of `c`, and the same read started at the same offset on `c`
followed by any other bytes returns the same value and stops after `c`. -/
def FrameOk {α : Type} (f : Reader → Option (Res α)) : Prop :=
  ∀ (rest : List Byte) (off : Nat) (v : α) (r1 : Reader), f ⟨rest, off⟩ = some (.ok v r1) →
    ∃ c, rest = c ++ r1.rest ∧ r1.off = off + c.length
      ∧ ∀ post, f ⟨c ++ post, off⟩ = some (.ok v ⟨post, off + c.length⟩)

/-- The number of times the body of the loop of `ReadAll` runs, at most `fuel`. -/
def ReadAllCount (F : GoFmt) : Nat → Reader → Table → Nat
  | 0, _, _ => 0
  | fuel + 1, r, all =>
    if r.Len > 0 then
      match ReadAllStep F r all with
      | some (.next r1 all1) => 1 + ReadAllCount F fuel r1 all1
      | _ => 1
    else 0

/-- The number a string of decimal digits denotes. -/
def decimalValue (s : Str) : Nat :=
  s.foldl (fun acc c => 10 * acc + (c.val - 0x30)) 0

/-- The canonical decimal rendering of a natural number: a non-empty string of
the digits `'0'..'9'` that denotes it, with no leading zero unless it is `"0"`. -/
def CanonicalNat (s : Str) (n : Nat) : Prop :=
  s ≠ [] ∧ (∀ c ∈ s, 0x30 ≤ c.val ∧ c.val ≤ 0x39) ∧ (s.head? = some 0x30 → s = [0x30])
    ∧ decimalValue s = n

/-- The canonical decimal rendering of an integer: that of its absolute value,
after a `'-'` when it is negative. -/
def CanonicalDecimal (s : Str) (n : Int) : Prop :=
  if n < 0 then ∃ d, s = 0x2D :: d ∧ CanonicalNat d n.natAbs else CanonicalNat s n.natAbs

/-- The pairs of a table as a list. -/
def Entries.toList : Entries → List (Wire × Wire)
  | .nil => []
  | .cons k v rest => (k, v) :: rest.toList

/-! ## The cleaner -/

/-- `unicode.IsControl(r) || r == 0` for a rune encoded in one byte: the C0
controls (NUL included) and DEL. -/
def isControlByte (b : Byte) : Bool := b.val ≤ 0x1F || b.val = 0x7F

/-- The second byte of the two-byte encodings `C2 80 .. C2 9F` of the C1
controls `U+0080..U+009F`, the other runes `unicode.IsControl` accepts. -/
def isC1Second (c : Byte) : Bool := 0x80 ≤ c.val && c.val ≤ 0x9F

/-- `strings.TrimLeftFunc(s, f)` for `f = IsControl(r) || r == 0` on the UTF-8
bytes of `s`: leading control runes are dropped; any other rune, and any byte
that does not decode, ends the scan. -/
def trimLeftControl : Str → Str
  | [] => []
  | [b] => if isControlByte b then [] else [b]
  | b :: c :: u =>
    if isControlByte b then trimLeftControl (c :: u)
    else if b = 0xC2 && isC1Second c then trimLeftControl u
    else b :: c :: u

/-- The scan of `strings.TrimRightFunc(s, f)` on the reversed bytes of `s`. -/
def trimRightControlRev : Str → Str
  | [] => []
  | [c] => if isControlByte c then [] else [c]
  | c :: b :: u =>
    if isControlByte c then trimRightControlRev (b :: u)
    else if isC1Second c && b = 0xC2 then trimRightControlRev u
    else c :: b :: u

/-- `strings.TrimRightFunc(s, f)` for the same `f`. -/
def trimRightControl (s : Str) : Str := (trimRightControlRev s.reverse).reverse

/-- `CleanString` (cleaner.go, lines 12-16): `strings.TrimFunc`, which trims
on the left and then on the right. -/
def CleanString (s : Str) : Str := trimRightControl (trimLeftControl s)

mutual
/-- The `switch` in the loop of `CleanObject` (lines 22-29). -/
def CleanValue : Value → Value
  | .str val => .str (CleanString val)
  | .table val => .table (CleanObjectLoop val [])
  | v => v
/-- The loop of `CleanObject` (lines 21-30) over the entries of `obj`, with the
map `cleaned` built so far. -/
def CleanObjectLoop : List (Str × Value) → Table → Table
  | [], cleaned => cleaned
  | (k, v) :: rest, cleaned => CleanObjectLoop rest (mapSet cleaned k (CleanValue v))
end

/-- `CleanObject` (lines 19-32). -/
def CleanObject (obj : Table) : Table := CleanObjectLoop obj []

/-- `CleanMap` (lines 35-41). -/
def CleanMap (m : List (Str × Table)) : List (Str × Table) :=
  m.foldl (fun result kv => mapSet result kv.1 (CleanObject kv.2)) []

/-! ## The classifier -/

/-- The bytes of an ASCII string literal. -/
def ascii (s : String) : Str := s.toList.map (fun c => byteOf c.toNat)

/-- `GameData` (classifier.go, lines 11-24). -/
structure GameData where
  Items : List (Str × Table)
  NPCs : List (Str × Table)
  Thoughts : List (Str × Table)
  Skills : List (Str × Table)
  WorldObjects : List (Str × Table)
  Unclassified : List (Str × Table)
  TaskVariables : Table
  SubstanceVariables : Table
  GameVariables : Table
  AllVariables : Table

/-- `NewGameData` (lines 27-40). -/
def NewGameData : GameData := ⟨[], [], [], [], [], [], [], [], [], []⟩

/-- The keys of the map `skillNames` (lines 42-55); every value is `true`. -/
def skillNames : List Str :=
  [ascii "Logic", ascii "Encyclopedia", ascii "Rhetoric", ascii "Drama",
   ascii "Conceptualization", ascii "Visual Calculus",
   ascii "Volition", ascii "Inland Empire", ascii "Empathy", ascii "Authority",
   ascii "Suggestion", ascii "Esprit de Corps",
   ascii "Endurance", ascii "Pain Threshold", ascii "Physical Instrument",
   ascii "Electrochemistry", ascii "Shivers", ascii "Half Light",
   ascii "Hand/Eye Coordination", ascii "Perception", ascii "Reaction Speed",
   ascii "Savoir Faire", ascii "Interfacing", ascii "Composure",
   ascii "Intellect", ascii "Psyche", ascii "Fysique", ascii "Motorics",
   ascii "Ancient Reptilian Brain", ascii "Limbic System"]

/-- ASCII lower case of a byte. -/
def asciiLower (b : Byte) : Byte := if 0x41 ≤ b.val ∧ b.val ≤ 0x5A then byteOf (b.val + 0x20) else b

/-- `strings.EqualFold(s, "true")`: no rune outside ASCII folds to `t`, `r`, `u`
or `e`, so it is the comparison of the bytes up to ASCII case. -/
def equalFoldTrue (s : Str) : Bool := s.map asciiLower = ascii "true"

/-- `isTrue` (lines 166-174), applied to the result of a map lookup. -/
def isTrue : Option Value → Bool
  | some (.bool b) => b
  | some (.str s) => equalFoldTrue s
  | _ => false

/-- `hasKey` (lines 176-179). -/
def hasKey (m : Table) (key : Str) : Bool := (mapGet m key).isSome

/-- `hasAny` (lines 181-188). -/
def hasAny (m : Table) (keys : List Str) : Bool := keys.any (fun k => (mapGet m k).isSome)

/-- `stringVal` (lines 190-199). -/
def stringVal (m : Table) (key : Str) : Str :=
  match mapGet m key with
  | some (.str s) => CleanString s
  | _ => []

/-- `isItem` (lines 147-162). -/
def isItem (obj : Table) : Bool :=
  if isTrue (mapGet obj (ascii "IsItem")) || isTrue (mapGet obj (ascii "Is_Item")) then true
  else if hasKey obj (ascii "itemType") || hasKey obj (ascii "itemGroup") then true
  else if hasKey obj (ascii "itemValue") then true
  else if hasKey obj (ascii "equipOrb") || hasKey obj (ascii "equipSlot") then true
  else false

/-- The variable `name` of `classifyObject` (lines 98-101). -/
def objectName (key : Str) (obj : Table) : Str :=
  if stringVal obj (ascii "Name") = [] then key else stringVal obj (ascii "Name")

/-- `classifyObject` (lines 97-145): the returned flag and the state of `gd`
after the call. -/
def classifyObject (key : Str) (obj : Table) (gd : GameData) : Bool × GameData :=
  let name := objectName key obj
  if skillNames.contains name && hasAny obj [ascii "IsNPC", ascii "Is_Actor"] then
    (true, { gd with Skills := mapSet gd.Skills key obj })
  else if isTrue (mapGet obj (ascii "IsNPC")) || isTrue (mapGet obj (ascii "Is_Actor")) then
    (true, { gd with NPCs := mapSet gd.NPCs key obj })
  else if hasKey obj (ascii "thoughtType") || hasKey obj (ascii "isThought")
      || hasKey obj (ascii "fixtureDescription") || hasKey obj (ascii "fixtureBonus") then
    (true, { gd with Thoughts := mapSet gd.Thoughts key obj })
  else if isItem obj then
    (true, { gd with Items := mapSet gd.Items key obj })
  else if hasKey obj (ascii "character_short_name") && hasKey obj (ascii "Articy_Id") then
    (true, { gd with WorldObjects := mapSet gd.WorldObjects key obj })
  else if hasKey obj (ascii "Articy_Id") && name ≠ [] && !skillNames.contains name then
    (true, { gd with Unclassified := mapSet gd.Unclassified key obj })
  else (false, gd)

mutual
/-- The body of the loop of `walkTree` (lines 84-93) for one entry. -/
def walkEntry : Value → Str → GameData → GameData
  | .table obj, key, gd =>
    if (classifyObject key obj gd).1 then (classifyObject key obj gd).2
    else walkTree obj key (classifyObject key obj gd).2
  | _, _, gd => gd
/-- `walkTree` (lines 82-95); the entries are visited in list order (Go leaves
the order of `range` over a map unspecified). -/
def walkTree : List (Str × Value) → Str → GameData → GameData
  | [], _, gd => gd
  | (key, val) :: rest, context, gd => walkTree rest context (walkEntry val key gd)
end

/-- Whether a value is a `map[string]interface{}`. -/
def Value.isTable : Value → Bool
  | .table _ => true
  | _ => false

/-- The body of the first loop of `Classify` (lines 62-75). -/
def classifyVariable (gd : GameData) (kv : Str × Value) : GameData :=
  if kv.2.isTable then gd
  else
    let gd1 := { gd with AllVariables := mapSet gd.AllVariables kv.1 kv.2 }
    if (ascii "TASK.").isPrefixOf kv.1 then
      { gd1 with TaskVariables := mapSet gd1.TaskVariables kv.1 kv.2 }
    else if (ascii "SUBSTANCE.").isPrefixOf kv.1 then
      { gd1 with SubstanceVariables := mapSet gd1.SubstanceVariables kv.1 kv.2 }
    else { gd1 with GameVariables := mapSet gd1.GameVariables kv.1 kv.2 }

/-- `Classify` (lines 58-80). -/
def Classify (data : Table) : GameData :=
  walkTree data [] (data.foldl classifyVariable NewGameData)

/-- The six category maps of `GameData`. -/
inductive Category where
  | Items | NPCs | Thoughts | Skills | WorldObjects | Unclassified
deriving DecidableEq, Repr

/-- The state `gd` after the one assignment `gd.<category>[key] = obj`. -/
def GameData.store (gd : GameData) (cat : Category) (key : Str) (obj : Table) : GameData :=
  match cat with
  | .Items => { gd with Items := mapSet gd.Items key obj }
  | .NPCs => { gd with NPCs := mapSet gd.NPCs key obj }
  | .Thoughts => { gd with Thoughts := mapSet gd.Thoughts key obj }
  | .Skills => { gd with Skills := mapSet gd.Skills key obj }
  | .WorldObjects => { gd with WorldObjects := mapSet gd.WorldObjects key obj }
  | .Unclassified => { gd with Unclassified := mapSet gd.Unclassified key obj }

/-- One of the six category maps of `GameData`. -/
def GameData.get (gd : GameData) : Category → List (Str × Table)
  | .Items => gd.Items
  | .NPCs => gd.NPCs
  | .Thoughts => gd.Thoughts
  | .Skills => gd.Skills
  | .WorldObjects => gd.WorldObjects
  | .Unclassified => gd.Unclassified

/-- The four variable maps of `GameData`: task, substance, game, all. -/
def GameData.variables (gd : GameData) : Table × Table × Table × Table :=
  (gd.TaskVariables, gd.SubstanceVariables, gd.GameVariables, gd.AllVariables)

mutual
/-- Every string length and every pair count declared in the encoding is within
the allocation limits of the run. -/
def Wire.within (F : GoFmt) : Wire → Bool
  | .str s => s.length ≤ F.maxAlloc
  | .num _ => true
  | .bool _ => true
  | .table _ es => es.count ≤ F.maxMapHint && es.within F
/-- The same for the pairs of a table. -/
def Entries.within (F : GoFmt) : Entries → Bool
  | .nil => true
  | .cons k v rest => k.within F && v.within F && rest.within F
end

/-! ## read7BitInt -/

theorem toInt64_of_lt {u : Nat} (h : u < 2 ^ 63) : toInt64 u = (u : Int) := by
  have h1 : u % 2 ^ 64 = u := Nat.mod_eq_of_lt (by omega)
  unfold toInt64
  rw [h1, if_pos h]

theorem group_or (result g s : Nat) (hres : result < 2 ^ s) (hg : g ≤ 127)
    (hfit : result + 2 ^ s * g < 2 ^ 63) :
    (result ||| (g <<< (s % 2 ^ 64))) % 2 ^ 64 = result + 2 ^ s * g := by
  rcases Nat.eq_zero_or_pos g with h0 | hpos
  · subst h0
    simp only [Nat.zero_shiftLeft, Nat.or_zero, Nat.mul_zero, Nat.add_zero] at hfit ⊢
    exact Nat.mod_eq_of_lt (by omega)
  · have hs : s < 63 := by
      by_contra hcon
      have h1 : 2 ^ 63 ≤ 2 ^ s := Nat.pow_le_pow_right (by norm_num) (by omega)
      have h2 : 2 ^ s ≤ 2 ^ s * g := Nat.le_mul_of_pos_right _ hpos
      omega
    have hs1 : s % 2 ^ 64 = s := Nat.mod_eq_of_lt (by omega)
    rw [hs1, Nat.shiftLeft_eq, Nat.mul_comm g, Nat.lor_comm, ← Nat.mul_add_lt_is_or hres,
      Nat.add_comm]
    exact Nat.mod_eq_of_lt (by omega)

theorem read7BitIntLoop_cons (b : Byte) (t : List Byte) (result shift off : Nat) :
    read7BitIntLoop (b :: t) result shift off
      = if b.val &&& 0x80 = 0 then
          .ok (toInt64 ((result ||| ((b.val &&& 0x7F) <<< shift)) % 2 ^ 64)) ⟨t, off + 1⟩
        else read7BitIntLoop t ((result ||| ((b.val &&& 0x7F) <<< shift)) % 2 ^ 64)
          ((shift + 7) % 2 ^ 64) (off + 1) := rfl

theorem read7BitIntLoop_spec (post : List Byte) :
    ∀ (bs : List Byte) (result s off : Nat), Terminated bs = true → result < 2 ^ s →
      result + 2 ^ s * varintVal bs < 2 ^ 63 →
      read7BitIntLoop (bs ++ post) result (s % 2 ^ 64) off
        = .ok ((result + 2 ^ s * varintVal bs : Nat) : Int) ⟨post, off + bs.length⟩ := by
  intro bs
  induction bs with
  | nil => intro _ _ _ h; simp [Terminated] at h
  | cons b t ih =>
    intro result s off hT hres hfit
    have hg : b.val &&& 0x7F ≤ 127 := Nat.and_le_right
    simp only [varintVal] at hfit ⊢
    have hfit1 : result + 2 ^ s * (b.val &&& 0x7F) < 2 ^ 63 := by
      have : 2 ^ s * ((b.val &&& 0x7F) + 128 * varintVal t)
          = 2 ^ s * (b.val &&& 0x7F) + 2 ^ s * (128 * varintVal t) := Nat.mul_add _ _ _
      omega
    have hor := group_or result (b.val &&& 0x7F) s hres hg hfit1
    cases t with
    | nil =>
      have hb : b.val &&& 0x80 = 0 := by simpa [Terminated] using hT
      rw [List.cons_append, read7BitIntLoop_cons, hor, if_pos hb, toInt64_of_lt hfit1]
      simp [varintVal]
    | cons c u =>
      have hT1 : (b.val &&& 0x80 ≠ 0) ∧ Terminated (c :: u) = true := by
        simpa [Terminated] using hT
      have hsh : (s % 2 ^ 64 + 7) % 2 ^ 64 = (s + 7) % 2 ^ 64 := by omega
      have hres1 : result + 2 ^ s * (b.val &&& 0x7F) < 2 ^ (s + 7) := by
        have h1 : 2 ^ s * (b.val &&& 0x7F) ≤ 2 ^ s * 127 := Nat.mul_le_mul_left _ hg
        have h2 : 2 ^ (s + 7) = 2 ^ s * 128 := by rw [Nat.pow_add]
        omega
      have hval : result + 2 ^ s * (b.val &&& 0x7F) + 2 ^ (s + 7) * varintVal (c :: u)
          = result + 2 ^ s * ((b.val &&& 0x7F) + 128 * varintVal (c :: u)) := by
        rw [Nat.pow_add]; ring
      have hrec := ih (result + 2 ^ s * (b.val &&& 0x7F)) (s + 7) (off + 1) hT1.2 hres1
        (by rw [hval]; exact hfit)
      rw [List.cons_append, read7BitIntLoop_cons, hor, if_neg hT1.1, hsh, hrec, hval]
      simp only [List.length_cons]
      congr 2
      omega

/-- The value `read7BitInt` returns on a terminated group sequence that fits. -/
theorem read7BitInt_groups (bs post : List Byte) (off : Nat)
    (hT : Terminated bs = true) (hfit : varintVal bs < 2 ^ 63) :
    read7BitInt ⟨bs ++ post, off⟩ = .ok (varintVal bs : Int) ⟨post, off + bs.length⟩ := by
  have h := read7BitIntLoop_spec post bs 0 0 off hT (by norm_num) (by simpa using hfit)
  simpa [read7BitInt] using h

/-- C7. On a terminated VarInt `b0..b(k-1)` whose value fits the integer type,
followed by any bytes, `read7BitInt` returns the sum of `(bi AND 0x7F) * 2^(7i)`
and consumes exactly the `k` bytes. -/
theorem read7BitInt_terminated (bs post : List Byte) (off : Nat)
    (hT : Terminated bs = true) (hfit : varintVal bs < 2 ^ 63) :
    read7BitInt ⟨bs ++ post, off⟩ = .ok (varintVal bs : Int) ⟨post, off + bs.length⟩ :=
  read7BitInt_groups bs post off hT hfit

/-- C7 at the two inputs the specification lists: `[0x05]` decodes to 5 and
`[0xAC, 0x02]` to 300, each consuming all of its bytes. -/
theorem read7BitInt_terminated_witness :
    read7BitInt ⟨[0x05] ++ [], 0⟩ = .ok ((varintVal [0x05] : Nat) : Int) ⟨[], 0 + [(0x05 : Byte)].length⟩
      ∧ varintVal [0x05] = 5
      ∧ read7BitInt ⟨[0xAC, 0x02] ++ [], 0⟩
          = .ok ((varintVal [0xAC, 0x02] : Nat) : Int) ⟨[], 0 + [(0xAC : Byte), 0x02].length⟩
      ∧ varintVal [0xAC, 0x02] = 300 :=
  ⟨read7BitInt_terminated [0x05] [] 0 (by decide) (by decide), by decide,
    read7BitInt_terminated [0xAC, 0x02] [] 0 (by decide) (by decide), by decide⟩

/-! ## Fuel: more is never different, and the unread length plus one is enough -/

theorem readPairs_mono (F : GoFmt) (rv rv1 : Reader → Option (Res Value))
    (h : ∀ r x, rv r = some x → rv1 r = some x) :
    ∀ (n i : Nat) (table : Table) (r : Reader) (x : Res Value),
      readPairs F rv n i table r = some x → readPairs F rv1 n i table r = some x := by
  intro n
  induction n with
  | zero => intro i table r x hx; simpa [readPairs] using hx
  | succ n ih =>
    intro i table r x hx
    rw [readPairs] at hx ⊢
    cases h1 : rv r with
    | none => simp [h1] at hx
    | some a =>
      rw [h r a h1]
      rw [h1] at hx
      cases a with
      | panic => exact hx
      | err e r1 => exact hx
      | ok key r1 =>
        simp only at hx ⊢
        cases h2 : rv r1 with
        | none => simp [h2] at hx
        | some b =>
          rw [h r1 b h2]
          rw [h2] at hx
          cases b with
          | panic => exact hx
          | err e r2 => exact hx
          | ok val r2 => exact ih _ _ _ _ hx

theorem ReadValueFuel_succ (F : GoFmt) :
    ∀ (fuel : Nat) (r : Reader) (x : Res Value),
      ReadValueFuel F fuel r = some x → ReadValueFuel F (fuel + 1) r = some x := by
  intro fuel
  induction fuel with
  | zero => intro r x hx; simp [ReadValueFuel] at hx
  | succ f ih =>
    intro r x hx
    rw [ReadValueFuel] at hx ⊢
    cases hb : ReadByte r with
    | panic => rw [hb] at hx; exact hx
    | err e r1 => rw [hb] at hx; exact hx
    | ok t r1 =>
      rw [hb] at hx
      simp only at hx ⊢
      split_ifs at hx ⊢ with h1 h2 h3 h4
      · exact hx
      · exact hx
      · exact hx
      · cases hh : readTableHeader r1 with
        | panic => rw [hh] at hx; exact hx
        | err e r2 => rw [hh] at hx; exact hx
        | ok count r2 =>
          rw [hh] at hx
          simp only at hx ⊢
          split_ifs at hx ⊢ with hlim
          · exact hx
          · exact readPairs_mono F _ _ ih _ _ _ _ _ hx
      · exact hx

theorem ReadValueFuel_mono (F : GoFmt) {f g : Nat} (hfg : f ≤ g) (r : Reader) (x : Res Value)
    (hx : ReadValueFuel F f r = some x) : ReadValueFuel F g r = some x := by
  induction hfg with
  | refl => exact hx
  | step _ ih => exact ReadValueFuel_succ F _ r x ih

theorem ReadByte_ok_length {r r1 : Reader} {b : Byte} (h : ReadByte r = .ok b r1) :
    r1.rest.length + 1 = r.rest.length := by
  unfold ReadByte at h
  split at h
  · cases h
  · next b1 t heq =>
    injection h with _ h2
    subst h2
    simp [heq]

theorem ReadFull_ok_length {n : Nat} {r r1 : Reader} {bs : List Byte}
    (h : ReadFull n r = .ok bs r1) : r1.rest.length + n = r.rest.length := by
  unfold ReadFull at h
  split_ifs at h with h1 h2
  injection h with _ h2
  subst h2
  simp only [List.length_drop]
  omega

theorem read7BitIntLoop_ok_length :
    ∀ (bs : List Byte) (result shift off : Nat) (v : Int) (r1 : Reader),
      read7BitIntLoop bs result shift off = .ok v r1 → r1.rest.length < bs.length := by
  intro bs
  induction bs with
  | nil => intro _ _ _ _ _ h; simp [read7BitIntLoop] at h
  | cons b t ih =>
    intro result shift off v r1 h
    rw [read7BitIntLoop_cons] at h
    split_ifs at h with h1
    · injection h with _ h2
      subst h2
      simp
    · have := ih _ _ _ _ _ h
      simp only [List.length_cons]
      omega

theorem readString_ok_length {F : GoFmt} {r r1 : Reader} {v : Value}
    (h : readString F r = .ok v r1) :
    r1.rest.length < r.rest.length := by
  unfold readString at h
  cases h7 : read7BitInt r with
  | panic => simp [h7] at h
  | err e r2 => simp [h7] at h
  | ok len r2 =>
    rw [h7] at h
    simp only at h
    have hlt := read7BitIntLoop_ok_length _ _ _ _ _ _ h7
    split_ifs at h with hneg
    cases hf : ReadFull len.toNat r2 with
    | panic => simp [hf] at h
    | err e r3 => simp [hf] at h
    | ok buf r3 =>
      rw [hf] at h
      injection h with _ h2
      subst h2
      have := ReadFull_ok_length hf
      omega

theorem readNumber_ok_length {r r1 : Reader} {v : Value} (h : readNumber r = .ok v r1) :
    r1.rest.length ≤ r.rest.length := by
  unfold readNumber at h
  cases hf : ReadFull 8 r with
  | panic => simp [hf] at h
  | err e r3 => simp [hf] at h
  | ok buf r3 =>
    rw [hf] at h
    injection h with _ h2
    subst h2
    have := ReadFull_ok_length hf
    omega

theorem readBoolean_ok_length {r r1 : Reader} {v : Value} (h : readBoolean r = .ok v r1) :
    r1.rest.length ≤ r.rest.length := by
  unfold readBoolean at h
  cases hf : ReadByte r with
  | panic => simp [hf] at h
  | err e r3 => simp [hf] at h
  | ok buf r3 =>
    rw [hf] at h
    injection h with _ h2
    subst h2
    have := ReadByte_ok_length hf
    omega

theorem readTableHeader_ok_length {r r1 : Reader} {c : Int} (h : readTableHeader r = .ok c r1) :
    r1.rest.length + 8 = r.rest.length := by
  unfold readTableHeader at h
  cases hf : ReadFull 4 r with
  | panic => simp [hf] at h
  | err e r3 => simp [hf] at h
  | ok buf r3 =>
    rw [hf] at h
    simp only at h
    cases hg : ReadFull 4 r3 with
    | panic => simp [hg] at h
    | err e r4 => simp [hg] at h
    | ok buf4 r4 =>
      rw [hg] at h
      injection h with _ h2
      subst h2
      have := ReadFull_ok_length hf
      have := ReadFull_ok_length hg
      omega

theorem readPairs_ok_length (F : GoFmt) (rv : Reader → Option (Res Value))
    (hrv : ∀ r v r1, rv r = some (.ok v r1) → r1.rest.length ≤ r.rest.length) :
    ∀ (n i : Nat) (table : Table) (r : Reader) (v : Value) (r1 : Reader),
      readPairs F rv n i table r = some (.ok v r1) → r1.rest.length ≤ r.rest.length := by
  intro n
  induction n with
  | zero =>
    intro i table r v r1 h
    simp only [readPairs, Option.some.injEq, Res.ok.injEq] at h
    rw [h.2]
  | succ n ih =>
    intro i table r v r1 h
    rw [readPairs] at h
    cases h1 : rv r with
    | none => simp [h1] at h
    | some a =>
      rw [h1] at h
      cases a with
      | panic => simp at h
      | err e r2 => simp at h
      | ok key r2 =>
        simp only at h
        cases h2 : rv r2 with
        | none => simp [h2] at h
        | some b =>
          rw [h2] at h
          cases b with
          | panic => simp at h
          | err e r3 => simp at h
          | ok val r3 =>
            have := hrv _ _ _ h1
            have := hrv _ _ _ h2
            have := ih _ _ _ _ _ h
            omega

theorem readPairs_ok_count (F : GoFmt) (rv : Reader → Option (Res Value))
    (hrv : ∀ r v r1, rv r = some (.ok v r1) → r1.rest.length < r.rest.length) :
    ∀ (n i : Nat) (table : Table) (r : Reader) (v : Value) (r1 : Reader),
      readPairs F rv n i table r = some (.ok v r1) → r1.rest.length + n ≤ r.rest.length := by
  intro n
  induction n with
  | zero =>
    intro i table r v r1 h
    simp only [readPairs, Option.some.injEq, Res.ok.injEq] at h
    rw [h.2]
    omega
  | succ n ih =>
    intro i table r v r1 h
    rw [readPairs] at h
    cases h1 : rv r with
    | none => simp [h1] at h
    | some a =>
      rw [h1] at h
      cases a with
      | panic => simp at h
      | err e r2 => simp at h
      | ok key r2 =>
        simp only at h
        cases h2 : rv r2 with
        | none => simp [h2] at h
        | some b =>
          rw [h2] at h
          cases b with
          | panic => simp at h
          | err e r3 => simp at h
          | ok val r3 =>
            have := hrv _ _ _ h1
            have := hrv _ _ _ h2
            have := ih _ _ _ _ _ h
            omega

theorem ReadValueFuel_ok_length (F : GoFmt) :
    ∀ (fuel : Nat) (r : Reader) (v : Value) (r1 : Reader),
      ReadValueFuel F fuel r = some (.ok v r1) → r1.rest.length < r.rest.length := by
  intro fuel
  induction fuel with
  | zero => intro r v r1 h; simp [ReadValueFuel] at h
  | succ f ih =>
    intro r v r1 h
    rw [ReadValueFuel] at h
    cases hb : ReadByte r with
    | panic => simp [hb] at h
    | err e r2 => simp [hb] at h
    | ok t r2 =>
      rw [hb] at h
      simp only at h
      have hlen := ReadByte_ok_length hb
      split_ifs at h with h1 h2 h3 h4
      · have := readString_ok_length (Option.some.inj h); omega
      · have := readNumber_ok_length (Option.some.inj h); omega
      · have := readBoolean_ok_length (Option.some.inj h); omega
      · cases hh : readTableHeader r2 with
        | panic => simp [hh] at h
        | err e r3 => simp [hh] at h
        | ok count r3 =>
          rw [hh] at h
          simp only at h
          split_ifs at h with hlim
          · simp at h
          have := readTableHeader_ok_length hh
          have := readPairs_ok_length F _ (fun r v r1 hr => Nat.le_of_lt (ih r v r1 hr)) _ _ _ _ _ _ h
          omega
      · simp at h

theorem readPairs_isSome (F : GoFmt) (rv : Reader → Option (Res Value)) (f : Nat)
    (hsome : ∀ r, r.rest.length < f → rv r ≠ none)
    (hrv : ∀ r v r1, rv r = some (.ok v r1) → r1.rest.length ≤ r.rest.length) :
    ∀ (n i : Nat) (table : Table) (r : Reader), r.rest.length < f →
      readPairs F rv n i table r ≠ none := by
  intro n
  induction n with
  | zero => intro i table r _; simp [readPairs]
  | succ n ih =>
    intro i table r hr
    rw [readPairs]
    cases h1 : rv r with
    | none => exact absurd h1 (hsome r hr)
    | some a =>
      cases a with
      | panic => simp
      | err e r2 => simp
      | ok key r2 =>
        simp only
        have hr2 := hrv _ _ _ h1
        cases h2 : rv r2 with
        | none => exact absurd h2 (hsome r2 (by omega))
        | some b =>
          cases b with
          | panic => simp
          | err e r3 => simp
          | ok val r3 =>
            have hr3 := hrv _ _ _ h2
            exact ih _ _ _ (by omega)

theorem ReadValueFuel_isSome (F : GoFmt) :
    ∀ (fuel : Nat) (r : Reader), r.rest.length < fuel → ReadValueFuel F fuel r ≠ none := by
  intro fuel
  induction fuel with
  | zero => intro r h; omega
  | succ f ih =>
    intro r hr
    rw [ReadValueFuel]
    cases hb : ReadByte r with
    | panic => simp
    | err e r2 => simp
    | ok t r2 =>
      simp only
      have hlen := ReadByte_ok_length hb
      split_ifs with h1 h2 h3 h4
      · simp
      · simp
      · simp
      · cases hh : readTableHeader r2 with
        | panic => simp
        | err e r3 => simp
        | ok count r3 =>
          have := readTableHeader_ok_length hh
          simp only
          split_ifs with hlim
          · simp
          · exact readPairs_isSome F _ f ih
              (fun r v r1 hr => Nat.le_of_lt (ReadValueFuel_ok_length F f r v r1 hr)) _ _ _ _
              (by omega)
      · simp

/-- Any fuel that yields a result yields the result of `ReadValue`. -/
theorem ReadValue_eq_of_fuel (F : GoFmt) (fuel : Nat) (r : Reader) (x : Res Value)
    (hx : ReadValueFuel F fuel r = some x) : ReadValue F r = some x := by
  unfold ReadValue
  cases h : ReadValueFuel F (r.rest.length + 1) r with
  | none => exact absurd h (ReadValueFuel_isSome F _ r (by omega))
  | some y =>
    rcases Nat.le_total fuel (r.rest.length + 1) with hle | hle
    · rw [← h]; exact ReadValueFuel_mono F hle r x hx
    · have := ReadValueFuel_mono F hle r y h
      rw [hx] at this
      rw [this]

/-! ## The unknown-tag error -/

/-- C8. When `ReadValue` is started at offset `k` of a buffer (by `ReadAll`, or
as a nested call for a key or value, which runs with some positive fuel) and the
byte there is none of `'S'`, `'N'`, `'B'`, `'T'`, the call fails with the
unknown-tag error carrying that byte and the absolute offset `k`. -/
theorem ReadValue_unknownType (F : GoFmt) (buf : List Byte) (k : Nat) (t : Byte)
    (hk : buf[k]? = some t) (hS : t ≠ TypeString) (hN : t ≠ TypeNumber)
    (hB : t ≠ TypeBoolean) (hT : t ≠ TypeTable) :
    ReadValue F ⟨buf.drop k, k⟩ = some (.err (.unknownType t k) ⟨buf.drop (k + 1), k + 1⟩)
      ∧ ∀ fuel, ReadValueFuel F (fuel + 1) ⟨buf.drop k, k⟩
          = some (.err (.unknownType t k) ⟨buf.drop (k + 1), k + 1⟩) := by
  have hlt : k < buf.length := by
    rcases List.getElem?_eq_some_iff.mp hk with ⟨h, _⟩
    exact h
  have hdrop : buf.drop k = t :: buf.drop (k + 1) := by
    rw [List.drop_eq_getElem_cons hlt]
    congr 1
    rcases List.getElem?_eq_some_iff.mp hk with ⟨_, h⟩
    exact h
  have key : ∀ fuel, ReadValueFuel F (fuel + 1) ⟨buf.drop k, k⟩
      = some (.err (.unknownType t k) ⟨buf.drop (k + 1), k + 1⟩) := by
    intro fuel
    rw [hdrop]
    simp [ReadValueFuel, ReadByte, hS, hN, hB, hT, Reader.Size, Reader.Len]
  exact ⟨ReadValue_eq_of_fuel F _ _ _ (key 0), key⟩

/-- C8 at the byte `0x58` found at offset 2. -/
theorem ReadValue_unknownType_witness :
    ReadValue exampleFmt ⟨[0x42, 0x01, 0x58, 0x00].drop 2, 2⟩
      = some (.err (.unknownType 0x58 2) ⟨[0x42, 0x01, 0x58, 0x00].drop (2 + 1), 2 + 1⟩) :=
  (ReadValue_unknownType exampleFmt [0x42, 0x01, 0x58, 0x00] 2 0x58 (by rfl)
    (by decide) (by decide) (by decide) (by decide)).1

theorem byteOf_val (n : Nat) : (byteOf n).val = n % 256 := rfl

theorem leBytes_length : ∀ (n x : Nat), (leBytes n x).length = n := by
  intro n
  induction n with
  | zero => intro x; rfl
  | succ n ih => intro x; simp [leBytes, ih]

theorem leNat_leBytes : ∀ (n x : Nat), x < 256 ^ n → leNat (leBytes n x) = x := by
  intro n
  induction n with
  | zero => intro x hx; simp at hx; simp [leBytes, leNat, hx]
  | succ n ih =>
    intro x hx
    have h1 : x / 256 < 256 ^ n := by
      rw [Nat.div_lt_iff_lt_mul (by norm_num)]
      rw [Nat.pow_succ] at hx
      exact hx
    simp only [leBytes, leNat, byteOf_val, ih _ h1]
    omega

theorem encVarintFuel_spec :
    ∀ (f n : Nat), n < 128 ^ (f + 1) →
      Terminated (encVarintFuel f n) = true ∧ varintVal (encVarintFuel f n) = n := by
  intro f
  induction f with
  | zero =>
    intro n hn
    have hn1 : n < 128 := by simpa using hn
    have h1 : n % 128 % 256 = n := by omega
    have h2 : n &&& 128 = 0 := by
      have : n &&& 128 = (n / 128 % 2) * 128 := by
        have h := Nat.and_pow_two_sub_one_eq_mod n 7
        have e : n = 128 * (n / 128) + n % 128 := (Nat.div_add_mod n 128).symm
        interval_cases n <;> rfl
      omega
    have h3 : n &&& 127 = n := by
      have h := Nat.and_pow_two_sub_one_eq_mod n 7
      simp only [Nat.reducePow, Nat.add_one_sub_one] at h
      omega
    simp [encVarintFuel, Terminated, varintVal, byteOf_val, h1, h2, h3]
  | succ f ih =>
    intro n hn
    rw [encVarintFuel]
    split_ifs with hlt
    · have h1 : n % 256 = n := by omega
      have h2 : n &&& 128 = 0 := by interval_cases n <;> rfl
      have h3 : n &&& 127 = n := by
        have h := Nat.and_pow_two_sub_one_eq_mod n 7
        simp only [Nat.reducePow, Nat.add_one_sub_one] at h
        omega
      simp [Terminated, varintVal, byteOf_val, h1, h2, h3]
    · have hdiv : n / 128 < 128 ^ (f + 1) := by
        rw [Nat.div_lt_iff_lt_mul (by norm_num)]
        rw [Nat.pow_succ] at hn
        exact hn
      obtain ⟨ihT, ihV⟩ := ih _ hdiv
      have hb : (byteOf (128 + n % 128)).val = 128 + n % 128 := by
        rw [byteOf_val]; omega
      have h2 : (128 + n % 128) &&& 128 ≠ 0 := by
        have : n % 128 < 128 := Nat.mod_lt _ (by norm_num)
        generalize n % 128 = m at this
        interval_cases m <;> decide
      have h3 : (128 + n % 128) &&& 127 = n % 128 := by
        have h := Nat.and_pow_two_sub_one_eq_mod (128 + n % 128) 7
        simp only [Nat.reducePow, Nat.add_one_sub_one] at h
        omega
      have hne : encVarintFuel f (n / 128) ≠ [] := by
        cases f with
        | zero => simp [encVarintFuel]
        | succ g => simp only [encVarintFuel]; split_ifs <;> simp
      constructor
      · cases hl : encVarintFuel f (n / 128) with
        | nil => exact absurd hl hne
        | cons c u =>
          rw [hl] at ihT
          simp only [Terminated, hb, ne_eq, h2, not_false_eq_true, decide_True, Bool.true_and]
          exact ihT
      · simp only [varintVal, hb, h3, ihV]
        omega

theorem encVarint_spec (n : Nat) :
    Terminated (encVarint n) = true ∧ varintVal (encVarint n) = n := by
  apply encVarintFuel_spec
  calc n < 128 ^ n := Nat.lt_pow_self (by norm_num) n
    _ ≤ 128 ^ (n + 1) := Nat.pow_le_pow_right (by norm_num) (by omega)

theorem ReadFull_append (bs post : List Byte) (off n : Nat) (hn : bs.length = n) :
    ReadFull n ⟨bs ++ post, off⟩ = .ok bs ⟨post, off + n⟩ := by
  subst hn
  simp [ReadFull]

theorem le_sliceLimit (F : GoFmt) (r : Reader) : r.Size ≤ sliceLimit F r :=
  le_max_right _ _

theorem le_mapLimit (F : GoFmt) (r : Reader) : r.Size ≤ mapLimit F r :=
  le_max_right _ _

theorem readString_encode (F : GoFmt) (s post : Str) (off : Nat) (hs : s.length < 2 ^ 63) :
    readString F ⟨encVarint s.length ++ (s ++ post), off⟩
      = .ok (.str s) ⟨post, off + (encVarint s.length).length + s.length⟩ := by
  obtain ⟨hT, hV⟩ := encVarint_spec s.length
  have h7 := read7BitInt_groups (encVarint s.length) (s ++ post) off hT (by rw [hV]; exact hs)
  rw [hV] at h7
  have hlim := le_sliceLimit F ⟨s ++ post, off + (encVarint s.length).length⟩
  simp only [Reader.Size, List.length_append] at hlim
  unfold readString
  rw [h7]
  simp only [Int.toNat_ofNat]
  rw [if_neg (by omega), ReadFull_append s post _ _ rfl]

theorem readNumber_encode (bits : Nat) (post : List Byte) (off : Nat) (hb : bits < 2 ^ 64) :
    readNumber ⟨leBytes 8 bits ++ post, off⟩ = .ok (numberValue bits) ⟨post, off + 8⟩ := by
  unfold readNumber
  rw [ReadFull_append _ post off 8 (leBytes_length 8 bits)]
  simp only
  rw [leNat_leBytes 8 bits (by norm_num; exact hb)]

theorem toInt32_of_lt {u : Nat} (h : u < 2 ^ 31) : toInt32 u = (u : Int) := by
  have h1 : u % 2 ^ 32 = u := Nat.mod_eq_of_lt (by omega)
  unfold toInt32
  rw [h1, if_pos h]

theorem readTableHeader_encode (pad : List Byte) (n : Nat) (post : List Byte) (off : Nat)
    (hp : pad.length = 4) (hn : n < 2 ^ 31) :
    readTableHeader ⟨pad ++ (leBytes 4 n ++ post), off⟩ = .ok (n : Int) ⟨post, off + 8⟩ := by
  unfold readTableHeader
  rw [ReadFull_append pad _ off 4 hp]
  simp only
  rw [ReadFull_append _ post (off + 4) 4 (leBytes_length 4 n)]
  simp only
  rw [leNat_leBytes 4 n (by norm_num; omega), toInt32_of_lt hn]


theorem ReadValueFuel_cons (F : GoFmt) (fuel : Nat) (t : Byte) (rest : List Byte) (off : Nat) :
    ReadValueFuel F (fuel + 1) ⟨t :: rest, off⟩
      = if t = TypeString then some (readString F ⟨rest, off + 1⟩)
        else if t = TypeNumber then some (readNumber ⟨rest, off + 1⟩)
        else if t = TypeBoolean then some (readBoolean ⟨rest, off + 1⟩)
        else if t = TypeTable then
          match readTableHeader ⟨rest, off + 1⟩ with
          | .err e r2 => some (.err e r2)
          | .panic => some .panic
          | .ok count r2 =>
            if (mapLimit F r2 : Int) < count then some .panic
            else readPairs F (ReadValueFuel F fuel) count.toNat 0 [] r2
        else some (.err (.unknownType t off) ⟨rest, off + 1⟩) := by
  simp [ReadValueFuel, ReadByte, Reader.Size, Reader.Len]

theorem readPairs_succ_ok (F : GoFmt) (rv : Reader → Option (Res Value)) (n i : Nat)
    (table : Table) (r r1 r2 : Reader) (key val : Value)
    (hk : rv r = some (.ok key r1)) (hv : rv r1 = some (.ok val r2)) :
    readPairs F rv (n + 1) i table r
      = readPairs F rv n (i + 1) (mapSet table (Sprint F key) val) r2 := by
  rw [readPairs, hk]
  simp only
  rw [hv]

theorem Wire.encode_length_pos : (w : Wire) → 0 < w.encode.length
  | .str _ => by simp [Wire.encode]
  | .num _ => by simp [Wire.encode]
  | .bool _ => by simp [Wire.encode]
  | .table _ _ => by simp [Wire.encode]

theorem Entries.count_le_length : (es : Entries) → es.count ≤ es.encode.length
  | .nil => by simp [Entries.count]
  | .cons k v rest => by
    have := Entries.count_le_length rest
    have := Wire.encode_length_pos k
    simp only [Entries.count, Entries.encode, List.length_append]
    omega

mutual
theorem Wire.decodeFuel (F : GoFmt) :
    (w : Wire) → w.fits = true → ∀ (fuel : Nat), w.depth < fuel → ∀ (post : List Byte) (off : Nat),
      ReadValueFuel F fuel ⟨w.encode ++ post, off⟩
        = some (.ok (w.value F) ⟨post, off + w.encode.length⟩)
  | .str s, hf, fuel, hd, post, off => by
    obtain ⟨f, rfl⟩ : ∃ f, fuel = f + 1 := ⟨fuel - 1, by omega⟩
    have hs : s.length < 2 ^ 63 := by simpa [Wire.fits] using hf
    simp only [Wire.encode, List.cons_append, List.append_assoc, ReadValueFuel_cons, if_true,
      readString_encode F s post (off + 1) hs, Wire.value, List.length_cons, List.length_append]
    congr 3
    omega
  | .num bits, hf, fuel, hd, post, off => by
    obtain ⟨f, rfl⟩ : ∃ f, fuel = f + 1 := ⟨fuel - 1, by omega⟩
    have hb : bits < 2 ^ 64 := by simpa [Wire.fits] using hf
    have h1 : TypeNumber ≠ TypeString := by decide
    simp only [Wire.encode, List.cons_append, ReadValueFuel_cons, if_true, if_neg h1,
      readNumber_encode bits post (off + 1) hb, Wire.value, List.length_cons, leBytes_length]
  | .bool b, hf, fuel, hd, post, off => by
    obtain ⟨f, rfl⟩ : ∃ f, fuel = f + 1 := ⟨fuel - 1, by omega⟩
    have h1 : TypeBoolean ≠ TypeString := by decide
    have h2 : TypeBoolean ≠ TypeNumber := by decide
    simp [Wire.encode, ReadValueFuel_cons, h1, h2, readBoolean, ReadByte, Wire.value]
  | .table pad es, hf, fuel, hd, post, off => by
    obtain ⟨f, rfl⟩ : ∃ f, fuel = f + 1 := ⟨fuel - 1, by omega⟩
    have hf1 : (pad.length = 4 ∧ es.count < 2 ^ 31) ∧ es.fits = true := by
      simpa [Wire.fits] using hf
    have hd1 : es.depth < f := by simp only [Wire.depth] at hd; omega
    have h1 : TypeTable ≠ TypeString := by decide
    have h2 : TypeTable ≠ TypeNumber := by decide
    have h3 : TypeTable ≠ TypeBoolean := by decide
    have hrec := Entries.decodePairsFuel F es hf1.2 f hd1 0 [] post (off + 1 + 8)
    have hlim : ¬ ((mapLimit F ⟨es.encode ++ post, off + 1 + 8⟩ : Int) < (es.count : Int)) := by
      have h5 := le_mapLimit F ⟨es.encode ++ post, off + 1 + 8⟩
      have h6 := Entries.count_le_length es
      simp only [Reader.Size, List.length_append] at h5
      omega
    simp only [Wire.encode, List.cons_append, List.append_assoc, ReadValueFuel_cons, if_true,
      if_neg h1, if_neg h2, if_neg h3,
      readTableHeader_encode pad es.count _ (off + 1) hf1.1.1 hf1.1.2, if_neg hlim,
      Int.toNat_ofNat, hrec,
      Wire.value, List.length_cons, List.length_append, leBytes_length, hf1.1.1]
    congr 3
    omega
theorem Entries.decodePairsFuel (F : GoFmt) :
    (es : Entries) → es.fits = true → ∀ (fuel : Nat), es.depth < fuel →
      ∀ (i : Nat) (table : Table) (post : List Byte) (off : Nat),
      readPairs F (ReadValueFuel F fuel) es.count i table ⟨es.encode ++ post, off⟩
        = some (.ok (.table (es.insertInto F table)) ⟨post, off + es.encode.length⟩)
  | .nil, _, fuel, _, i, table, post, off => by
    simp [Entries.count, Entries.encode, readPairs, Entries.insertInto]
  | .cons k v rest, hf, fuel, hd, i, table, post, off => by
    have hf1 : (k.fits = true ∧ v.fits = true) ∧ rest.fits = true := by
      simpa [Entries.fits] using hf
    simp only [Entries.depth] at hd
    have hk := Wire.decodeFuel F k hf1.1.1 fuel (by omega) (v.encode ++ (rest.encode ++ post)) off
    have hv := Wire.decodeFuel F v hf1.1.2 fuel (by omega) (rest.encode ++ post)
      (off + k.encode.length)
    have hrest := Entries.decodePairsFuel F rest hf1.2 fuel (by omega) (i + 1)
      (mapSet table (Sprint F (k.value F)) (v.value F)) post
      (off + k.encode.length + v.encode.length)
    simp only [Entries.count, Entries.encode, List.append_assoc, Entries.insertInto,
      List.length_append]
    rw [readPairs_succ_ok F _ _ _ _ _ _ _ _ _ hk hv, hrest]
    congr 3
    omega
end

/-- Decoding a well-formed encoding, followed by any bytes, from any offset:
`ReadValue` returns the value it denotes and consumes exactly its bytes. -/
theorem ReadValue_encode (F : GoFmt) (w : Wire) (hw : w.fits = true) (post : List Byte)
    (off : Nat) :
    ReadValue F ⟨w.encode ++ post, off⟩
      = some (.ok (w.value F) ⟨post, off + w.encode.length⟩) :=
  ReadValue_eq_of_fuel F (w.depth + 1) _ _ (Wire.decodeFuel F w hw _ (by omega) post off)


/-! ## Maps -/

theorem mapGet_mapSet {α : Type} (m : List (Str × α)) (k : Str) (v : α) (key : Str) :
    mapGet (mapSet m k v) key = if k = key then some v else mapGet m key := by
  induction m with
  | nil => simp [mapSet, mapGet]
  | cons p t ih =>
    obtain ⟨k1, v1⟩ := p
    simp only [mapSet]
    by_cases h1 : k1 = k
    · subst h1
      simp only [if_true, mapGet]
      split_ifs <;> rfl
    · simp only [if_neg h1, mapGet, ih]
      by_cases h2 : k1 = key
      · subst h2
        simp [Ne.symm h1]
      · simp [h2]

theorem Entries.mapGet_insertInto (F : GoFmt) :
    (es : Entries) → ∀ (table : Table) (key : Str),
      mapGet (es.insertInto F table) key
        = match es.lastValue F key with
          | some x => some x
          | none => mapGet table key
  | .nil, table, key => by simp [Entries.insertInto, Entries.lastValue]
  | .cons k v rest, table, key => by
    rw [Entries.insertInto, Entries.mapGet_insertInto F rest, Entries.lastValue]
    cases rest.lastValue F key with
    | some x => rfl
    | none =>
      simp only [mapGet_mapSet]
      split_ifs <;> rfl

/-! ## Tables -/

/-- C5. On the tag `'T'`, four arbitrary padding bytes, the little-endian count
`n` and exactly `n` well-formed (key, value) pairs, `ReadValue` returns the table
obtained by inserting `(Sprint key_i, value_i)` in order into the empty mapping
and consumes exactly those bytes; each key of the result carries the value of
its last occurrence; with no pairs the result is the empty mapping; the padding
bytes do not occur in the result. -/
theorem ReadValue_table (F : GoFmt) (pad : List Byte) (es : Entries) (post : List Byte)
    (off : Nat) (hp : pad.length = 4) (hn : es.count < 2 ^ 31) (hes : es.fits = true) :
    ReadValue F ⟨TypeTable :: (pad ++ (leBytes 4 es.count ++ (es.encode ++ post))), off⟩
        = some (.ok (.table (es.insertInto F [])) ⟨post, off + (9 + es.encode.length)⟩)
      ∧ (∀ key, mapGet (es.insertInto F []) key = es.lastValue F key)
      ∧ (es.count = 0 → es.insertInto F [] = []) := by
  refine ⟨?_, ?_, ?_⟩
  · have hw : (Wire.table pad es).fits = true := by
      have hn1 : es.count < 2147483648 := hn
      simp [Wire.fits, hp, hn1, hes]
    have h := ReadValue_encode F (.table pad es) hw post off
    simp only [Wire.encode, List.cons_append, List.append_assoc, Wire.value, List.length_cons,
      List.length_append, leBytes_length, hp] at h
    rw [h]
    congr 3
    omega
  · intro key
    rw [Entries.mapGet_insertInto]
    cases es.lastValue F key <;> rfl
  · intro h0
    cases es with
    | nil => rfl
    | cons k v rest => simp [Entries.count] at h0

/-- C5 on a table of three pairs, two of them under the key `"a"`: the second
value of `"a"` is the one kept. -/
theorem ReadValue_table_witness :
    ReadValue exampleFmt
        ⟨TypeTable :: ([9, 8, 7, 6] ++ (leBytes 4 3 ++ ([0x53, 1, 0x61, 0x42, 0,
          0x53, 1, 0x62, 0x42, 1, 0x53, 1, 0x61, 0x42, 1] ++ []))), 0⟩
      = some (.ok (.table [([0x61], .bool true), ([0x62], .bool true)]) ⟨[], 24⟩) :=
  (ReadValue_table exampleFmt [9, 8, 7, 6]
    (.cons (.str [0x61]) (.bool 0) (.cons (.str [0x62]) (.bool 1)
      (.cons (.str [0x61]) (.bool 1) .nil))) [] 0 (by rfl) (by decide) (by rfl)).1


/-! ## Round trip of strings, booleans and floats -/

/-- The encoding of a string decodes to that string and is consumed exactly. -/
theorem ReadValue_roundtrip_string (F : GoFmt) (s : Str) (post : List Byte) (off : Nat)
    (hs : s.length < 2 ^ 63) :
    ReadValue F ⟨TypeString :: (encVarint s.length ++ s) ++ post, off⟩
      = some (.ok (.str s) ⟨post, off + (TypeString :: (encVarint s.length ++ s)).length⟩) := by
  have hw : (Wire.str s).fits = true := by simpa [Wire.fits] using hs
  exact ReadValue_encode F (.str s) hw post off

/-- The encoding of a boolean decodes to that boolean and is consumed exactly. -/
theorem ReadValue_roundtrip_bool (F : GoFmt) (b : Bool) (post : List Byte) (off : Nat) :
    ReadValue F ⟨[TypeBoolean, if b then 1 else 0] ++ post, off⟩
      = some (.ok (.bool b) ⟨post, off + 2⟩) := by
  have h := ReadValue_encode F (.bool (if b then 1 else 0)) rfl post off
  cases b <;> exact h

/-- The eight little-endian bytes of a double decode to that double whenever
`numberValue` leaves it a float, and are consumed exactly. -/
theorem ReadValue_roundtrip_float (F : GoFmt) (x : Nat) (post : List Byte) (off : Nat)
    (hx : x < 2 ^ 64) (hfloat : numberValue x = .float x) :
    ReadValue F ⟨TypeNumber :: leBytes 8 x ++ post, off⟩
      = some (.ok (.float x) ⟨post, off + 9⟩) := by
  have hw : (Wire.num x).fits = true := by
    have hx1 : x < 18446744073709551616 := hx
    simp [Wire.fits, hx1]
  have h := ReadValue_encode F (.num x) hw post off
  simp only [Wire.encode, Wire.value, hfloat, List.length_cons, leBytes_length] at h
  exact h

theorem f64Val_two_pow_63 : f64Val 0x43E0000000000000 = 2 ^ 63 := by
  have h1 : f64Exp 0x43E0000000000000 = 1086 := by decide
  have h2 : f64Frac 0x43E0000000000000 = 0 := by decide
  have h3 : f64Neg 0x43E0000000000000 = false := by decide
  simp only [f64Val, h1, h2, h3]
  norm_num

/-- C4 at the double `2^63`. It has zero fractional part but lies outside the
signed 64-bit range, so by the specification it does not collapse; yet its
encoding (`'N'` and the eight little-endian bytes) does not decode to
`Float(2^63)`: `ReadValue` returns an integer. -/
theorem roundtrip_fails_at_two_pow_63 :
    (¬ ∃ n, SpecInteger 0x43E0000000000000 n)
      ∧ ReadValue exampleFmt (New (TypeNumber :: leBytes 8 0x43E0000000000000))
          = some (.ok (.int int64Indefinite) ⟨[], 9⟩)
      ∧ ReadValue exampleFmt (New (TypeNumber :: leBytes 8 0x43E0000000000000))
          ≠ some (.ok (.float 0x43E0000000000000) ⟨[], 9⟩) := by
  refine ⟨?_, rfl, ?_⟩
  · rintro ⟨n, _, hval, _, hle⟩
    rw [f64Val_two_pow_63] at hval
    have h : (2 ^ 63 : ℤ) = n := by exact_mod_cast hval
    omega
  · rw [show ReadValue exampleFmt (New (TypeNumber :: leBytes 8 0x43E0000000000000))
        = some (.ok (.int int64Indefinite) ⟨[], 9⟩) from rfl]
    simp

/-! ## Numeric collapse -/

/-- The two examples of the specification: 3.0 decodes to `Integer(3)` and 3.5
to `Float(3.5)`. -/
theorem numberValue_examples :
    f64Val 0x4008000000000000 = 3 ∧ numberValue 0x4008000000000000 = .int 3
      ∧ f64Val 0x400C000000000000 = 7 / 2
      ∧ numberValue 0x400C000000000000 = .float 0x400C000000000000 := by
  refine ⟨?_, rfl, ?_, rfl⟩
  · have h1 : f64Exp 0x4008000000000000 = 1024 := by decide
    have h2 : f64Frac 0x4008000000000000 = 2 ^ 51 := by decide
    have h3 : f64Neg 0x4008000000000000 = false := by decide
    simp only [f64Val, h1, h2, h3]
    norm_num
  · have h1 : f64Exp 0x400C000000000000 = 1024 := by decide
    have h2 : f64Frac 0x400C000000000000 = 2 ^ 51 + 2 ^ 50 := by decide
    have h3 : f64Neg 0x400C000000000000 = false := by decide
    simp only [f64Val, h1, h2, h3]
    norm_num

/-- C6 at the payload `00 00 00 00 00 00 E0 43`, the double `x = 2^63`: `x` is
above `2^63 - 1`, so the claim asks for `Float(x)`, but the comparison
`n <= math.MaxInt64` is made against the double nearest to `2^63 - 1`, which is
`2^63` itself; it holds, and `ReadValue` returns the integer `int64(x)`, which
is not `x`. -/
theorem ReadValue_number_two_pow_63 :
    f64Val (leNat [0x00, 0x00, 0x00, 0x00, 0x00, 0x00, 0xE0, 0x43]) = 2 ^ 63
      ∧ f64Le (leNat [0x00, 0x00, 0x00, 0x00, 0x00, 0x00, 0xE0, 0x43]) f64MaxInt64 = true
      ∧ ReadValue exampleFmt (New [0x4E, 0x00, 0x00, 0x00, 0x00, 0x00, 0x00, 0xE0, 0x43])
          = some (.ok (.int int64Indefinite) ⟨[], 9⟩)
      ∧ ((int64Indefinite : Int) : ℚ) ≠ 2 ^ 63 := by
  refine ⟨?_, by decide, rfl, ?_⟩
  · rw [show leNat [0x00, 0x00, 0x00, 0x00, 0x00, 0x00, 0xE0, 0x43] = 0x43E0000000000000
      from by decide]
    exact f64Val_two_pow_63
  · norm_num [int64Indefinite]


/-! ## ReadAll over consecutive well-formed encodings -/

theorem mapGet_eq_none {α : Type} (m : List (Str × α)) (key : Str)
    (h : key ∉ m.map Prod.fst) : mapGet m key = none := by
  induction m with
  | nil => rfl
  | cons p t ih =>
    obtain ⟨k1, v1⟩ := p
    simp only [List.map_cons, List.mem_cons, not_or] at h
    simp only [mapGet, if_neg (Ne.symm h.1)]
    exact ih h.2

theorem mem_keys_mapSet {α : Type} (m : List (Str × α)) (k : Str) (v : α) (key : Str) :
    key ∈ (mapSet m k v).map Prod.fst ↔ key = k ∨ key ∈ m.map Prod.fst := by
  induction m with
  | nil => simp [mapSet]
  | cons p t ih =>
    obtain ⟨k1, v1⟩ := p
    simp only [mapSet]
    split_ifs with h1
    · subst h1
      simp
    · simp only [List.map_cons, List.mem_cons, ih]
      tauto

theorem nodup_keys_mapSet {α : Type} (m : List (Str × α)) (k : Str) (v : α)
    (h : (m.map Prod.fst).Nodup) : ((mapSet m k v).map Prod.fst).Nodup := by
  induction m with
  | nil => simp [mapSet]
  | cons p t ih =>
    obtain ⟨k1, v1⟩ := p
    simp only [List.map_cons, List.nodup_cons] at h
    simp only [mapSet]
    split_ifs with h1
    · subst h1
      simpa using h
    · simp only [List.map_cons, List.nodup_cons, mem_keys_mapSet, not_or]
      exact ⟨⟨h1, h.1⟩, ih h.2⟩

theorem Entries.nodup_keys_insertInto (F : GoFmt) :
    (es : Entries) → ∀ (table : Table), (table.map Prod.fst).Nodup →
      ((es.insertInto F table).map Prod.fst).Nodup
  | .nil, table, h => by simpa [Entries.insertInto] using h
  | .cons k v rest, table, h => by
    rw [Entries.insertInto]
    exact Entries.nodup_keys_insertInto F rest _ (nodup_keys_mapSet _ _ _ h)

theorem mapGet_mapMerge {α : Type} (table : List (Str × α)) :
    ∀ (all : List (Str × α)) (key : Str), (table.map Prod.fst).Nodup →
      mapGet (mapMerge all table) key
        = match mapGet table key with
          | some x => some x
          | none => mapGet all key := by
  induction table with
  | nil => intro all key _; simp [mapMerge, mapGet]
  | cons p t ih =>
    intro all key h
    obtain ⟨k1, v1⟩ := p
    simp only [List.map_cons, List.nodup_cons] at h
    have hstep : mapMerge all ((k1, v1) :: t) = mapMerge (mapSet all k1 v1) t := rfl
    rw [hstep, ih _ key h.2, mapGet_mapSet]
    simp only [mapGet]
    by_cases hk : k1 = key
    · subst hk
      rw [mapGet_eq_none t k1 h.1]
      simp
    · simp [hk]

theorem ReadAllStep_encode (F : GoFmt) (w : Wire) (hw : w.fits = true) (post : List Byte)
    (off : Nat) (all : Table) :
    ReadAllStep F ⟨w.encode ++ post, off⟩ all
      = some (.next ⟨post, off + w.encode.length⟩ (mergeValue all (w.value F))) := by
  unfold ReadAllStep
  rw [ReadValue_encode F w hw post off]
  cases w.value F <;> rfl

/-- The accumulator after the top-level values `ws` have been read in order. -/
theorem ReadAllLoop_encodeAll (F : GoFmt) :
    ∀ (ws : List Wire), (∀ w ∈ ws, w.fits = true) →
      ∀ (fuel : Nat), ws.length < fuel → ∀ (off : Nat) (all : Table),
        ReadAllLoop F fuel ⟨encodeAll ws, off⟩ all
          = some (.ok (ws.foldl (fun acc w => mergeValue acc (w.value F)) all)) := by
  intro ws
  induction ws with
  | nil =>
    intro _ fuel hfuel off all
    obtain ⟨f, rfl⟩ : ∃ f, fuel = f + 1 := ⟨fuel - 1, by omega⟩
    simp [ReadAllLoop, encodeAll, Reader.Len]
  | cons w ws ih =>
    intro hfits fuel hfuel off all
    obtain ⟨f, rfl⟩ : ∃ f, fuel = f + 1 := ⟨fuel - 1, by omega⟩
    have hw := hfits w (List.mem_cons_self _ _)
    have hpos := Wire.encode_length_pos w
    have hlen : (⟨w.encode ++ encodeAll ws, off⟩ : Reader).Len > 0 := by
      simp only [Reader.Len, List.length_append]
      omega
    rw [encodeAll, ReadAllLoop, if_pos hlen, ReadAllStep_encode F w hw]
    simp only [List.foldl_cons]
    exact ih (fun x hx => hfits x (List.mem_cons_of_mem _ hx)) f
      (by simp only [List.length_cons] at hfuel; omega) _ _

theorem encodeAll_length_ge : ∀ (ws : List Wire), ws.length ≤ (encodeAll ws).length := by
  intro ws
  induction ws with
  | nil => simp [encodeAll]
  | cons w ws ih =>
    have := Wire.encode_length_pos w
    simp only [encodeAll, List.length_cons, List.length_append]
    omega

theorem mapGet_mergeValue (F : GoFmt) (w : Wire) (all : Table) (key : Str) :
    mapGet (mergeValue all (w.value F)) key
      = match lastTableValue F [w] key with
        | some x => some x
        | none => mapGet all key := by
  cases w with
  | str s => rfl
  | num bits =>
    simp only [Wire.value, numberValue, lastTableValue]
    split_ifs <;> rfl
  | bool b => rfl
  | table pad es =>
    have hnd := Entries.nodup_keys_insertInto F es [] (by simp)
    have hget := Entries.mapGet_insertInto F es [] key
    simp only [Wire.value, mergeValue, lastTableValue]
    rw [mapGet_mapMerge _ all key hnd, hget]
    cases es.lastValue F key <;> rfl

theorem mapGet_foldl_mergeValue (F : GoFmt) :
    ∀ (ws : List Wire) (all : Table) (key : Str),
      mapGet (ws.foldl (fun acc w => mergeValue acc (w.value F)) all) key
        = match lastTableValue F ws key with
          | some x => some x
          | none => mapGet all key := by
  intro ws
  induction ws with
  | nil => intro all key; rfl
  | cons w ws ih =>
    intro all key
    rw [List.foldl_cons, ih, mapGet_mergeValue]
    simp only [lastTableValue]
    cases lastTableValue F ws key <;> rfl

/-- C3. On the concatenation, with no separators, of the well-formed encodings
of any finite sequence of top-level values (the empty one included), `ReadAll`
succeeds, and in the mapping it returns each key carries its value in the last
table of the sequence that contains it; values that are not tables contribute
nothing. -/
theorem ReadAll_concat (F : GoFmt) (ws : List Wire) (hfits : ∀ w ∈ ws, w.fits = true) :
    ∃ m, ReadAll F (encodeAll ws) = some (.ok m)
      ∧ ∀ key, mapGet m key = lastTableValue F ws key := by
  refine ⟨ws.foldl (fun acc w => mergeValue acc (w.value F)) [], ?_, ?_⟩
  · exact ReadAllLoop_encodeAll F ws hfits _
      (Nat.lt_succ_of_le (encodeAll_length_ge ws)) 0 []
  · intro key
    rw [mapGet_foldl_mergeValue]
    cases lastTableValue F ws key <;> rfl

/-- C3 on a table, a string and a second table sharing the key `"a"`. -/
theorem ReadAll_concat_witness :
    ∃ m, ReadAll exampleFmt (encodeAll [.table [0, 0, 0, 0] (.cons (.str [0x61]) (.bool 0) .nil),
        .str [0x7A], .table [0, 0, 0, 0] (.cons (.str [0x61]) (.bool 1) .nil)]) = some (.ok m)
      ∧ ∀ key, mapGet m key
          = lastTableValue exampleFmt [.table [0, 0, 0, 0] (.cons (.str [0x61]) (.bool 0) .nil),
              .str [0x7A], .table [0, 0, 0, 0] (.cons (.str [0x61]) (.bool 1) .nil)] key :=
  ReadAll_concat exampleFmt _ (by
    intro w hw
    simp only [List.mem_cons, List.mem_singleton, List.not_mem_nil, or_false] at hw
    rcases hw with rfl | rfl | rfl <;> rfl)

/-- The empty buffer yields the empty mapping and no error. -/
theorem ReadAll_empty (F : GoFmt) : ReadAll F [] = some (.ok []) := rfl


/-! ## Truncated encodings -/

theorem ReadFull_short (n : Nat) (l : List Byte) (off : Nat) (h : l.length < n) :
    ∃ e r, ReadFull n ⟨l, off⟩ = .err e r := by
  unfold ReadFull
  rw [if_neg (by simp only; omega)]
  split_ifs
  · exact ⟨_, _, rfl⟩
  · exact ⟨_, _, rfl⟩

theorem read7BitIntLoop_take :
    ∀ (bs : List Byte), Terminated bs = true → ∀ (j : Nat), j < bs.length →
      ∀ (result shift off : Nat),
        read7BitIntLoop (bs.take j) result shift off = .err .EOF ⟨[], off + j⟩ := by
  intro bs
  induction bs with
  | nil => intro h; simp [Terminated] at h
  | cons b t ih =>
    intro hT j hj result shift off
    cases j with
    | zero => simp [read7BitIntLoop]
    | succ j =>
      cases t with
      | nil => simp at hj
      | cons c u =>
        have hT1 : (b.val &&& 0x80 ≠ 0) ∧ Terminated (c :: u) = true := by
          simpa [Terminated] using hT
        have hj1 : j < (c :: u).length := by simpa using hj
        rw [List.take_succ_cons, read7BitIntLoop_cons, if_neg hT1.1, ih hT1.2 j hj1]
        congr 1
        simp only [Reader.mk.injEq, true_and]
        omega

theorem readString_take (F : GoFmt) (s : Str) (k off : Nat) (hs : s.length < 2 ^ 63)
    (hlim : s.length ≤ F.maxAlloc) (hk : k < (encVarint s.length ++ s).length) :
    ∃ e r, readString F ⟨(encVarint s.length ++ s).take k, off⟩ = .err e r := by
  obtain ⟨hT, hV⟩ := encVarint_spec s.length
  rcases Nat.lt_or_ge k (encVarint s.length).length with hlt | hge
  · rw [List.take_append_of_le_length (Nat.le_of_lt hlt)]
    have h7 := read7BitIntLoop_take _ hT k hlt 0 0 off
    unfold readString read7BitInt
    simp only [h7]
    exact ⟨_, _, rfl⟩
  · rw [List.take_append_eq_append_take, List.take_of_length_le hge]
    have h7 := read7BitInt_groups (encVarint s.length)
      (s.take (k - (encVarint s.length).length)) off hT (by rw [hV]; exact hs)
    rw [hV] at h7
    have hl : s.length ≤ sliceLimit F ⟨s.take (k - (encVarint s.length).length),
        off + (encVarint s.length).length⟩ := le_trans hlim (le_max_left _ _)
    unfold readString
    rw [h7]
    simp only [Int.toNat_ofNat]
    rw [if_neg (by omega)]
    have hshort : (s.take (k - (encVarint s.length).length)).length < s.length := by
      simp only [List.length_append] at hk
      simp only [List.length_take]
      omega
    obtain ⟨e, r, hr⟩ := ReadFull_short s.length _ (off + (encVarint s.length).length) hshort
    rw [hr]
    exact ⟨_, _, rfl⟩

theorem readNumber_short (l : List Byte) (off : Nat) (h : l.length < 8) :
    ∃ e r, readNumber ⟨l, off⟩ = .err e r := by
  obtain ⟨e, r, hr⟩ := ReadFull_short 8 l off h
  unfold readNumber
  rw [hr]
  exact ⟨_, _, rfl⟩

theorem readTableHeader_short (l : List Byte) (off : Nat) (h : l.length < 8) :
    ∃ e r, readTableHeader ⟨l, off⟩ = .err e r := by
  unfold readTableHeader
  rcases Nat.lt_or_ge l.length 4 with h4 | h4
  · obtain ⟨e, r, hr⟩ := ReadFull_short 4 l off h4
    rw [hr]
    exact ⟨_, _, rfl⟩
  · have h1 : ReadFull 4 ⟨l, off⟩ = .ok (l.take 4) ⟨l.drop 4, off + 4⟩ := by
      unfold ReadFull
      rw [if_pos h4]
    rw [h1]
    simp only
    obtain ⟨e, r, hr⟩ := ReadFull_short 4 (l.drop 4) (off + 4) (by
      simp only [List.length_drop]; omega)
    rw [hr]
    exact ⟨_, _, rfl⟩

theorem Entries.encode_nil_of_count (es : Entries) (h : es.encode.length = 0) :
    es.count = 0 := by
  cases es with
  | nil => rfl
  | cons k v rest =>
    have := Wire.encode_length_pos k
    simp only [Entries.encode, List.length_append] at h
    omega

mutual
theorem Wire.truncatedFuel (F : GoFmt) :
    (w : Wire) → w.fits = true → w.within F = true → ∀ (fuel : Nat), w.depth < fuel →
      ∀ (k : Nat), k < w.encode.length → ∀ (off : Nat),
        ∃ e r, ReadValueFuel F fuel ⟨w.encode.take k, off⟩ = some (.err e r)
  | .str s, hf, hwi, fuel, hd, k, hk, off => by
    obtain ⟨f, rfl⟩ : ∃ f, fuel = f + 1 := ⟨fuel - 1, by omega⟩
    have hs : s.length < 2 ^ 63 := by simpa [Wire.fits] using hf
    have hlim : s.length ≤ F.maxAlloc := by simpa [Wire.within] using hwi
    cases k with
    | zero => exact ⟨.EOF, ⟨[], off⟩, rfl⟩
    | succ j =>
      simp only [Wire.encode, List.length_cons] at hk
      obtain ⟨e, r, hr⟩ := readString_take F s j (off + 1) hs hlim (by omega)
      refine ⟨e, r, ?_⟩
      simp only [Wire.encode, List.take_succ_cons, ReadValueFuel_cons, if_true, hr]
  | .num bits, hf, hwi, fuel, hd, k, hk, off => by
    obtain ⟨f, rfl⟩ : ∃ f, fuel = f + 1 := ⟨fuel - 1, by omega⟩
    cases k with
    | zero => exact ⟨.EOF, ⟨[], off⟩, rfl⟩
    | succ j =>
      simp only [Wire.encode, List.length_cons, leBytes_length] at hk
      obtain ⟨e, r, hr⟩ := readNumber_short ((leBytes 8 bits).take j) (off + 1) (by
        simp only [List.length_take, leBytes_length]; omega)
      refine ⟨e, r, ?_⟩
      have h1 : TypeNumber ≠ TypeString := by decide
      simp only [Wire.encode, List.take_succ_cons, ReadValueFuel_cons, if_true, if_neg h1, hr]
  | .bool b, hf, hwi, fuel, hd, k, hk, off => by
    obtain ⟨f, rfl⟩ : ∃ f, fuel = f + 1 := ⟨fuel - 1, by omega⟩
    have h1 : TypeBoolean ≠ TypeString := by decide
    have h2 : TypeBoolean ≠ TypeNumber := by decide
    simp only [Wire.encode, List.length_cons, List.length_nil] at hk
    have hk2 : k = 0 ∨ k = 1 := by omega
    rcases hk2 with rfl | rfl
    · exact ⟨.EOF, ⟨[], off⟩, rfl⟩
    · exact ⟨.boolean .EOF, ⟨[], off + 1⟩, by
        simp [Wire.encode, ReadValueFuel_cons, h1, h2, readBoolean, ReadByte]⟩
  | .table pad es, hf, hwi, fuel, hd, k, hk, off => by
    obtain ⟨f, rfl⟩ : ∃ f, fuel = f + 1 := ⟨fuel - 1, by omega⟩
    have hf1 : (pad.length = 4 ∧ es.count < 2 ^ 31) ∧ es.fits = true := by
      simpa [Wire.fits] using hf
    have hw1 : es.count ≤ F.maxMapHint ∧ es.within F = true := by
      simpa [Wire.within] using hwi
    have hd1 : es.depth < f := by simp only [Wire.depth] at hd; omega
    have h1 : TypeTable ≠ TypeString := by decide
    have h2 : TypeTable ≠ TypeNumber := by decide
    have h3 : TypeTable ≠ TypeBoolean := by decide
    cases k with
    | zero => exact ⟨.EOF, ⟨[], off⟩, rfl⟩
    | succ j =>
      simp only [Wire.encode, List.length_cons, List.length_append, leBytes_length,
        hf1.1.1] at hk
      simp only [Wire.encode, List.take_succ_cons, ReadValueFuel_cons, if_true, if_neg h1,
        if_neg h2, if_neg h3]
      rcases Nat.lt_or_ge j 8 with hj | hj
      · obtain ⟨e, r, hr⟩ := readTableHeader_short
          ((pad ++ (leBytes 4 es.count ++ es.encode)).take j) (off + 1) (by
            simp only [List.length_take]; omega)
        rw [hr]
        exact ⟨_, _, rfl⟩
      · have htake : (pad ++ (leBytes 4 es.count ++ es.encode)).take j
            = pad ++ (leBytes 4 es.count ++ es.encode.take (j - 8)) := by
          rw [List.take_append_eq_append_take, List.take_of_length_le (by omega),
            List.take_append_eq_append_take, List.take_of_length_le (by
              simp only [leBytes_length]; omega)]
          simp only [hf1.1.1, leBytes_length]
          rw [show j - 4 - 4 = j - 8 from by omega]
        have hl : ¬ ((mapLimit F ⟨es.encode.take (j - 8), off + 1 + 8⟩ : Int)
            < (es.count : Int)) := by
          have h5 : es.count ≤ mapLimit F ⟨es.encode.take (j - 8), off + 1 + 8⟩ :=
            le_trans hw1.1 (le_max_left _ _)
          omega
        rw [htake, readTableHeader_encode pad es.count _ (off + 1) hf1.1.1 hf1.1.2]
        simp only [Int.toNat_ofNat, if_neg hl]
        exact Entries.truncatedPairsFuel F es hf1.2 hw1.2 f hd1 (j - 8) (by omega) 0 []
          (off + 1 + 8)
theorem Entries.truncatedPairsFuel (F : GoFmt) :
    (es : Entries) → es.fits = true → es.within F = true → ∀ (fuel : Nat), es.depth < fuel →
      ∀ (k : Nat), k < es.encode.length → ∀ (i : Nat) (table : Table) (off : Nat),
        ∃ e r, readPairs F (ReadValueFuel F fuel) es.count i table ⟨es.encode.take k, off⟩
          = some (.err e r)
  | .nil, _, _, fuel, _, k, hk, i, table, off => by
    simp [Entries.encode] at hk
  | .cons key val rest, hf, hwi, fuel, hd, k, hk, i, table, off => by
    have hf1 : (key.fits = true ∧ val.fits = true) ∧ rest.fits = true := by
      simpa [Entries.fits] using hf
    have hw1 : (key.within F = true ∧ val.within F = true) ∧ rest.within F = true := by
      simpa [Entries.within] using hwi
    simp only [Entries.depth] at hd
    simp only [Entries.encode, List.length_append] at hk
    simp only [Entries.count, Entries.encode]
    rcases Nat.lt_or_ge k key.encode.length with hlt | hge
    · rw [List.take_append_of_le_length (Nat.le_of_lt hlt)]
      obtain ⟨e, r, hr⟩ := Wire.truncatedFuel F key hf1.1.1 hw1.1.1 fuel (by omega) k hlt off
      rw [readPairs, hr]
      exact ⟨_, _, rfl⟩
    · rw [List.take_append_eq_append_take, List.take_of_length_le hge]
      rcases Nat.lt_or_ge (k - key.encode.length) val.encode.length with hlt2 | hge2
      · rw [List.take_append_of_le_length (Nat.le_of_lt hlt2)]
        have hk1 := Wire.decodeFuel F key hf1.1.1 fuel (by omega)
          (val.encode.take (k - key.encode.length)) off
        obtain ⟨e, r, hr⟩ := Wire.truncatedFuel F val hf1.1.2 hw1.1.2 fuel (by omega)
          (k - key.encode.length) hlt2 (off + key.encode.length)
        rw [readPairs, hk1]
        simp only
        rw [hr]
        exact ⟨_, _, rfl⟩
      · rw [List.take_append_eq_append_take, List.take_of_length_le hge2]
        have hk1 := Wire.decodeFuel F key hf1.1.1 fuel (by omega)
          (val.encode ++ rest.encode.take (k - key.encode.length - val.encode.length)) off
        have hv1 := Wire.decodeFuel F val hf1.1.2 fuel (by omega)
          (rest.encode.take (k - key.encode.length - val.encode.length))
          (off + key.encode.length)
        rw [readPairs_succ_ok F _ _ _ _ _ _ _ _ _ hk1 hv1]
        exact Entries.truncatedPairsFuel F rest hf1.2 hw1.2 fuel (by omega)
          (k - key.encode.length - val.encode.length) (by omega) (i + 1) _ _
end

/-- A proper prefix of a well-formed encoding whose declared string lengths and
pair counts are within the allocation limits of the run: `ReadValue` returns an
error. -/
theorem ReadValue_truncated_within (F : GoFmt) (w : Wire) (hw : w.fits = true)
    (hwi : w.within F = true) (k : Nat) (hk : k < w.encode.length) (off : Nat) :
    ∃ e r, ReadValue F ⟨w.encode.take k, off⟩ = some (.err e r) := by
  obtain ⟨e, r, h⟩ := Wire.truncatedFuel F w hw hwi (w.depth + 1) (by omega) k hk off
  exact ⟨e, r, ReadValue_eq_of_fuel F _ _ _ h⟩

/-- The same on a table holding a nested table, cut inside the inner table. -/
theorem ReadValue_truncated_within_example :
    ∃ e r, ReadValue exampleFmt
      ⟨(Wire.encode (.table [0, 0, 0, 0] (.cons (.str [0x61])
        (.table [0, 0, 0, 0] (.cons (.str [0x62]) (.num 0x4008000000000000) .nil)) .nil))).take 25,
        0⟩ = some (.err e r) :=
  ReadValue_truncated_within exampleFmt (.table [0, 0, 0, 0] (.cons (.str [0x61])
    (.table [0, 0, 0, 0] (.cons (.str [0x62]) (.num 0x4008000000000000) .nil)) .nil))
    (by rfl) (by decide) 25 (by decide) 0


/-! ## ReadAll after a failed read -/

theorem ReadValue_bad_tag (F : GoFmt) (t : Byte) (rest : List Byte) (off : Nat)
    (hS : t ≠ TypeString) (hN : t ≠ TypeNumber) (hB : t ≠ TypeBoolean) (hT : t ≠ TypeTable) :
    ReadValue F ⟨t :: rest, off⟩ = some (.err (.unknownType t off) ⟨rest, off + 1⟩) := by
  apply ReadValue_eq_of_fuel F 1
  rw [ReadValueFuel_cons, if_neg hS, if_neg hN, if_neg hB, if_neg hT]

/-- After an unknown tag the loop of `ReadAll` inspects the byte that follows
the tag: a zero there is consumed and decoding goes on, anything else (or the
end of the buffer) ends the loop. -/
theorem ReadAllStep_bad_tag (F : GoFmt) (t : Byte) (rest : List Byte) (off : Nat) (all : Table)
    (hS : t ≠ TypeString) (hN : t ≠ TypeNumber) (hB : t ≠ TypeBoolean) (hT : t ≠ TypeTable) :
    ReadAllStep F ⟨t :: rest, off⟩ all
      = match rest with
        | [] => some (giveUp all (.unknownType t off))
        | b :: u =>
          if b = 0 then some (.next ⟨u, off + 1 + 1⟩ all)
          else some (giveUp all (.unknownType t off)) := by
  unfold ReadAllStep
  rw [ReadValue_bad_tag F t rest off hS hN hB hT]

theorem Wire.encode_head : (w : Wire) → ∃ b u, w.encode = b :: u ∧ b ≠ 0
  | .str _ => ⟨_, _, rfl, by decide⟩
  | .num _ => ⟨_, _, rfl, by decide⟩
  | .bool _ => ⟨_, _, rfl, by decide⟩
  | .table _ _ => ⟨_, _, rfl, by decide⟩

/-- What `ReadAll` does on `[TableA][0x00][B]` for every well-formed table
encoding `A` and every well-formed encoding `B`: the zero byte is read as a
tag, the byte after it (the tag of `B`) is not zero, and the loop ends. The
result holds the entries of `A` alone, or is the unknown-tag error when `A` has
no entries; `B` is never decoded. -/
theorem ReadAll_single_zero (F : GoFmt) (pad : List Byte) (es : Entries) (B : Wire)
    (hA : (Wire.table pad es).fits = true) :
    ReadAll F ((Wire.table pad es).encode ++ ([0x00] ++ B.encode))
      = some (if (mapMerge [] (es.insertInto F [])).length > 0
          then .ok (mapMerge [] (es.insertInto F []))
          else .err (.unknownType 0x00 (Wire.table pad es).encode.length)) := by
  obtain ⟨b, u, hB, hb⟩ := Wire.encode_head B
  have hposA := Wire.encode_length_pos (.table pad es)
  unfold ReadAll New
  have hlen1 : (⟨(Wire.table pad es).encode ++ ([0x00] ++ B.encode), 0⟩ : Reader).Len > 0 := by
    simp only [Reader.Len, List.length_append]
    omega
  have hfuel : ((Wire.table pad es).encode ++ ([0x00] ++ B.encode)).length + 1
      = ((Wire.table pad es).encode.length + B.encode.length) + 1 + 1 := by
    simp only [List.length_append, List.length_cons, List.length_nil]
    omega
  rw [hfuel, ReadAllLoop, if_pos hlen1, ReadAllStep_encode F _ hA]
  simp only [Wire.value, mergeValue, List.singleton_append, hB]
  rw [ReadAllLoop, if_pos (by simp [Reader.Len]),
    ReadAllStep_bad_tag F 0 _ _ _ (by decide) (by decide) (by decide) (by decide)]
  simp only [if_neg hb, giveUp, Nat.zero_add]
  split_ifs <;> rfl

/-- C1 at two one-entry tables `{a: true}` and `{b: true}` separated by one
zero byte: `ReadAll` returns `{a: true}` only; the key of the second table is
absent from the result. -/
theorem ReadAll_single_zero_drops_second :
    ReadAll exampleFmt
        ([0x54, 0, 0, 0, 0, 1, 0, 0, 0, 0x53, 1, 0x61, 0x42, 1] ++ [0x00]
          ++ [0x54, 0, 0, 0, 0, 1, 0, 0, 0, 0x53, 1, 0x62, 0x42, 1])
      = some (.ok [([0x61], .bool true)])
    ∧ mapGet [(([0x61] : Str), Value.bool true)] [0x62] = none
    ∧ ReadValue exampleFmt ⟨[0x54, 0, 0, 0, 0, 1, 0, 0, 0, 0x53, 1, 0x62, 0x42, 1], 15⟩
      = some (.ok (.table [([0x62], .bool true)]) ⟨[], 29⟩) :=
  ⟨rfl, rfl, rfl⟩

/-- Two zero bytes between the tables are skipped, and both tables are merged. -/
theorem ReadAll_double_zero_example :
    ReadAll exampleFmt
        ([0x54, 0, 0, 0, 0, 1, 0, 0, 0, 0x53, 1, 0x61, 0x42, 1] ++ [0x00, 0x00]
          ++ [0x54, 0, 0, 0, 0, 1, 0, 0, 0, 0x53, 1, 0x62, 0x42, 1])
      = some (.ok [([0x61], .bool true), ([0x62], .bool true)]) := rfl

/-- What `ReadAll` does when the first byte is an invalid tag: alone, or
followed by a nonzero byte, the unknown-tag error is returned; followed by a
zero byte, both bytes are dropped and decoding goes on with an empty
accumulator. -/
theorem ReadAll_bad_first_tag (F : GoFmt) (t : Byte)
    (hS : t ≠ TypeString) (hN : t ≠ TypeNumber) (hB : t ≠ TypeBoolean) (hT : t ≠ TypeTable) :
    ReadAll F [t] = some (.err (.unknownType t 0))
      ∧ (∀ b rest, b ≠ 0 → ReadAll F (t :: b :: rest) = some (.err (.unknownType t 0)))
      ∧ (∀ ws : List Wire, (∀ w ∈ ws, w.fits = true) →
          ReadAll F (t :: 0x00 :: encodeAll ws)
            = some (.ok (ws.foldl (fun acc w => mergeValue acc (w.value F)) []))) := by
  refine ⟨?_, ?_, ?_⟩
  · unfold ReadAll New
    simp only [List.length_cons, List.length_nil]
    rw [ReadAllLoop, if_pos (by simp [Reader.Len]), ReadAllStep_bad_tag F t _ _ _ hS hN hB hT]
    rfl
  · intro b rest hb
    unfold ReadAll New
    simp only [List.length_cons]
    rw [ReadAllLoop, if_pos (by simp [Reader.Len]), ReadAllStep_bad_tag F t _ _ _ hS hN hB hT]
    simp only [if_neg hb]
    rfl
  · intro ws hfits
    unfold ReadAll New
    simp only [List.length_cons]
    rw [ReadAllLoop, if_pos (by simp [Reader.Len]), ReadAllStep_bad_tag F t _ _ _ hS hN hB hT]
    simp only [if_true]
    exact ReadAllLoop_encodeAll F ws hfits _ (by
      have := encodeAll_length_ge ws
      omega) _ _

/-- C2 at the buffers `58 00` and `58 00` followed by a table: the first byte
is an invalid tag, and `ReadAll` returns a mapping and no error. -/
theorem ReadAll_bad_first_tag_no_error :
    ReadAll exampleFmt [0x58, 0x00] = some (.ok [])
      ∧ ReadAll exampleFmt
          ([0x58, 0x00] ++ [0x54, 0, 0, 0, 0, 1, 0, 0, 0, 0x53, 1, 0x61, 0x42, 1])
        = some (.ok [([0x61], .bool true)]) :=
  ⟨rfl, rfl⟩

/-- C10 at a one-entry table followed by `'S'` and the ten-group VarInt
`80 80 80 80 80 80 80 80 80 01`: the length decodes to `-2^63`, the byte slice
of negative length cannot be made, and `ReadAll` panics instead of returning the
table it has already merged. -/
theorem ReadAll_trailing_bytes_panic :
    read7BitInt ⟨[0x80, 0x80, 0x80, 0x80, 0x80, 0x80, 0x80, 0x80, 0x80, 0x01], 15⟩
        = .ok (-2 ^ 63) ⟨[], 25⟩
      ∧ ReadAll exampleFmt
          ([0x54, 0, 0, 0, 0, 1, 0, 0, 0, 0x53, 1, 0x61, 0x42, 1]
            ++ [0x53, 0x80, 0x80, 0x80, 0x80, 0x80, 0x80, 0x80, 0x80, 0x80, 0x01])
        = some .panic :=
  ⟨by decide, rfl⟩


/-! ## numberValue against the value a double denotes -/

theorem f64_fields (x : Nat) (hx : x < 2 ^ 64) :
    x = x / 2 ^ 63 * 2 ^ 63 + f64Exp x * 2 ^ 52 + f64Frac x ∧ x / 2 ^ 63 ≤ 1
      ∧ f64Exp x < 2048 ∧ f64Frac x < 2 ^ 52 := by
  unfold f64Exp f64Frac
  omega

theorem f64Neg_iff (x : Nat) (hx : x < 2 ^ 64) : f64Neg x = true ↔ x / 2 ^ 63 = 1 := by
  unfold f64Neg
  simp only [decide_eq_true_eq]
  omega

theorem f64Val_of_exp_ge (x : Nat) (he : 1075 ≤ f64Exp x) :
    f64Val x = ((f64IntPart x : Int) : ℚ) := by
  have he0 : f64Exp x ≠ 0 := by omega
  have hcast : ((f64Exp x : ℤ) - 1075) = ((f64Exp x - 1075 : ℕ) : ℤ) := by omega
  have hmag : f64IntMag x = (2 ^ 52 + f64Frac x) * 2 ^ (f64Exp x - 1075) := by
    unfold f64IntMag
    rw [if_neg (by omega), if_pos he]
  unfold f64Val f64IntPart
  simp only [if_neg he0, hcast, zpow_natCast, hmag]
  split_ifs <;> push_cast <;> ring

theorem f64Val_mul_pow (x : Nat) (he0 : f64Exp x ≠ 0) (he : f64Exp x < 1075) :
    f64Val x * 2 ^ (1075 - f64Exp x)
      = ((if f64Neg x then -((2 ^ 52 + f64Frac x : ℕ) : ℤ) else ((2 ^ 52 + f64Frac x : ℕ) : ℤ) : ℤ) : ℚ) := by
  have hcast : ((f64Exp x : ℤ) - 1075) = -((1075 - f64Exp x : ℕ) : ℤ) := by omega
  have hpos : ((2 : ℚ) ^ (1075 - f64Exp x)) ≠ 0 := pow_ne_zero _ (by norm_num)
  unfold f64Val
  simp only [if_neg he0, hcast, zpow_neg, zpow_natCast]
  split_ifs <;> push_cast <;> field_simp <;> norm_num

theorem zpow_neg_mul_pow (k : ℕ) : (2 : ℚ) ^ (-(k : ℤ)) * 2 ^ k = 1 := by
  have hpos : ((2 : ℚ) ^ k) ≠ 0 := pow_ne_zero _ (by norm_num)
  rw [zpow_neg, zpow_natCast]
  field_simp

theorem f64Val_subnormal_mul (x : Nat) (he0 : f64Exp x = 0) :
    ∃ k : ℕ, 53 ≤ k ∧ f64Val x * 2 ^ k
      = ((if f64Neg x then -((f64Frac x : ℕ) : ℤ) else ((f64Frac x : ℕ) : ℤ) : ℤ) : ℚ) := by
  refine ⟨1074, by norm_num, ?_⟩
  have h := zpow_neg_mul_pow 1074
  simp only [Nat.cast_ofNat] at h
  unfold f64Val
  simp only [if_pos he0]
  rw [mul_assoc, h, mul_one]
  split_ifs <;> push_cast <;> rfl

/-- An integer multiple of `2^k` of absolute value below `2^k` is zero. -/
theorem int_eq_zero_of_mul_pow (n : ℤ) (m k : ℕ) (hm : m < 2 ^ k)
    (h : (m : ℤ) = n * 2 ^ k ∨ -(m : ℤ) = n * 2 ^ k) : n = 0 ∧ m = 0 := by
  have hk : (0 : ℤ) < 2 ^ k := by positivity
  have hm1 : (m : ℤ) < 2 ^ k := by exact_mod_cast hm
  have hn : n = 0 := by
    rcases lt_trichotomy n 0 with hneg | h0 | hpos
    · have : n * 2 ^ k ≤ -1 * 2 ^ k := by
        apply mul_le_mul_of_nonneg_right _ hk.le
        omega
      rcases h with h | h <;> omega
    · exact h0
    · have : 1 * 2 ^ k ≤ n * 2 ^ k := by
        apply mul_le_mul_of_nonneg_right _ hk.le
        omega
      rcases h with h | h <;> omega
  subst hn
  simp only [zero_mul] at h
  exact ⟨rfl, by rcases h with h | h <;> omega⟩

/-- Below exponent field 1023 the magnitude is below one: the only integer
such a double can denote is zero, and it does when all its bits but the sign
are zero. -/
theorem f64Val_small (x : Nat) (hx : x < 2 ^ 64) (he : f64Exp x < 1023) (n : ℤ)
    (hn : f64Val x = (n : ℚ)) : n = 0 ∧ f64Exp x = 0 ∧ f64Frac x = 0 := by
  obtain ⟨_, _, _, hfr⟩ := f64_fields x hx
  by_cases he0 : f64Exp x = 0
  · obtain ⟨k, hk, h⟩ := f64Val_subnormal_mul x he0
    rw [hn] at h
    have h1 : (if f64Neg x then -((f64Frac x : ℕ) : ℤ) else ((f64Frac x : ℕ) : ℤ)) = n * 2 ^ k := by
      exact_mod_cast h.symm
    have hlt : f64Frac x < 2 ^ k :=
      lt_of_lt_of_le hfr (Nat.pow_le_pow_right (by norm_num) (by omega))
    have := int_eq_zero_of_mul_pow n (f64Frac x) k hlt (by
      split_ifs at h1
      · exact Or.inr h1
      · exact Or.inl h1)
    exact ⟨this.1, he0, this.2⟩
  · have h := f64Val_mul_pow x he0 (by omega)
    rw [hn] at h
    have h1 : (if f64Neg x then -((2 ^ 52 + f64Frac x : ℕ) : ℤ)
        else ((2 ^ 52 + f64Frac x : ℕ) : ℤ)) = n * 2 ^ (1075 - f64Exp x) := by
      exact_mod_cast h.symm
    have hlt : 2 ^ 52 + f64Frac x < 2 ^ (1075 - f64Exp x) := by
      have h53 : 2 ^ 52 + f64Frac x < 2 ^ 53 := by omega
      exact lt_of_lt_of_le h53 (Nat.pow_le_pow_right (by norm_num) (by omega))
    have := int_eq_zero_of_mul_pow n (2 ^ 52 + f64Frac x) _ hlt (by
      split_ifs at h1
      · exact Or.inr h1
      · exact Or.inl h1)
    have h0 := this.2
    omega

theorem f64Key_fields (x : Nat) (hx : x < 2 ^ 64) :
    f64Key x = if x / 2 ^ 63 = 1 then -((f64Exp x * 2 ^ 52 + f64Frac x : ℕ) : ℤ)
      else ((f64Exp x * 2 ^ 52 + f64Frac x : ℕ) : ℤ) := by
  unfold f64Key f64Neg f64Exp f64Frac
  simp only [decide_eq_true_eq]
  split_ifs <;> omega

theorem f64IsNaN_of_exp (x : Nat) (h : f64Exp x ≠ 2047) : f64IsNaN x = false := by
  simp [f64IsNaN, h]

theorem f64Le_min_iff (x : Nat) (hx : x < 2 ^ 64) (hN : f64IsNaN x = false) :
    f64Le f64MinInt64 x = true
      ↔ (x / 2 ^ 63 = 0 ∨ f64Exp x * 2 ^ 52 + f64Frac x ≤ 1086 * 2 ^ 52) := by
  have hc : f64IsNaN f64MinInt64 = false := by decide
  have hk : f64Key f64MinInt64 = -((1086 * 2 ^ 52 : ℕ) : ℤ) := by decide
  obtain ⟨_, hS, _, _⟩ := f64_fields x hx
  unfold f64Le
  rw [hN, hc, hk, f64Key_fields x hx]
  simp only [Bool.not_false, Bool.true_and, decide_eq_true_eq]
  split_ifs <;> omega

theorem f64Le_max_iff (x : Nat) (hx : x < 2 ^ 64) (hN : f64IsNaN x = false) :
    f64Le x f64MaxInt64 = true
      ↔ (x / 2 ^ 63 = 1 ∨ f64Exp x * 2 ^ 52 + f64Frac x ≤ 1086 * 2 ^ 52) := by
  have hc : f64IsNaN f64MaxInt64 = false := by decide
  have hk : f64Key f64MaxInt64 = ((1086 * 2 ^ 52 : ℕ) : ℤ) := by decide
  obtain ⟨_, hS, _, _⟩ := f64_fields x hx
  unfold f64Le
  rw [hN, hc, hk, f64Key_fields x hx]
  simp only [Bool.not_false, Bool.true_and, decide_eq_true_eq]
  split_ifs <;> omega

/-- Comparing a double with itself minus `r` of its low fraction bits. -/
theorem f64Eq_sub_iff (x r : Nat) (hx : x < 2 ^ 64) (hN : f64Exp x ≠ 2047)
    (hr : r ≤ f64Frac x) : f64Eq x (x - r) = true ↔ r = 0 := by
  obtain ⟨hdec, hS, he, hfr⟩ := f64_fields x hx
  have hx1 : x - r < 2 ^ 64 := by omega
  have hS1 : (x - r) / 2 ^ 63 = x / 2 ^ 63 := by omega
  have he1 : f64Exp (x - r) = f64Exp x := by
    unfold f64Exp f64Frac at *
    omega
  have hf1 : f64Frac (x - r) = f64Frac x - r := by
    unfold f64Exp f64Frac at *
    omega
  unfold f64Eq
  rw [f64IsNaN_of_exp x hN, f64IsNaN_of_exp (x - r) (by rw [he1]; exact hN),
    f64Key_fields x hx, f64Key_fields (x - r) hx1, hS1, he1, hf1]
  simp only [Bool.not_false, Bool.true_and, decide_eq_true_eq]
  split_ifs <;> omega

theorem numberValue_of_checks (x : Nat) (h1 : f64Eq x (f64Trunc x) = true)
    (h2 : f64Le f64MinInt64 x = true) (h3 : f64Le x f64MaxInt64 = true) :
    numberValue x = .int (f64ToInt64 x) := by
  simp [numberValue, h1, h2, h3]

theorem numberValue_of_not (x : Nat)
    (h : f64Eq x (f64Trunc x) = false ∨ f64Le f64MinInt64 x = false
      ∨ f64Le x f64MaxInt64 = false) :
    numberValue x = .float x := by
  rcases h with h | h | h <;> simp [numberValue, h]

theorem SpecInteger_unique (x : Nat) (n m : ℤ) (hn : SpecInteger x n) (hm : SpecInteger x m) :
    n = m := by
  have h := hn.2.1.symm.trans hm.2.1
  exact_mod_cast h

theorem numberValue_nonfinite (x : Nat) (hx : x < 2 ^ 64) (he : f64Exp x = 2047) :
    numberValue x = .float x := by
  obtain ⟨_, hS, _, _⟩ := f64_fields x hx
  by_cases hfr : f64Frac x = 0
  · have hN : f64IsNaN x = false := by simp [f64IsNaN, hfr]
    have hmin := f64Le_min_iff x hx hN
    have hmax := f64Le_max_iff x hx hN
    rw [he, hfr] at hmin hmax
    apply numberValue_of_not
    rcases Nat.eq_zero_or_pos (x / 2 ^ 63) with h0 | h1
    · right; right
      rw [Bool.eq_false_iff, Ne, hmax]
      omega
    · right; left
      rw [Bool.eq_false_iff, Ne, hmin]
      omega
  · have hN : f64IsNaN x = true := by simp [f64IsNaN, he, hfr]
    apply numberValue_of_not
    left
    simp [f64Eq, hN]

theorem numberValue_small (x : Nat) (hx : x < 2 ^ 64) (he : f64Exp x < 1023) :
    (f64Exp x = 0 ∧ f64Frac x = 0 ∧ SpecInteger x 0 ∧ numberValue x = .int 0)
      ∨ ((¬ ∃ n, SpecInteger x n) ∧ numberValue x = .float x) := by
  obtain ⟨hdec, hS, _, hfr⟩ := f64_fields x hx
  by_cases hz : f64Exp x = 0 ∧ f64Frac x = 0
  · left
    have hx2 : x = 0 ∨ x = 2 ^ 63 := by
      rw [hz.1, hz.2] at hdec
      omega
    refine ⟨hz.1, hz.2, ⟨by omega, ?_, by norm_num, by norm_num⟩, ?_⟩
    · unfold f64Val
      simp [hz.1, hz.2]
    · rcases hx2 with h | h <;> (rw [h]; rfl)
  · right
    constructor
    · rintro ⟨n, hn⟩
      exact hz (f64Val_small x hx he n hn.2.1).2
    · apply numberValue_of_not
      left
      have htr : f64Trunc x = x - (f64Exp x * 2 ^ 52 + f64Frac x) := by
        unfold f64Trunc
        rw [if_pos he]
        omega
      have hx1 : x - (f64Exp x * 2 ^ 52 + f64Frac x) < 2 ^ 64 := by omega
      have hk1 : f64Key (x - (f64Exp x * 2 ^ 52 + f64Frac x)) = 0 := by
        unfold f64Key
        have : (x - (f64Exp x * 2 ^ 52 + f64Frac x)) % 2 ^ 63 = 0 := by omega
        rw [this]
        split_ifs <;> rfl
      rw [htr, Bool.eq_false_iff]
      unfold f64Eq
      rw [hk1, f64Key_fields x hx]
      simp only [ne_eq, Bool.and_eq_true, Bool.not_eq_true', decide_eq_true_eq, not_and]
      intro _ hkey
      split_ifs at hkey <;> omega

theorem numberValue_fraction_bits (x : Nat) (hx : x < 2 ^ 64) (he1 : 1023 ≤ f64Exp x)
    (he2 : f64Exp x < 1075) :
    (SpecInteger x (f64IntPart x) ∧ numberValue x = .int (f64IntPart x))
      ∨ ((¬ ∃ n, SpecInteger x n) ∧ numberValue x = .float x) := by
  obtain ⟨hdec, hS, _, hfr⟩ := f64_fields x hx
  have hN : f64Exp x ≠ 2047 := by omega
  have hk52 : 1075 - f64Exp x ≤ 52 := by omega
  have hdvd : 2 ^ (1075 - f64Exp x) ∣ 2 ^ 52 := pow_dvd_pow 2 hk52
  have hr : x % 2 ^ (1075 - f64Exp x) = f64Frac x % 2 ^ (1075 - f64Exp x) := by
    unfold f64Frac
    rw [Nat.mod_mod_of_dvd x hdvd]
  have hrle : x % 2 ^ (1075 - f64Exp x) ≤ f64Frac x := by
    rw [hr]
    exact Nat.mod_le _ _
  have hM : (2 ^ 52 + f64Frac x) % 2 ^ (1075 - f64Exp x) = x % 2 ^ (1075 - f64Exp x) := by
    rw [hr, Nat.add_mod, Nat.mod_eq_zero_of_dvd hdvd, Nat.zero_add, Nat.mod_mod]
  have htr : f64Trunc x = x - x % 2 ^ (1075 - f64Exp x) := by
    unfold f64Trunc
    rw [if_neg (by omega), if_neg (by omega)]
  have heq := f64Eq_sub_iff x _ hx hN hrle
  rw [← htr] at heq
  have hmul := f64Val_mul_pow x (by omega) he2
  have hpos : ((2 : ℚ) ^ (1075 - f64Exp x)) ≠ 0 := pow_ne_zero _ (by norm_num)
  by_cases hr0 : x % 2 ^ (1075 - f64Exp x) = 0
  · left
    have hmag : f64IntMag x = (2 ^ 52 + f64Frac x) / 2 ^ (1075 - f64Exp x) := by
      unfold f64IntMag
      rw [if_neg (by omega), if_neg (by omega)]
    have hq : f64IntMag x * 2 ^ (1075 - f64Exp x) = 2 ^ 52 + f64Frac x := by
      rw [hmag]
      exact Nat.div_mul_cancel (Nat.dvd_of_mod_eq_zero (by rw [hM]; exact hr0))
    have hle : f64IntMag x ≤ 2 ^ 52 + f64Frac x := by
      rw [hmag]
      exact Nat.div_le_self _ _
    have hval : f64Val x = ((f64IntPart x : ℤ) : ℚ) := by
      apply mul_right_cancel₀ hpos
      rw [hmul, ← hq]
      unfold f64IntPart
      split_ifs <;> push_cast <;> ring
    have hrange : -2 ^ 63 ≤ f64IntPart x ∧ f64IntPart x < 2 ^ 63 := by
      unfold f64IntPart
      split_ifs <;> omega
    refine ⟨⟨hN, hval, hrange.1, by omega⟩, ?_⟩
    rw [numberValue_of_checks x (heq.mpr hr0)
      ((f64Le_min_iff x hx (f64IsNaN_of_exp x hN)).mpr (by omega))
      ((f64Le_max_iff x hx (f64IsNaN_of_exp x hN)).mpr (by omega))]
    unfold f64ToInt64
    rw [if_neg (by omega), if_pos hrange]
  · right
    constructor
    · rintro ⟨n, _, hn, _⟩
      rw [hn] at hmul
      have h1 : n * 2 ^ (1075 - f64Exp x) = (if f64Neg x then -((2 ^ 52 + f64Frac x : ℕ) : ℤ)
          else ((2 ^ 52 + f64Frac x : ℕ) : ℤ)) := by
        exact_mod_cast hmul
      have hd : ((2 ^ (1075 - f64Exp x) : ℕ) : ℤ) ∣ ((2 ^ 52 + f64Frac x : ℕ) : ℤ) := by
        split_ifs at h1
        · exact ⟨-n, by push_cast at h1 ⊢; linarith⟩
        · exact ⟨n, by push_cast at h1 ⊢; linarith⟩
      rw [Int.natCast_dvd_natCast] at hd
      exact hr0 (by rw [← hM]; exact Nat.mod_eq_zero_of_dvd hd)
    · apply numberValue_of_not
      left
      rw [Bool.eq_false_iff, Ne, heq]
      exact hr0

theorem numberValue_integral_exp (x : Nat) (hx : x < 2 ^ 64) (he1 : 1075 ≤ f64Exp x)
    (he2 : f64Exp x < 2047) (hne : x ≠ 0x43E0000000000000) :
    (SpecInteger x (f64IntPart x) ∧ numberValue x = .int (f64IntPart x))
      ∨ ((¬ ∃ n, SpecInteger x n) ∧ numberValue x = .float x) := by
  obtain ⟨hdec, hS, _, hfr⟩ := f64_fields x hx
  have hN : f64Exp x ≠ 2047 := by omega
  have hnan := f64IsNaN_of_exp x hN
  have hval := f64Val_of_exp_ge x he1
  have hmag : f64IntMag x = (2 ^ 52 + f64Frac x) * 2 ^ (f64Exp x - 1075) := by
    unfold f64IntMag
    rw [if_neg (by omega), if_pos he1]
  have htr : f64Trunc x = x := by
    unfold f64Trunc
    rw [if_neg (by omega), if_pos he1]
  have heq : f64Eq x (f64Trunc x) = true := by
    rw [htr]
    simp [f64Eq, hnan]
  have hmin := f64Le_min_iff x hx hnan
  have hmax := f64Le_max_iff x hx hnan
  have hpart : f64IntPart x = if x / 2 ^ 63 = 1 then -((f64IntMag x : ℕ) : ℤ)
      else ((f64IntMag x : ℕ) : ℤ) := by
    unfold f64IntPart
    by_cases h : x / 2 ^ 63 = 1
    · rw [if_pos ((f64Neg_iff x hx).mpr h), if_pos h]
    · rw [if_neg (fun hh => h ((f64Neg_iff x hx).mp hh)), if_neg h]
  -- the double is an integer; what remains is whether it is in range
  have hin : (-2 ^ 63 ≤ f64IntPart x ∧ f64IntPart x < 2 ^ 63) →
      f64Le f64MinInt64 x = true → f64Le x f64MaxInt64 = true →
      SpecInteger x (f64IntPart x) ∧ numberValue x = .int (f64IntPart x) := by
    intro hrange h2 h3
    refine ⟨⟨hN, hval, hrange.1, by omega⟩, ?_⟩
    rw [numberValue_of_checks x heq h2 h3]
    unfold f64ToInt64
    by_cases h87 : 1087 ≤ f64Exp x
    · exfalso
      have hp : 2 ^ 12 ≤ 2 ^ (f64Exp x - 1075) := Nat.pow_le_pow_right (by norm_num) (by omega)
      have hm : 2 ^ 52 * 2 ^ 12 ≤ f64IntMag x := by
        rw [hmag]
        exact Nat.mul_le_mul (by omega) hp
      rw [hpart] at hrange
      split_ifs at hrange <;> omega
    · rw [if_neg h87, if_pos hrange]
  have hout : (f64IntPart x < -2 ^ 63 ∨ 2 ^ 63 ≤ f64IntPart x) →
      (f64Le f64MinInt64 x = false ∨ f64Le x f64MaxInt64 = false) →
      (¬ ∃ n, SpecInteger x n) ∧ numberValue x = .float x := by
    intro hrange hle
    constructor
    · rintro ⟨n, _, hn, h1, h2⟩
      have : f64IntPart x = n := by
        rw [hval] at hn
        exact_mod_cast hn
      omega
    · exact numberValue_of_not x (Or.inr hle)
  rcases Nat.lt_or_ge (f64Exp x) 1086 with h85 | h86
  · left
    have hp : 2 ^ (f64Exp x - 1075) ≤ 2 ^ 10 := Nat.pow_le_pow_right (by norm_num) (by omega)
    have hm : f64IntMag x ≤ (2 ^ 53 - 1) * 2 ^ 10 := by
      rw [hmag]
      exact Nat.mul_le_mul (by omega) hp
    apply hin
    · rw [hpart]
      split_ifs <;> omega
    · exact hmin.mpr (by omega)
    · exact hmax.mpr (by omega)
  · rcases Nat.eq_or_lt_of_le h86 with h86e | h87
    · have hm : f64IntMag x = (2 ^ 52 + f64Frac x) * 2 ^ 11 := by
        rw [hmag, ← h86e]
      by_cases hfr0 : f64Frac x = 0
      · have hS1 : x / 2 ^ 63 = 1 := by
          by_contra hcon
          apply hne
          omega
        left
        apply hin
        · rw [hpart, if_pos hS1]
          omega
        · exact hmin.mpr (by omega)
        · exact hmax.mpr (Or.inl hS1)
      · right
        apply hout
        · rw [hpart]
          split_ifs <;> omega
        · rcases Nat.eq_zero_or_pos (x / 2 ^ 63) with h0 | h1
          · right
            rw [Bool.eq_false_iff, Ne, hmax]
            omega
          · left
            rw [Bool.eq_false_iff, Ne, hmin]
            omega
    · right
      have hp : 2 ^ 12 ≤ 2 ^ (f64Exp x - 1075) := Nat.pow_le_pow_right (by norm_num) (by omega)
      have hm : 2 ^ 52 * 2 ^ 12 ≤ f64IntMag x := by
        rw [hmag]
        exact Nat.mul_le_mul (by omega) hp
      apply hout
      · rw [hpart]
        split_ifs <;> omega
      · rcases Nat.eq_zero_or_pos (x / 2 ^ 63) with h0 | h1
        · right
          rw [Bool.eq_false_iff, Ne, hmax]
          omega
        · left
          rw [Bool.eq_false_iff, Ne, hmin]
          omega

/-- Numeric collapse, everywhere but at the double `2^63`: `numberValue` returns
`Integer(n)` when the double is the integer `n` of the signed 64-bit range, and
the double itself, as a float, in every other case (fractional, out of range,
infinite, NaN). -/
theorem numberValue_spec (x : Nat) (hx : x < 2 ^ 64) (hne : x ≠ 0x43E0000000000000) :
    (∀ n, SpecInteger x n → numberValue x = .int n)
      ∧ ((¬ ∃ n, SpecInteger x n) → numberValue x = .float x) := by
  have hcases : (∃ n, SpecInteger x n ∧ numberValue x = .int n)
      ∨ ((¬ ∃ n, SpecInteger x n) ∧ numberValue x = .float x) := by
    obtain ⟨_, _, he, _⟩ := f64_fields x hx
    rcases Nat.lt_or_ge (f64Exp x) 1023 with h1 | h1
    · rcases numberValue_small x hx h1 with h | h
      · exact Or.inl ⟨0, h.2.2.1, h.2.2.2⟩
      · exact Or.inr h
    · rcases Nat.lt_or_ge (f64Exp x) 1075 with h2 | h2
      · rcases numberValue_fraction_bits x hx h1 h2 with h | h
        · exact Or.inl ⟨_, h⟩
        · exact Or.inr h
      · rcases Nat.lt_or_ge (f64Exp x) 2047 with h3 | h3
        · rcases numberValue_integral_exp x hx h2 h3 hne with h | h
          · exact Or.inl ⟨_, h⟩
          · exact Or.inr h
        · right
          have he47 : f64Exp x = 2047 := by omega
          exact ⟨fun ⟨n, hn⟩ => hn.1 he47, numberValue_nonfinite x hx he47⟩
  rcases hcases with ⟨n, hn, hv⟩ | ⟨hnot, hv⟩
  · refine ⟨fun m hm => ?_, fun hnot => absurd ⟨n, hn⟩ hnot⟩
    rw [SpecInteger_unique x m n hm hn]
    exact hv
  · exact ⟨fun m hm => absurd ⟨m, hm⟩ hnot, fun _ => hv⟩

/-- The numeric-collapse theorem at 3.0, at 3.5 and at an infinity. -/
theorem numberValue_spec_examples :
    numberValue 0x4008000000000000 = .int 3
      ∧ numberValue 0x400C000000000000 = .float 0x400C000000000000
      ∧ ((¬ ∃ n, SpecInteger 0x7FF0000000000000 n) →
          numberValue 0x7FF0000000000000 = .float 0x7FF0000000000000) :=
  ⟨rfl, rfl, (numberValue_spec 0x7FF0000000000000 (by norm_num) (by norm_num)).2⟩

/-- Round trip of floats, everywhere but at the double `2^63`: a double that is
not an integer of the signed 64-bit range decodes to itself. -/
theorem ReadValue_roundtrip_float_spec (F : GoFmt) (x : Nat) (post : List Byte) (off : Nat)
    (hx : x < 2 ^ 64) (hne : x ≠ 0x43E0000000000000) (hfloat : ¬ ∃ n, SpecInteger x n) :
    ReadValue F ⟨TypeNumber :: leBytes 8 x ++ post, off⟩
      = some (.ok (.float x) ⟨post, off + 9⟩) :=
  ReadValue_roundtrip_float F x post off hx ((numberValue_spec x hx hne).2 hfloat)


/-! ## ReadAll always returns, and never fails once it holds entries -/

theorem ReadByte_err_length {r r1 : Reader} {e : Err} (h : ReadByte r = .err e r1) :
    r1.rest.length ≤ r.rest.length := by
  unfold ReadByte at h
  split at h
  · injection h with _ h2
    subst h2
    exact Nat.le_refl _
  · cases h

theorem ReadFull_err_length {n : Nat} {r r1 : Reader} {e : Err}
    (h : ReadFull n r = .err e r1) : r1.rest.length ≤ r.rest.length := by
  unfold ReadFull at h
  split_ifs at h with h1 h2
  · injection h with _ h3
    subst h3
    exact Nat.le_refl _
  · injection h with _ h3
    subst h3
    simp

theorem read7BitIntLoop_err_length :
    ∀ (bs : List Byte) (result shift off : Nat) (e : Err) (r1 : Reader),
      read7BitIntLoop bs result shift off = .err e r1 → r1.rest.length ≤ bs.length := by
  intro bs
  induction bs with
  | nil =>
    intro _ _ _ _ _ h
    simp only [read7BitIntLoop, Res.err.injEq] at h
    rw [← h.2]
  | cons b t ih =>
    intro result shift off e r1 h
    rw [read7BitIntLoop_cons] at h
    split_ifs at h with h1
    have := ih _ _ _ _ _ h
    simp only [List.length_cons]
    omega

theorem readString_err_length {F : GoFmt} {r r1 : Reader} {e : Err}
    (h : readString F r = .err e r1) :
    r1.rest.length ≤ r.rest.length := by
  unfold readString at h
  cases h7 : read7BitInt r with
  | panic => simp [h7] at h
  | err e2 r2 =>
    rw [h7] at h
    injection h with _ h2
    subst h2
    exact read7BitIntLoop_err_length _ _ _ _ _ _ h7
  | ok len r2 =>
    rw [h7] at h
    simp only at h
    have hlt := read7BitIntLoop_ok_length _ _ _ _ _ _ h7
    split_ifs at h with hneg
    cases hf : ReadFull len.toNat r2 with
    | panic => simp [hf] at h
    | ok buf r3 => simp [hf] at h
    | err e3 r3 =>
      rw [hf] at h
      injection h with _ h2
      subst h2
      have := ReadFull_err_length hf
      omega

theorem readNumber_err_length {r r1 : Reader} {e : Err} (h : readNumber r = .err e r1) :
    r1.rest.length ≤ r.rest.length := by
  unfold readNumber at h
  cases hf : ReadFull 8 r with
  | panic => simp [hf] at h
  | ok buf r3 => simp [hf] at h
  | err e3 r3 =>
    rw [hf] at h
    injection h with _ h2
    subst h2
    exact ReadFull_err_length hf

theorem readBoolean_err_length {r r1 : Reader} {e : Err} (h : readBoolean r = .err e r1) :
    r1.rest.length ≤ r.rest.length := by
  unfold readBoolean at h
  cases hf : ReadByte r with
  | panic => simp [hf] at h
  | ok buf r3 => simp [hf] at h
  | err e3 r3 =>
    rw [hf] at h
    injection h with _ h2
    subst h2
    exact ReadByte_err_length hf

theorem readTableHeader_err_length {r r1 : Reader} {e : Err}
    (h : readTableHeader r = .err e r1) : r1.rest.length ≤ r.rest.length := by
  unfold readTableHeader at h
  cases hf : ReadFull 4 r with
  | panic => simp [hf] at h
  | err e3 r3 =>
    rw [hf] at h
    injection h with _ h2
    subst h2
    exact ReadFull_err_length hf
  | ok buf r3 =>
    rw [hf] at h
    simp only at h
    have h3 := ReadFull_ok_length hf
    cases hg : ReadFull 4 r3 with
    | panic => simp [hg] at h
    | ok buf4 r4 => simp [hg] at h
    | err e4 r4 =>
      rw [hg] at h
      injection h with _ h2
      subst h2
      have := ReadFull_err_length hg
      omega

theorem readPairs_err_length (F : GoFmt) (rv : Reader → Option (Res Value))
    (hok : ∀ r v r1, rv r = some (.ok v r1) → r1.rest.length ≤ r.rest.length)
    (herr : ∀ r e r1, rv r = some (.err e r1) → r1.rest.length ≤ r.rest.length) :
    ∀ (n i : Nat) (table : Table) (r : Reader) (e : Err) (r1 : Reader),
      readPairs F rv n i table r = some (.err e r1) → r1.rest.length ≤ r.rest.length := by
  intro n
  induction n with
  | zero => intro i table r e r1 h; simp [readPairs] at h
  | succ n ih =>
    intro i table r e r1 h
    rw [readPairs] at h
    cases h1 : rv r with
    | none => simp [h1] at h
    | some a =>
      rw [h1] at h
      cases a with
      | panic => simp at h
      | err e2 r2 =>
        simp only [Option.some.injEq, Res.err.injEq] at h
        rw [← h.2]
        exact herr _ _ _ h1
      | ok key r2 =>
        simp only at h
        have hk := hok _ _ _ h1
        cases h2 : rv r2 with
        | none => simp [h2] at h
        | some b =>
          rw [h2] at h
          cases b with
          | panic => simp at h
          | err e3 r3 =>
            simp only [Option.some.injEq, Res.err.injEq] at h
            rw [← h.2]
            have := herr _ _ _ h2
            omega
          | ok val r3 =>
            have := hok _ _ _ h2
            have := ih _ _ _ _ _ h
            omega

theorem ReadValueFuel_err_length (F : GoFmt) :
    ∀ (fuel : Nat) (r : Reader) (e : Err) (r1 : Reader),
      ReadValueFuel F fuel r = some (.err e r1) → r1.rest.length ≤ r.rest.length := by
  intro fuel
  induction fuel with
  | zero => intro r e r1 h; simp [ReadValueFuel] at h
  | succ f ih =>
    intro r e r1 h
    rw [ReadValueFuel] at h
    cases hb : ReadByte r with
    | panic => simp [hb] at h
    | err e2 r2 =>
      rw [hb] at h
      simp only [Option.some.injEq, Res.err.injEq] at h
      rw [← h.2]
      exact ReadByte_err_length hb
    | ok t r2 =>
      rw [hb] at h
      simp only at h
      have hlen := ReadByte_ok_length hb
      split_ifs at h with h1 h2 h3 h4
      · have := readString_err_length (Option.some.inj h); omega
      · have := readNumber_err_length (Option.some.inj h); omega
      · have := readBoolean_err_length (Option.some.inj h); omega
      · cases hh : readTableHeader r2 with
        | panic => simp [hh] at h
        | err e3 r3 =>
          rw [hh] at h
          simp only [Option.some.injEq, Res.err.injEq] at h
          rw [← h.2]
          have := readTableHeader_err_length hh
          omega
        | ok count r3 =>
          rw [hh] at h
          simp only at h
          split_ifs at h with hlim
          · simp at h
          have := readTableHeader_ok_length hh
          have := readPairs_err_length F _
            (fun r v r1 hr => Nat.le_of_lt (ReadValueFuel_ok_length F f r v r1 hr)) ih
            _ _ _ _ _ _ h
          omega
      · simp only [Option.some.injEq, Res.err.injEq] at h
        rw [← h.2]
        omega

theorem ReadValue_isSome (F : GoFmt) (r : Reader) : ReadValue F r ≠ none :=
  ReadValueFuel_isSome F _ r (Nat.lt_succ_self _)

theorem mapSet_length_pos {α : Type} (m : List (Str × α)) (k : Str) (v : α) :
    0 < (mapSet m k v).length := by
  cases m with
  | nil => simp [mapSet]
  | cons p t =>
    obtain ⟨k1, v1⟩ := p
    simp only [mapSet]
    split_ifs <;> simp

theorem mapMerge_length_pos {α : Type} (table : List (Str × α)) :
    ∀ (all : List (Str × α)), 0 < all.length → 0 < (mapMerge all table).length := by
  induction table with
  | nil => intro all h; exact h
  | cons p t ih =>
    intro all _
    exact ih _ (mapSet_length_pos all p.1 p.2)

theorem giveUp_cases (all : Table) (e : Err) :
    (0 < all.length ∧ giveUp all e = .done (.ok all))
      ∨ (all.length = 0 ∧ giveUp all e = .done (.err e)) := by
  unfold giveUp
  split_ifs with h
  · exact Or.inl ⟨h, rfl⟩
  · exact Or.inr ⟨by omega, rfl⟩

/-- One iteration of the loop of `ReadAll`: the model always yields a step, and
the step satisfies `StepOk`. -/
theorem ReadAllStep_progress (F : GoFmt) (r : Reader) (all : Table) :
    ∃ st, ReadAllStep F r all = some st ∧ StepOk r all st := by
  unfold ReadAllStep
  cases hv : ReadValue F r with
  | none => exact absurd hv (ReadValue_isSome F r)
  | some res =>
    cases res with
    | panic => exact ⟨_, rfl, trivial⟩
    | err e r1 =>
      have hle := ReadValueFuel_err_length F _ r e r1 hv
      have hgive : StepOk r all (giveUp all e) := by
        rcases giveUp_cases all e with ⟨_, h⟩ | ⟨h0, h⟩
        · rw [h]; exact rfl
        · rw [h]; exact h0
      simp only
      cases hrest : r1.rest with
      | nil => exact ⟨_, rfl, hgive⟩
      | cons b t =>
        simp only
        split_ifs with hb
        · refine ⟨_, rfl, ?_, fun h => h⟩
          rw [hrest] at hle
          simp only [List.length_cons] at hle
          simp only
          omega
        · exact ⟨_, rfl, hgive⟩
    | ok v r1 =>
      have hlt := ReadValueFuel_ok_length F _ r v r1 hv
      cases v with
      | table m => exact ⟨_, rfl, hlt, mapMerge_length_pos m all⟩
      | str s => exact ⟨_, rfl, hlt, fun h => h⟩
      | int n => exact ⟨_, rfl, hlt, fun h => h⟩
      | float x => exact ⟨_, rfl, hlt, fun h => h⟩
      | bool b => exact ⟨_, rfl, hlt, fun h => h⟩

/-- The loop of `ReadAll` returns whenever the fuel exceeds the unread bytes, and
it does not return an error when the accumulator already holds entries. -/
theorem ReadAllLoop_total (F : GoFmt) :
    ∀ (fuel : Nat) (r : Reader) (all : Table), r.rest.length < fuel →
      ∃ res, ReadAllLoop F fuel r all = some res
        ∧ (0 < all.length → (∃ m, res = .ok m ∧ 0 < m.length) ∨ res = .panic) := by
  intro fuel
  induction fuel with
  | zero => intro r all h; omega
  | succ f ih =>
    intro r all hr
    rw [ReadAllLoop]
    by_cases hlen : r.Len > 0
    · rw [if_pos hlen]
      obtain ⟨st, hst, hok⟩ := ReadAllStep_progress F r all
      rw [hst]
      cases st with
      | next r1 all1 =>
        obtain ⟨res, hres, hprop⟩ := ih r1 all1 (by have := hok.1; omega)
        exact ⟨res, hres, fun hall => hprop (hok.2 hall)⟩
      | done res =>
        refine ⟨res, rfl, fun hall => ?_⟩
        cases res with
        | ok m =>
          have hm : m = all := hok
          exact Or.inl ⟨m, rfl, by rw [hm]; exact hall⟩
        | err e =>
          have h0 : all.length = 0 := hok
          omega
        | panic => exact Or.inr rfl
    · rw [if_neg hlen]
      exact ⟨.ok all, rfl, fun hall => Or.inl ⟨all, rfl, hall⟩⟩

/-- `ReadAll` returns on every buffer. -/
theorem ReadAll_total (F : GoFmt) (data : List Byte) : ∃ res, ReadAll F data = some res := by
  obtain ⟨res, h, _⟩ := ReadAllLoop_total F (data.length + 1) (New data) [] (Nat.lt_succ_self _)
  exact ⟨res, h⟩

theorem Entries.insertInto_length_pos (F : GoFmt) :
    (es : Entries) → ∀ (table : Table), 0 < table.length ∨ 0 < es.count →
      0 < (es.insertInto F table).length
  | .nil, table, h => by
    rcases h with h | h
    · exact h
    · simp [Entries.count] at h
  | .cons k v rest, table, _ => by
    rw [Entries.insertInto]
    exact Entries.insertInto_length_pos F rest _ (Or.inl (mapSet_length_pos _ _ _))

/-- After a well-formed non-empty table, whatever bytes follow, `ReadAll` never
returns an error: it returns a non-empty mapping, unless a later read panics. -/
theorem ReadAll_after_table (F : GoFmt) (pad : List Byte) (es : Entries) (junk : List Byte)
    (hA : (Wire.table pad es).fits = true) (hne : 0 < es.count) :
    (∃ m, ReadAll F ((Wire.table pad es).encode ++ junk) = some (.ok m) ∧ 0 < m.length)
      ∨ ReadAll F ((Wire.table pad es).encode ++ junk) = some .panic := by
  have hposA := Wire.encode_length_pos (.table pad es)
  unfold ReadAll New
  have hlen1 : (⟨(Wire.table pad es).encode ++ junk, 0⟩ : Reader).Len > 0 := by
    simp only [Reader.Len, List.length_append]
    omega
  rw [ReadAllLoop, if_pos hlen1, ReadAllStep_encode F _ hA]
  simp only [Wire.value, mergeValue]
  have hall : 0 < (mapMerge [] (es.insertInto F [])).length := by
    have h1 := Entries.insertInto_length_pos F es [] (Or.inr hne)
    cases hm : es.insertInto F [] with
    | nil => rw [hm] at h1; simp at h1
    | cons p t => exact mapMerge_length_pos t _ (mapSet_length_pos [] p.1 p.2)
  obtain ⟨res, hres, hprop⟩ := ReadAllLoop_total F
    (((Wire.table pad es).encode ++ junk).length) ⟨junk, 0 + (Wire.table pad es).encode.length⟩
    (mapMerge [] (es.insertInto F [])) (by
      simp only [List.length_append]
      omega)
  rw [hres]
  rcases hprop hall with ⟨m, hm, hpos⟩ | hp
  · exact Or.inl ⟨m, by rw [hm], hpos⟩
  · exact Or.inr (by rw [hp])

/-! ## No cap on VarInt groups, negative lengths, no recursion limit -/

theorem read7BitIntLoop_continuation (post : List Byte) :
    ∀ (cont : List Byte), (∀ b ∈ cont, b.val &&& 0x80 ≠ 0) → ∀ (result shift off : Nat),
      ∃ result1 shift1, read7BitIntLoop (cont ++ post) result shift off
        = read7BitIntLoop post result1 shift1 (off + cont.length) := by
  intro cont
  induction cont with
  | nil => intro _ result shift off; exact ⟨result, shift, rfl⟩
  | cons b t ih =>
    intro hc result shift off
    have hb : b.val &&& 0x80 ≠ 0 := hc b (List.mem_cons_self _ _)
    obtain ⟨r1, s1, h⟩ := ih (fun x hx => hc x (List.mem_cons_of_mem _ hx))
      ((result ||| ((b.val &&& 0x7F) <<< shift)) % 2 ^ 64) ((shift + 7) % 2 ^ 64) (off + 1)
    refine ⟨r1, s1, ?_⟩
    rw [List.cons_append, read7BitIntLoop_cons, if_neg hb, h]
    simp only [List.length_cons]
    congr 1
    omega

/-- The amended C11. `read7BitInt` places no cap on the number of groups: after
any number of groups with the continuation bit set it reads the group with the
bit clear and returns a value, having consumed exactly those bytes; it fails,
with `io.EOF`, when the input ends before such a group. -/
theorem read7BitInt_uncapped (cont : List Byte) (t : Byte) (post : List Byte) (off : Nat)
    (hc : ∀ b ∈ cont, b.val &&& 0x80 ≠ 0) (ht : t.val &&& 0x80 = 0) :
    (∃ v, read7BitInt ⟨cont ++ t :: post, off⟩ = .ok v ⟨post, off + cont.length + 1⟩)
      ∧ read7BitInt ⟨cont, off⟩ = .err .EOF ⟨[], off + cont.length⟩ := by
  constructor
  · obtain ⟨r1, s1, h⟩ := read7BitIntLoop_continuation (t :: post) cont hc 0 0 off
    unfold read7BitInt
    simp only
    rw [h, read7BitIntLoop_cons, if_pos ht]
    exact ⟨_, rfl⟩
  · obtain ⟨r1, s1, h⟩ := read7BitIntLoop_continuation [] cont hc 0 0 off
    unfold read7BitInt
    simp only
    rw [List.append_nil] at h
    rw [h]
    rfl

/-- The amended C11 on eleven continuation groups followed by a final group. -/
theorem read7BitInt_uncapped_witness :
    (∃ v, read7BitInt ⟨List.replicate 11 0x80 ++ 0x00 :: [0x53], 0⟩
        = .ok v ⟨[0x53], 0 + (List.replicate 11 (0x80 : Byte)).length + 1⟩)
      ∧ read7BitInt ⟨List.replicate 11 0x80, 0⟩
        = .err .EOF ⟨[], 0 + (List.replicate 11 (0x80 : Byte)).length⟩ :=
  read7BitInt_uncapped (List.replicate 11 0x80) 0x00 [0x53] 0
    (by intro b hb; rw [List.eq_of_mem_replicate hb]; decide) (by decide)

theorem read7BitIntLoop_replicate (post : List Byte) :
    ∀ (n shift off : Nat),
      read7BitIntLoop (List.replicate n 0x80 ++ 0x00 :: post) 0 shift off
        = .ok 0 ⟨post, off + n + 1⟩ := by
  intro n
  induction n with
  | zero => intro shift off; simp [read7BitIntLoop_cons, toInt64]
  | succ n ih =>
    intro shift off
    have h80 : ¬ ((0x80 : Byte).val &&& 0x80 = 0) := by decide
    have h7f : ((0 : Nat) ||| (((0x80 : Byte).val &&& 0x7F) <<< shift)) % 2 ^ 64 = 0 := by
      have : (0x80 : Byte).val &&& 0x7F = 0 := by decide
      rw [this]
      simp
    rw [List.replicate_succ, List.cons_append, read7BitIntLoop_cons, if_neg h80, h7f, ih]
    congr 2
    omega

/-- C11 refuted: no bound `D` makes `read7BitInt` fail on every input that
starts with more than `D` continuation groups. -/
theorem read7BitInt_no_group_cap :
    ¬ ∃ D : Nat, ∀ (cont post : List Byte), D < cont.length →
      (∀ b ∈ cont, b.val &&& 0x80 ≠ 0) → ∃ e r, read7BitInt ⟨cont ++ post, 0⟩ = .err e r := by
  rintro ⟨D, h⟩
  obtain ⟨e, r, herr⟩ := h (List.replicate (D + 1) 0x80) [0x00] (by simp) (by
    intro b hb
    rw [List.eq_of_mem_replicate hb]
    decide)
  have hok := read7BitIntLoop_replicate [] (D + 1) 0 0
  unfold read7BitInt at herr
  simp only at herr
  rw [hok] at herr
  cases herr

/-- C19 at the ten-group VarInt `80 80 80 80 80 80 80 80 80 01`: the tenth group
is shifted by 63 into the sign bit, `read7BitInt` returns `-2^63` with no error,
and the string case of `ReadValue` then asks for a slice of that length and
panics. -/
theorem read7BitInt_returns_negative :
    read7BitInt ⟨[0x80, 0x80, 0x80, 0x80, 0x80, 0x80, 0x80, 0x80, 0x80, 0x01], 0⟩
        = .ok (-2 ^ 63) ⟨[], 10⟩
      ∧ ReadValue exampleFmt
          (New [0x53, 0x80, 0x80, 0x80, 0x80, 0x80, 0x80, 0x80, 0x80, 0x80, 0x01])
        = some .panic :=
  ⟨by decide, rfl⟩

theorem nestedTable_spec : ∀ (d : Nat), (nestedTable d).depth = d + 1 ∧ (nestedTable d).fits = true := by
  intro d
  induction d with
  | zero => exact ⟨rfl, rfl⟩
  | succ d ih =>
    constructor
    · simp [nestedTable, Wire.depth, Entries.depth, ih.1]
    · simp [nestedTable, Wire.fits, Entries.fits, Entries.count, ih.2]

/-- The amended C12. `ReadValue` has no recursion limit: for every `d` the
`d + 1`-fold nesting of tables is decoded to its value, from any offset and
whatever follows it. -/
theorem ReadValue_nested_any_depth (F : GoFmt) (d : Nat) (post : List Byte) (off : Nat) :
    (nestedTable d).depth = d + 1
      ∧ ReadValue F ⟨(nestedTable d).encode ++ post, off⟩
        = some (.ok ((nestedTable d).value F) ⟨post, off + (nestedTable d).encode.length⟩) :=
  ⟨(nestedTable_spec d).1, ReadValue_encode F _ (nestedTable_spec d).2 post off⟩

/-- C12 refuted: no depth `D` makes `ReadValue` fail on every well-formed input
whose tables are nested more than `D` levels deep. -/
theorem ReadValue_no_recursion_limit :
    ¬ ∃ D : Nat, ∀ (w : Wire), w.fits = true → D < w.depth →
      ∃ e r, ReadValue exampleFmt ⟨w.encode, 0⟩ = some (.err e r) := by
  rintro ⟨D, h⟩
  obtain ⟨e, r, herr⟩ := h (nestedTable D) (nestedTable_spec D).2 (by
    rw [(nestedTable_spec D).1]
    omega)
  have hok := ReadValue_encode exampleFmt _ (nestedTable_spec D).2 [] 0
  rw [List.append_nil] at hok
  rw [hok] at herr
  cases herr

/-! ## A successful read depends only on the bytes it consumes -/

theorem ReadFull_frame (n : Nat) : FrameOk (fun r => some (ReadFull n r)) := by
  intro rest off v r1 h
  simp only [Option.some.injEq] at h
  unfold ReadFull at h
  split_ifs at h with h1 h2
  simp only at h1
  injection h with hv hr
  subst hv hr
  refine ⟨rest.take n, (List.take_append_drop n rest).symm, by simp [Nat.min_eq_left h1], ?_⟩
  intro post
  have hl : (rest.take n).length = n := by simp [Nat.min_eq_left h1]
  have := ReadFull_append (rest.take n) post off n hl
  simp only [this, hl]

theorem read7BitIntLoop_frame :
    ∀ (bs : List Byte) (result shift off : Nat) (v : Int) (r1 : Reader),
      read7BitIntLoop bs result shift off = .ok v r1 →
      ∃ c, bs = c ++ r1.rest ∧ r1.off = off + c.length
        ∧ ∀ post, read7BitIntLoop (c ++ post) result shift off
            = .ok v ⟨post, off + c.length⟩ := by
  intro bs
  induction bs with
  | nil => intro _ _ _ _ _ h; simp [read7BitIntLoop] at h
  | cons b t ih =>
    intro result shift off v r1 h
    rw [read7BitIntLoop_cons] at h
    split_ifs at h with hb
    · injection h with hv hr
      subst hv hr
      refine ⟨[b], rfl, rfl, ?_⟩
      intro post
      rw [List.singleton_append, read7BitIntLoop_cons, if_pos hb]
      rfl
    · obtain ⟨c, hc, hoff, hpost⟩ := ih _ _ _ _ _ h
      refine ⟨b :: c, by rw [hc]; rfl, by rw [hoff]; simp only [List.length_cons]; omega, ?_⟩
      intro post
      rw [List.cons_append, read7BitIntLoop_cons, if_neg hb, hpost post]
      simp only [List.length_cons]
      congr 2
      omega

theorem ReadFull_ok_off {n : Nat} {r r1 : Reader} {buf : List Byte}
    (h : ReadFull n r = .ok buf r1) : r1.off = r.off + n := by
  unfold ReadFull at h
  split_ifs at h
  injection h with _ h2
  rw [← h2]

theorem readString_frame (F : GoFmt) : FrameOk (fun r => some (readString F r)) := by
  intro rest off v r1 h
  simp only [Option.some.injEq] at h
  unfold readString at h
  cases h7 : read7BitInt ⟨rest, off⟩ with
  | panic => simp [h7] at h
  | err e r2 => simp [h7] at h
  | ok len r2 =>
    rw [h7] at h
    simp only at h
    split_ifs at h with hneg
    obtain ⟨c1, hc1, hoff1, hpost1⟩ := read7BitIntLoop_frame _ _ _ _ _ _ h7
    simp only at hc1 hoff1 hpost1
    cases hf : ReadFull len.toNat r2 with
    | panic => simp [hf] at h
    | err e r3 => simp [hf] at h
    | ok buf r3 =>
      rw [hf] at h
      injection h with hv hr
      subst hv hr
      obtain ⟨c2, hc2, hoff2, hpost2⟩ := ReadFull_frame len.toNat r2.rest r2.off buf r3
        (by simp only [Option.some.injEq]; exact hf)
      refine ⟨c1 ++ c2, ?_, ?_, ?_⟩
      · rw [hc1, hc2, List.append_assoc]
      · simp only [List.length_append]
        omega
      · intro post
        have h7p : read7BitInt ⟨c1 ++ (c2 ++ post), off⟩
            = .ok len ⟨c2 ++ post, off + c1.length⟩ := hpost1 (c2 ++ post)
        have hfp := hpost2 post
        simp only [Option.some.injEq] at hfp
        rw [hoff1] at hfp
        have hn := ReadFull_ok_off hf
        have hneg2 : ¬ (len < 0 ∨ (sliceLimit F ⟨c2 ++ post, off + c1.length⟩ : Int) < len) := by
          have h5 := le_sliceLimit F ⟨c2 ++ post, off + c1.length⟩
          simp only [Reader.Size, List.length_append] at h5
          have h6 : ¬ len < 0 := fun h => hneg (Or.inl h)
          omega
        simp only [List.append_assoc, Option.some.injEq]
        unfold readString
        rw [h7p]
        simp only
        rw [if_neg hneg2, hfp]
        simp only [List.length_append]
        congr 2
        omega

theorem readNumber_frame : FrameOk (fun r => some (readNumber r)) := by
  intro rest off v r1 h
  simp only [Option.some.injEq] at h
  unfold readNumber at h
  cases hf : ReadFull 8 ⟨rest, off⟩ with
  | panic => simp [hf] at h
  | err e r3 => simp [hf] at h
  | ok buf r3 =>
    rw [hf] at h
    injection h with hv hr
    subst hv hr
    obtain ⟨c, hc, hoff, hpost⟩ := ReadFull_frame 8 rest off buf r3
      (by simp only [Option.some.injEq]; exact hf)
    refine ⟨c, hc, hoff, ?_⟩
    intro post
    have hp := hpost post
    simp only [Option.some.injEq] at hp ⊢
    unfold readNumber
    rw [hp]

theorem readBoolean_frame : FrameOk (fun r => some (readBoolean r)) := by
  intro rest off v r1 h
  simp only [Option.some.injEq] at h
  cases rest with
  | nil => simp [readBoolean, ReadByte] at h
  | cons b t =>
    simp only [readBoolean, ReadByte, Res.ok.injEq] at h
    obtain ⟨hv, hr⟩ := h
    subst hv hr
    exact ⟨[b], rfl, rfl, fun post => rfl⟩

theorem readTableHeader_frame : FrameOk (fun r => some (readTableHeader r)) := by
  intro rest off v r1 h
  simp only [Option.some.injEq] at h
  unfold readTableHeader at h
  cases hf : ReadFull 4 ⟨rest, off⟩ with
  | panic => simp [hf] at h
  | err e r3 => simp [hf] at h
  | ok buf r3 =>
    rw [hf] at h
    simp only at h
    cases hg : ReadFull 4 r3 with
    | panic => simp [hg] at h
    | err e r4 => simp [hg] at h
    | ok buf4 r4 =>
      rw [hg] at h
      injection h with hv hr
      subst hv hr
      obtain ⟨c1, hc1, hoff1, hpost1⟩ := ReadFull_frame 4 rest off buf r3
        (by simp only [Option.some.injEq]; exact hf)
      obtain ⟨c2, hc2, hoff2, hpost2⟩ := ReadFull_frame 4 r3.rest r3.off buf4 r4
        (by simp only [Option.some.injEq]; exact hg)
      refine ⟨c1 ++ c2, by rw [hc1, hc2, List.append_assoc], by
        simp only [List.length_append]; omega, ?_⟩
      intro post
      have hp1 := hpost1 (c2 ++ post)
      have hp2 := hpost2 post
      simp only [Option.some.injEq] at hp1 hp2 ⊢
      rw [hoff1] at hp2
      unfold readTableHeader
      rw [List.append_assoc, hp1]
      simp only
      rw [hp2]
      simp only [List.length_append]
      congr 2
      omega

theorem readPairs_frame (F : GoFmt) (rv : Reader → Option (Res Value)) (hrv : FrameOk rv) :
    ∀ (n i : Nat) (table : Table), FrameOk (readPairs F rv n i table) := by
  intro n
  induction n with
  | zero =>
    intro i table rest off v r1 h
    simp only [readPairs, Option.some.injEq, Res.ok.injEq] at h
    obtain ⟨hv, hr⟩ := h
    subst hv hr
    exact ⟨[], rfl, rfl, fun post => rfl⟩
  | succ n ih =>
    intro i table rest off v r1 h
    rw [readPairs] at h
    cases h1 : rv ⟨rest, off⟩ with
    | none => simp [h1] at h
    | some a =>
      rw [h1] at h
      cases a with
      | panic => simp at h
      | err e r2 => simp at h
      | ok key r2 =>
        simp only at h
        cases h2 : rv r2 with
        | none => simp [h2] at h
        | some b =>
          rw [h2] at h
          cases b with
          | panic => simp at h
          | err e r3 => simp at h
          | ok val r3 =>
            simp only at h
            obtain ⟨c1, hc1, hoff1, hpost1⟩ := hrv rest off key r2 h1
            obtain ⟨c2, hc2, hoff2, hpost2⟩ := hrv r2.rest r2.off val r3 h2
            obtain ⟨c3, hc3, hoff3, hpost3⟩ := ih (i + 1) _ r3.rest r3.off v r1 h
            refine ⟨c1 ++ (c2 ++ c3), by rw [hc1, hc2, hc3]; simp only [List.append_assoc], by
              simp only [List.length_append]; omega, ?_⟩
            intro post
            have hp1 := hpost1 (c2 ++ (c3 ++ post))
            have hp2 := hpost2 (c3 ++ post)
            have hp3 := hpost3 post
            rw [hoff1] at hp2
            rw [hoff2, hoff1] at hp3
            rw [List.append_assoc, List.append_assoc,
              readPairs_succ_ok F rv n i table _ _ _ key val hp1 hp2, hp3]
            simp only [List.length_append]
            congr 3
            omega

theorem ReadValueFuel_frame (F : GoFmt) : ∀ (fuel : Nat), FrameOk (ReadValueFuel F fuel) := by
  intro fuel
  induction fuel with
  | zero => intro rest off v r1 h; simp [ReadValueFuel] at h
  | succ f ih =>
    intro rest off v r1 h
    cases rest with
    | nil => simp [ReadValueFuel, ReadByte] at h
    | cons t rest1 =>
      rw [ReadValueFuel_cons] at h
      -- the three leaf cases share one shape
      have leaf : ∀ (g : Reader → Res Value), FrameOk (fun r => some (g r)) →
          some (g ⟨rest1, off + 1⟩) = some (.ok v r1) →
          (∀ post, ReadValueFuel F (f + 1) ⟨t :: post, off⟩ = some (g ⟨post, off + 1⟩)) →
          ∃ c, t :: rest1 = c ++ r1.rest ∧ r1.off = off + c.length
            ∧ ∀ post, ReadValueFuel F (f + 1) ⟨c ++ post, off⟩
                = some (.ok v ⟨post, off + c.length⟩) := by
        intro g hg hgv hunf
        obtain ⟨c, hc, hoff, hpost⟩ := hg rest1 (off + 1) v r1 hgv
        refine ⟨t :: c, by rw [hc]; rfl, by
          rw [hoff]; simp only [List.length_cons]; omega, ?_⟩
        intro post
        have hp := hpost post
        simp only at hp
        rw [List.cons_append, hunf, hp]
        simp only [List.length_cons]
        congr 3
        omega
      split_ifs at h with h1 h2 h3 h4
      · exact leaf (readString F) (readString_frame F) h (fun post => by
          rw [ReadValueFuel_cons, if_pos h1])
      · exact leaf readNumber readNumber_frame h (fun post => by
          rw [ReadValueFuel_cons, if_neg h1, if_pos h2])
      · exact leaf readBoolean readBoolean_frame h (fun post => by
          rw [ReadValueFuel_cons, if_neg h1, if_neg h2, if_pos h3])
      · cases hh : readTableHeader ⟨rest1, off + 1⟩ with
        | panic => simp [hh] at h
        | err e r3 => simp [hh] at h
        | ok count r3 =>
          rw [hh] at h
          simp only at h
          split_ifs at h with hlim
          · simp at h
          obtain ⟨c1, hc1, hoff1, hpost1⟩ := readTableHeader_frame rest1 (off + 1) count r3
            (by simp only [Option.some.injEq]; exact hh)
          obtain ⟨c2, hc2, hoff2, hpost2⟩ :=
            readPairs_frame F _ ih count.toNat 0 [] r3.rest r3.off v r1 h
          have hcnt := readPairs_ok_count F _ (ReadValueFuel_ok_length F f) _ _ _ _ _ _ h
          have hlim2 : ∀ post : List Byte,
              ¬ ((mapLimit F ⟨c2 ++ post, off + 1 + c1.length⟩ : Int) < count) := by
            intro post
            have h5 := le_mapLimit F ⟨c2 ++ post, off + 1 + c1.length⟩
            have h6 := congrArg List.length hc2
            simp only [Reader.Size, List.length_append] at h5 h6
            omega
          refine ⟨t :: (c1 ++ c2), by
            rw [hc1, hc2]; simp only [List.cons_append, List.append_assoc], by
            simp only [List.length_cons, List.length_append]; omega, ?_⟩
          intro post
          have hp1 := hpost1 (c2 ++ post)
          have hp2 := hpost2 post
          simp only [Option.some.injEq] at hp1
          rw [hoff1] at hp2
          rw [List.cons_append, ReadValueFuel_cons, if_neg h1, if_neg h2, if_neg h3, if_pos h4,
            List.append_assoc, hp1]
          simp only
          rw [if_neg (hlim2 post), hp2]
          simp only [List.length_cons, List.length_append]
          congr 3
          omega
      · simp at h

/-- The frame property of `ReadValue` on readers. -/
theorem ReadValue_frame_reader (F : GoFmt) : FrameOk (ReadValue F) := by
  intro rest off v r1 h
  obtain ⟨c, hc, hoff, hpost⟩ := ReadValueFuel_frame F _ rest off v r1 h
  exact ⟨c, hc, hoff, fun post => ReadValue_eq_of_fuel F _ _ _ (hpost post)⟩

theorem drop_eq_append_of_agree (b b1 c rest : List Byte) (p : Nat)
    (hb : b.drop p = c ++ rest)
    (hagree : ∀ i, p ≤ i → i < p + c.length → b1[i]? = b[i]?) :
    b1.drop p = c ++ b1.drop (p + c.length) := by
  have htake : (b1.drop p).take c.length = c := by
    apply List.ext_getElem?
    intro n
    rcases Nat.lt_or_ge n c.length with hn | hn
    · rw [List.getElem?_take_of_lt hn, List.getElem?_drop, hagree (p + n) (by omega) (by omega),
        ← List.getElem?_drop, hb, List.getElem?_append_left hn]
    · rw [List.getElem?_take_eq_none hn, List.getElem?_eq_none hn]
  have hsplit := (List.take_append_drop c.length (b1.drop p)).symm
  rw [htake, List.drop_drop] at hsplit
  exact hsplit

/-- C17. `ReadValue` depends only on the bytes it consumes. If `ReadValue`
started at position `p` of the buffer `b` succeeds with the value `v` and leaves
the cursor at position `q`, then `q > p`, what is left unread is `b` from `q`
on, and on every buffer that agrees with `b` on the positions `p..q-1`,
`ReadValue` started at `p` returns `v` and leaves the cursor at `q` as well. -/
theorem ReadValue_frame (F : GoFmt) (b b1 : List Byte) (p : Nat) (v : Value) (r1 : Reader)
    (h : ReadValue F ⟨b.drop p, p⟩ = some (.ok v r1))
    (hagree : ∀ i, p ≤ i → i < r1.off → b1[i]? = b[i]?) :
    p < r1.off ∧ r1.rest = b.drop r1.off
      ∧ ReadValue F ⟨b1.drop p, p⟩ = some (.ok v ⟨b1.drop r1.off, r1.off⟩) := by
  obtain ⟨c, hc, hoff, hpost⟩ := ReadValue_frame_reader F (b.drop p) p v r1 h
  have hlt := ReadValueFuel_ok_length F _ _ v r1 h
  have hcpos : 0 < c.length := by
    have := congrArg List.length hc
    simp only [List.length_append] at this hlt
    omega
  refine ⟨by omega, ?_, ?_⟩
  · have h1 : (b.drop p).drop c.length = r1.rest := by
      rw [hc, List.drop_left]
    rw [List.drop_drop] at h1
    rw [hoff, h1]
  · have hb1 := drop_eq_append_of_agree b b1 c r1.rest p hc (by
      intro i h1 h2
      exact hagree i h1 (by omega))
    rw [hb1, hpost, hoff]

/-- C17 on two buffers that share a boolean at positions 1 and 2 and differ
everywhere else. -/
theorem ReadValue_frame_witness :
    1 < (⟨[0x00], 3⟩ : Reader).off ∧ (⟨[0x00], 3⟩ : Reader).rest = [0x58, 0x42, 0x01, 0x00].drop 3
      ∧ ReadValue exampleFmt ⟨[0x54, 0x42, 0x01, 0x53, 0x05].drop 1, 1⟩
          = some (.ok (.bool true) ⟨[0x54, 0x42, 0x01, 0x53, 0x05].drop 3, 3⟩) :=
  ReadValue_frame exampleFmt [0x58, 0x42, 0x01, 0x00] [0x54, 0x42, 0x01, 0x53, 0x05] 1
    (.bool true) ⟨[0x00], 3⟩ rfl (by
      intro i h1 h2
      have hi : i = 1 ∨ i = 2 := by
        simp only at h2
        omega
      rcases hi with rfl | rfl <;> rfl)

/-! ## Termination -/

theorem ReadByte_size {r r1 : Reader} {x : Res Byte} (h : ReadByte r = x) :
    (∀ b, x = .ok b r1 → r1.Size = r.Size) ∧ (∀ e, x = .err e r1 → r1.Size = r.Size) := by
  subst h
  unfold ReadByte
  cases hr : r.rest with
  | nil =>
    simp only [Reader.Size]
    exact ⟨fun b hb => (by cases hb), fun e he => by
      injection he with _ h2; subst h2; rfl⟩
  | cons b t =>
    simp only [Reader.Size]
    refine ⟨fun b1 hb => ?_, fun e he => by cases he⟩
    injection hb with _ h2
    subst h2
    simp only [hr, List.length_cons]
    omega

theorem ReadFull_size {n : Nat} {r r1 : Reader} :
    (∀ bs, ReadFull n r = .ok bs r1 → r1.Size = r.Size)
      ∧ (∀ e, ReadFull n r = .err e r1 → r1.Size = r.Size) := by
  unfold ReadFull Reader.Size
  split_ifs with h1 h2
  · refine ⟨fun bs h => ?_, fun e h => by cases h⟩
    injection h with _ h2
    subst h2
    simp only [List.length_drop]
    omega
  · refine ⟨fun bs h => (by cases h), fun e h => ?_⟩
    injection h with _ h3
    subst h3
    rfl
  · refine ⟨fun bs h => (by cases h), fun e h => ?_⟩
    injection h with _ h3
    subst h3
    simp

theorem read7BitIntLoop_size :
    ∀ (bs : List Byte) (result shift off : Nat) (r1 : Reader),
      (∀ v, read7BitIntLoop bs result shift off = .ok v r1 → r1.Size = off + bs.length)
        ∧ (∀ e, read7BitIntLoop bs result shift off = .err e r1 → r1.Size = off + bs.length) := by
  intro bs
  induction bs with
  | nil =>
    intro result shift off r1
    refine ⟨fun v h => (by simp [read7BitIntLoop] at h), fun e h => ?_⟩
    simp only [read7BitIntLoop, Res.err.injEq] at h
    rw [← h.2]
    rfl
  | cons b t ih =>
    intro result shift off r1
    rw [read7BitIntLoop_cons]
    split_ifs with hb
    · refine ⟨fun v h => ?_, fun e h => by cases h⟩
      injection h with _ h2
      subst h2
      simp only [Reader.Size, List.length_cons]
      omega
    · obtain ⟨h1, h2⟩ := ih ((result ||| ((b.val &&& 0x7F) <<< shift)) % 2 ^ 64)
        ((shift + 7) % 2 ^ 64) (off + 1) r1
      refine ⟨fun v h => ?_, fun e h => ?_⟩
      · rw [h1 v h]; simp only [List.length_cons]; omega
      · rw [h2 e h]; simp only [List.length_cons]; omega

theorem readString_size {F : GoFmt} {r r1 : Reader} :
    (∀ v, readString F r = .ok v r1 → r1.Size = r.Size)
      ∧ (∀ e, readString F r = .err e r1 → r1.Size = r.Size) := by
  unfold readString
  cases h7 : read7BitInt r with
  | panic => exact ⟨fun v h => (by cases h), fun e h => by cases h⟩
  | err e2 r2 =>
    refine ⟨fun v h => (by cases h), fun e h => ?_⟩
    injection h with _ h2
    subst h2
    exact (read7BitIntLoop_size _ _ _ _ _).2 _ h7
  | ok len r2 =>
    have hs2 : r2.Size = r.Size := (read7BitIntLoop_size _ _ _ _ _).1 _ h7
    simp only
    split_ifs with hneg
    · exact ⟨fun v h => (by cases h), fun e h => by cases h⟩
    · cases hf : ReadFull len.toNat r2 with
      | panic => exact ⟨fun v h => (by cases h), fun e h => by cases h⟩
      | err e3 r3 =>
        refine ⟨fun v h => (by cases h), fun e h => ?_⟩
        injection h with _ h2
        subst h2
        rw [ReadFull_size.2 _ hf, hs2]
      | ok buf r3 =>
        refine ⟨fun v h => ?_, fun e h => by cases h⟩
        injection h with _ h2
        subst h2
        rw [ReadFull_size.1 _ hf, hs2]

theorem readNumber_size {r r1 : Reader} :
    (∀ v, readNumber r = .ok v r1 → r1.Size = r.Size)
      ∧ (∀ e, readNumber r = .err e r1 → r1.Size = r.Size) := by
  unfold readNumber
  cases hf : ReadFull 8 r with
  | panic => exact ⟨fun v h => (by cases h), fun e h => by cases h⟩
  | err e3 r3 =>
    refine ⟨fun v h => (by cases h), fun e h => ?_⟩
    injection h with _ h2
    subst h2
    exact ReadFull_size.2 _ hf
  | ok buf r3 =>
    refine ⟨fun v h => ?_, fun e h => by cases h⟩
    injection h with _ h2
    subst h2
    exact ReadFull_size.1 _ hf

theorem readBoolean_size {r r1 : Reader} :
    (∀ v, readBoolean r = .ok v r1 → r1.Size = r.Size)
      ∧ (∀ e, readBoolean r = .err e r1 → r1.Size = r.Size) := by
  unfold readBoolean
  cases hf : ReadByte r with
  | panic => exact ⟨fun v h => (by cases h), fun e h => by cases h⟩
  | err e3 r3 =>
    refine ⟨fun v h => (by cases h), fun e h => ?_⟩
    injection h with _ h2
    subst h2
    exact (ReadByte_size hf).2 _ rfl
  | ok buf r3 =>
    refine ⟨fun v h => ?_, fun e h => by cases h⟩
    injection h with _ h2
    subst h2
    exact (ReadByte_size hf).1 _ rfl

theorem readTableHeader_size {r r1 : Reader} :
    (∀ v, readTableHeader r = .ok v r1 → r1.Size = r.Size)
      ∧ (∀ e, readTableHeader r = .err e r1 → r1.Size = r.Size) := by
  unfold readTableHeader
  cases hf : ReadFull 4 r with
  | panic => exact ⟨fun v h => (by cases h), fun e h => by cases h⟩
  | err e3 r3 =>
    refine ⟨fun v h => (by cases h), fun e h => ?_⟩
    injection h with _ h2
    subst h2
    exact ReadFull_size.2 _ hf
  | ok buf r3 =>
    have hs3 := ReadFull_size.1 _ hf
    simp only
    cases hg : ReadFull 4 r3 with
    | panic => exact ⟨fun v h => (by cases h), fun e h => by cases h⟩
    | err e4 r4 =>
      refine ⟨fun v h => (by cases h), fun e h => ?_⟩
      injection h with _ h2
      subst h2
      rw [ReadFull_size.2 _ hg, hs3]
    | ok buf4 r4 =>
      refine ⟨fun v h => ?_, fun e h => by cases h⟩
      injection h with _ h2
      subst h2
      rw [ReadFull_size.1 _ hg, hs3]

theorem readPairs_size (F : GoFmt) (rv : Reader → Option (Res Value))
    (hrv : ∀ r r1, (∀ v, rv r = some (.ok v r1) → r1.Size = r.Size)
      ∧ (∀ e, rv r = some (.err e r1) → r1.Size = r.Size)) :
    ∀ (n i : Nat) (table : Table) (r r1 : Reader),
      (∀ v, readPairs F rv n i table r = some (.ok v r1) → r1.Size = r.Size)
        ∧ (∀ e, readPairs F rv n i table r = some (.err e r1) → r1.Size = r.Size) := by
  intro n
  induction n with
  | zero =>
    intro i table r r1
    simp only [readPairs, Option.some.injEq, Res.ok.injEq]
    exact ⟨fun v h => by rw [h.2], fun e h => by cases h⟩
  | succ n ih =>
    intro i table r r1
    rw [readPairs]
    cases h1 : rv r with
    | none => exact ⟨fun v h => (by cases h), fun e h => by cases h⟩
    | some a =>
      cases a with
      | panic => exact ⟨fun v h => (by simp at h), fun e h => by simp at h⟩
      | err e2 r2 =>
        refine ⟨fun v h => (by simp at h), fun e h => ?_⟩
        simp only [Option.some.injEq, Res.err.injEq] at h
        rw [← h.2]
        exact (hrv r r2).2 _ h1
      | ok key r2 =>
        have hs2 := (hrv r r2).1 _ h1
        simp only
        cases h2 : rv r2 with
        | none => exact ⟨fun v h => (by cases h), fun e h => by cases h⟩
        | some b =>
          cases b with
          | panic => exact ⟨fun v h => (by simp at h), fun e h => by simp at h⟩
          | err e3 r3 =>
            refine ⟨fun v h => (by simp at h), fun e h => ?_⟩
            simp only [Option.some.injEq, Res.err.injEq] at h
            rw [← h.2, (hrv r2 r3).2 _ h2, hs2]
          | ok val r3 =>
            have hs3 := (hrv r2 r3).1 _ h2
            obtain ⟨ha, hb⟩ := ih (i + 1) (mapSet table (Sprint F key) val) r3 r1
            exact ⟨fun v h => by rw [ha v h, hs3, hs2], fun e h => by rw [hb e h, hs3, hs2]⟩

theorem ReadValueFuel_size (F : GoFmt) :
    ∀ (fuel : Nat) (r r1 : Reader),
      (∀ v, ReadValueFuel F fuel r = some (.ok v r1) → r1.Size = r.Size)
        ∧ (∀ e, ReadValueFuel F fuel r = some (.err e r1) → r1.Size = r.Size) := by
  intro fuel
  induction fuel with
  | zero =>
    intro r r1
    exact ⟨fun v h => (by simp [ReadValueFuel] at h), fun e h => by simp [ReadValueFuel] at h⟩
  | succ f ih =>
    intro r r1
    rw [ReadValueFuel]
    cases hb : ReadByte r with
    | panic => exact ⟨fun v h => (by simp at h), fun e h => by simp at h⟩
    | err e2 r2 =>
      refine ⟨fun v h => (by simp at h), fun e h => ?_⟩
      simp only [Option.some.injEq, Res.err.injEq] at h
      rw [← h.2]
      exact (ReadByte_size hb).2 _ rfl
    | ok t r2 =>
      have hs2 : r2.Size = r.Size := (ReadByte_size hb).1 _ rfl
      simp only
      split_ifs with h1 h2 h3 h4
      · exact ⟨fun v h => by rw [readString_size.1 v (Option.some.inj h), hs2],
          fun e h => by rw [readString_size.2 e (Option.some.inj h), hs2]⟩
      · exact ⟨fun v h => by rw [readNumber_size.1 v (Option.some.inj h), hs2],
          fun e h => by rw [readNumber_size.2 e (Option.some.inj h), hs2]⟩
      · exact ⟨fun v h => by rw [readBoolean_size.1 v (Option.some.inj h), hs2],
          fun e h => by rw [readBoolean_size.2 e (Option.some.inj h), hs2]⟩
      · cases hh : readTableHeader r2 with
        | panic => exact ⟨fun v h => (by simp at h), fun e h => by simp at h⟩
        | err e3 r3 =>
          refine ⟨fun v h => (by simp at h), fun e h => ?_⟩
          simp only [Option.some.injEq, Res.err.injEq] at h
          rw [← h.2, readTableHeader_size.2 _ hh, hs2]
        | ok count r3 =>
          have hs3 := readTableHeader_size.1 _ hh
          obtain ⟨ha, hb2⟩ := readPairs_size F _ ih count.toNat 0 [] r3 r1
          simp only
          split_ifs with hlim
          · exact ⟨fun v h => (by simp at h), fun e h => by simp at h⟩
          · exact ⟨fun v h => by rw [ha v h, hs3, hs2], fun e h => by rw [hb2 e h, hs3, hs2]⟩
      · refine ⟨fun v h => (by simp at h), fun e h => ?_⟩
        simp only [Option.some.injEq, Res.err.injEq] at h
        rw [← h.2, hs2]

/-- A continuing iteration of the loop of `ReadAll` leaves the cursor at least
one byte further, in the same buffer. -/
theorem ReadAllStep_next_off (F : GoFmt) (r : Reader) (all : Table) (r1 : Reader) (all1 : Table)
    (h : ReadAllStep F r all = some (.next r1 all1)) :
    r.off < r1.off ∧ r1.Size = r.Size := by
  obtain ⟨st, hst, hok⟩ := ReadAllStep_progress F r all
  rw [h] at hst
  injection hst with hst
  subst hst
  have hlen : r1.rest.length < r.rest.length := hok.1
  have hsize : r1.Size = r.Size := by
    unfold ReadAllStep at h
    cases hv : ReadValue F r with
    | none => simp [hv] at h
    | some res =>
      rw [hv] at h
      cases res with
      | panic => simp at h
      | err e r2 =>
        have hs2 := (ReadValueFuel_size F _ r r2).2 e hv
        simp only at h
        cases hrest : r2.rest with
        | nil =>
          rw [hrest] at h
          rcases giveUp_cases all e with ⟨_, hg⟩ | ⟨_, hg⟩ <;> simp [hg] at h
        | cons b t =>
          rw [hrest] at h
          simp only at h
          split_ifs at h with hb
          · simp only [Option.some.injEq, Step.next.injEq] at h
            rw [← h.1, ← hs2]
            simp only [Reader.Size, hrest, List.length_cons]
            omega
          · rcases giveUp_cases all e with ⟨_, hg⟩ | ⟨_, hg⟩ <;> simp [hg] at h
      | ok v r2 =>
        have hs2 := (ReadValueFuel_size F _ r r2).1 v hv
        cases v <;>
          (simp only [Option.some.injEq, Step.next.injEq] at h
           rw [← h.1]
           exact hs2)
  refine ⟨?_, hsize⟩
  unfold Reader.Size at hsize
  omega

theorem ReadAllCount_le (F : GoFmt) :
    ∀ (fuel : Nat) (r : Reader) (all : Table), ReadAllCount F fuel r all ≤ r.rest.length := by
  intro fuel
  induction fuel with
  | zero => intro r all; simp [ReadAllCount]
  | succ f ih =>
    intro r all
    rw [ReadAllCount]
    split_ifs with hlen
    · obtain ⟨st, hst, hok⟩ := ReadAllStep_progress F r all
      rw [hst]
      cases st with
      | next r1 all1 =>
        have h1 : r1.rest.length < r.rest.length := hok.1
        have := ih r1 all1
        simp only
        omega
      | done res => exact hlen
    · exact Nat.zero_le _

/-- What holds of termination. `ReadValue` has an outcome on every reader: a
value, an error, or no return (`Res.panic`); every continuing iteration of the
loop of `ReadAll` leaves the cursor at least one byte further in the same
buffer; so the body of the loop runs at most `len(data)` times, whatever number
of iterations is allowed, and `ReadAll` has an outcome. -/
theorem decoding_outcome (F : GoFmt) :
    (∀ r : Reader, ∃ res, ReadValue F r = some res)
      ∧ (∀ r all r1 all1, ReadAllStep F r all = some (.next r1 all1) →
          r.off < r1.off ∧ r1.Size = r.Size)
      ∧ (∀ (data : List Byte) (fuel : Nat), ReadAllCount F fuel (New data) [] ≤ data.length)
      ∧ (∀ data : List Byte, ∃ res, ReadAll F data = some res) := by
  refine ⟨fun r => ?_, ReadAllStep_next_off F, fun data fuel => ReadAllCount_le F fuel _ _,
    ReadAll_total F⟩
  cases h : ReadValue F r with
  | none => exact absurd h (ReadValue_isSome F r)
  | some res => exact ⟨res, rfl⟩

/-! ## Canonical keys -/

theorem digitByte_digitChar (d : Nat) (hd : d < 10) :
    (digitByte (Nat.digitChar d)).val = 0x30 + d := by
  interval_cases d <;> rfl

theorem decimalValue_append_singleton (s : Str) (c : Byte) :
    decimalValue (s ++ [c]) = 10 * decimalValue s + (c.val - 0x30) := by
  simp [decimalValue, List.foldl_append]

theorem toDigitsCore_spec :
    ∀ (fuel n : Nat) (ds : List Char), n < fuel →
      ∃ pre : List Char, Nat.toDigitsCore 10 fuel n ds = pre ++ ds
        ∧ CanonicalNat (pre.map digitByte) n := by
  intro fuel
  induction fuel with
  | zero => intro n ds h; omega
  | succ f ih =>
    intro n ds hn
    have hmod : n % 10 < 10 := Nat.mod_lt _ (by norm_num)
    have hd := digitByte_digitChar (n % 10) hmod
    by_cases h0 : n / 10 = 0
    · refine ⟨[Nat.digitChar (n % 10)], by simp [Nat.toDigitsCore, h0], ?_⟩
      have hn10 : n % 10 = n := by omega
      refine ⟨by simp, ?_, ?_, ?_⟩
      · intro c hc
        simp only [List.map_cons, List.map_nil, List.mem_singleton] at hc
        rw [hc, hd]
        omega
      · intro hh
        simp only [List.map_cons, List.map_nil, List.head?_cons, Option.some.injEq] at hh
        simp only [List.map_cons, List.map_nil, hh]
      · simp only [decimalValue, List.map_cons, List.map_nil, List.foldl_cons, List.foldl_nil, hd]
        omega
    · obtain ⟨pre, hpre, hne, hdig, hhead, hval⟩ :=
        ih (n / 10) (Nat.digitChar (n % 10) :: ds) (by omega)
      refine ⟨pre ++ [Nat.digitChar (n % 10)], by
        simp [Nat.toDigitsCore, h0, hpre], ?_⟩
      refine ⟨by simp, ?_, ?_, ?_⟩
      · intro c hc
        simp only [List.map_append, List.map_cons, List.map_nil, List.mem_append,
          List.mem_singleton] at hc
        rcases hc with hc | hc
        · exact hdig c hc
        · rw [hc, hd]
          omega
      · intro hh
        exfalso
        cases hp : pre.map digitByte with
        | nil => exact hne hp
        | cons c t =>
          simp only [List.map_append, hp, List.cons_append, List.head?_cons,
            Option.some.injEq] at hh
          have h1 := hhead (by rw [hp, hh]; rfl)
          rw [h1] at hval
          simp only [decimalValue, List.foldl_cons, List.foldl_nil] at hval
          exact h0 hval.symm
      · rw [List.map_append, List.map_cons, List.map_nil, decimalValue_append_singleton, hval,
          hd]
        omega

theorem toDigits_canonical (n : Nat) : CanonicalNat ((Nat.toDigits 10 n).map digitByte) n := by
  obtain ⟨pre, hpre, hc⟩ := toDigitsCore_spec (n + 1) n [] (Nat.lt_succ_self n)
  unfold Nat.toDigits
  rw [hpre, List.append_nil]
  exact hc

theorem fmtInt_canonical (n : Int) : CanonicalDecimal (fmtInt n) n := by
  unfold CanonicalDecimal fmtInt
  split_ifs with h
  · exact ⟨_, rfl, toDigits_canonical _⟩
  · exact toDigits_canonical _

theorem Entries.lastValue_mem (F : GoFmt) :
    (es : Entries) → ∀ (key : Str),
      (∀ x, es.lastValue F key = some x →
        ∃ p ∈ es.toList, Sprint F (p.1.value F) = key ∧ x = p.2.value F)
      ∧ (∀ p ∈ es.toList, Sprint F (p.1.value F) = key → ∃ x, es.lastValue F key = some x)
  | .nil, key => by
    simp [Entries.lastValue, Entries.toList]
  | .cons k v rest, key => by
    obtain ⟨ih1, ih2⟩ := Entries.lastValue_mem F rest key
    constructor
    · intro x hx
      rw [Entries.lastValue] at hx
      cases hr : rest.lastValue F key with
      | some y =>
        rw [hr] at hx
        simp only [Option.some.injEq] at hx
        obtain ⟨p, hp, h1, h2⟩ := ih1 y hr
        exact ⟨p, by simp [Entries.toList, hp], h1, by rw [← hx]; exact h2⟩
      | none =>
        rw [hr] at hx
        simp only at hx
        split_ifs at hx with hk
        simp only [Option.some.injEq] at hx
        exact ⟨(k, v), by simp [Entries.toList], hk, hx.symm⟩
    · intro p hp hkey
      rw [Entries.lastValue]
      cases hr : rest.lastValue F key with
      | some y => exact ⟨y, rfl⟩
      | none =>
        simp only [Entries.toList, List.mem_cons] at hp
        rcases hp with hp | hp
        · subst hp
          simp only at hkey
          exact ⟨v.value F, by simp [hkey]⟩
        · obtain ⟨x, hx⟩ := ih2 p hp hkey
          rw [hr] at hx
          cases hx

/-- C13. Table keys are canonicalized to strings. An integer key is rendered as
its canonical decimal (an optional `'-'`, digits, no leading zeros), a boolean
key as `"true"` or `"false"`, a string key as itself. In the table `ReadValue`
returns for well-formed pairs, every pair is present under the rendering of its
decoded key and every key of the table is such a rendering, with the value of
one of the pairs that have it. Hence the keys `Integer 1` and `String "1"`
denote the same entry. -/
theorem table_keys_canonical (F : GoFmt) :
    (∀ n : Int, Sprint F (.int n) = fmtInt n ∧ CanonicalDecimal (fmtInt n) n)
      ∧ Sprint F (.bool true) = [0x74, 0x72, 0x75, 0x65]
      ∧ Sprint F (.bool false) = [0x66, 0x61, 0x6C, 0x73, 0x65]
      ∧ (∀ s : Str, Sprint F (.str s) = s)
      ∧ (∀ (pad : List Byte) (es : Entries) (post : List Byte) (off : Nat),
          (Wire.table pad es).fits = true →
          ∃ table r1, ReadValue F ⟨(Wire.table pad es).encode ++ post, off⟩
              = some (.ok (.table table) r1)
            ∧ (∀ p ∈ es.toList, ∃ x, mapGet table (Sprint F (p.1.value F)) = some x)
            ∧ (∀ key x, mapGet table key = some x →
                ∃ p ∈ es.toList, Sprint F (p.1.value F) = key ∧ x = p.2.value F))
      ∧ Sprint F (.int 1) = Sprint F (.str [0x31])
      ∧ (∀ a b : Value,
          mapSet (mapSet [] (Sprint F (.int 1)) a) (Sprint F (.str [0x31])) b = [([0x31], b)]) := by
  refine ⟨fun n => ⟨rfl, fmtInt_canonical n⟩, rfl, rfl, fun s => rfl, ?_, rfl, fun a b => rfl⟩
  intro pad es post off hfits
  refine ⟨es.insertInto F [], _, ReadValue_encode F (.table pad es) hfits post off, ?_, ?_⟩
  · intro p hp
    obtain ⟨x, hx⟩ := (Entries.lastValue_mem F es _).2 p hp rfl
    refine ⟨x, ?_⟩
    rw [Entries.mapGet_insertInto, hx]
  · intro key x hx
    rw [Entries.mapGet_insertInto] at hx
    cases hl : es.lastValue F key with
    | none => rw [hl] at hx; simp [mapGet] at hx
    | some y =>
      rw [hl] at hx
      simp only [Option.some.injEq] at hx
      subst hx
      exact (Entries.lastValue_mem F es key).1 y hl

/-- The table with the pairs `1.0 -> false` and `"1" -> true` decodes to the
single entry `"1" -> true`; the key `-12.0` is stored under `"-12"`. -/
theorem table_keys_canonical_example :
    ReadValue exampleFmt (New ([0x54, 0, 0, 0, 0, 2, 0, 0, 0]
        ++ [0x4E, 0, 0, 0, 0, 0, 0, 0xF0, 0x3F, 0x42, 0] ++ [0x53, 1, 0x31, 0x42, 1]))
      = some (.ok (.table [([0x31], .bool true)]) ⟨[], 25⟩)
    ∧ ReadValue exampleFmt (New ([0x54, 0, 0, 0, 0, 1, 0, 0, 0]
        ++ [0x4E, 0, 0, 0, 0, 0, 0, 0x28, 0xC0, 0x42, 1]))
      = some (.ok (.table [([0x2D, 0x31, 0x32], .bool true)]) ⟨[], 20⟩) :=
  ⟨rfl, rfl⟩

/-! ## The cleaner -/

/-- C14 at the string `" a "` (bytes `20 61 20`): `CleanString` returns it
unchanged, with its leading and its trailing space, because a space is not a
control character; and at `"a"` followed by the control byte `01` the trailing
control character is removed as well. -/
theorem CleanString_keeps_spaces :
    CleanString [0x20, 0x61, 0x20] = [0x20, 0x61, 0x20]
      ∧ CleanString [0x61, 0x01] = [0x61] :=
  ⟨by decide, by decide⟩

/-- What `CleanString` does remove: control characters at both ends. -/
theorem CleanString_examples :
    CleanString [0x01, 0x02, 0x61, 0x20, 0x62, 0x09, 0x0A] = [0x61, 0x20, 0x62]
      ∧ CleanString [0xC2, 0x85, 0x61, 0xC2, 0x9F] = [0x61]
      ∧ CleanString [0x00, 0x7F] = []
      ∧ CleanString [0xC2, 0xA0, 0x61] = [0xC2, 0xA0, 0x61] :=
  ⟨by decide, by decide, by decide, by decide⟩

theorem CleanObjectLoop_eq_mapMerge :
    ∀ (rest : List (Str × Value)) (cleaned : Table),
      CleanObjectLoop rest cleaned
        = mapMerge cleaned (rest.map (fun p => (p.1, CleanValue p.2))) := by
  intro rest
  induction rest with
  | nil => intro cleaned; rfl
  | cons p t ih =>
    intro cleaned
    obtain ⟨k, v⟩ := p
    rw [CleanObjectLoop, ih]
    rfl

theorem mapSet_of_not_mem {α : Type} (m : List (Str × α)) (k : Str) (v : α)
    (h : k ∉ m.map Prod.fst) : mapSet m k v = m ++ [(k, v)] := by
  induction m with
  | nil => rfl
  | cons p t ih =>
    obtain ⟨k1, v1⟩ := p
    simp only [List.map_cons, List.mem_cons, not_or] at h
    simp only [mapSet, if_neg (Ne.symm h.1), ih h.2, List.cons_append]

theorem mapMerge_of_nodup {α : Type} (table : List (Str × α)) :
    ∀ (all : List (Str × α)), ((all ++ table).map Prod.fst).Nodup →
      mapMerge all table = all ++ table := by
  induction table with
  | nil => intro all _; simp [mapMerge]
  | cons p t ih =>
    intro all h
    obtain ⟨k, v⟩ := p
    have hk : k ∉ all.map Prod.fst := by
      simp only [List.map_append, List.map_cons] at h
      have := (List.nodup_append.mp h).2.2
      intro hmem
      exact this hmem (List.mem_cons_self _ _)
    have hstep : mapMerge all ((k, v) :: t) = mapMerge (mapSet all k v) t := rfl
    rw [hstep, mapSet_of_not_mem all k v hk, ih]
    · simp
    · simpa using h

theorem mapGet_map {α β : Type} (f : α → β) (m : List (Str × α)) (key : Str) :
    mapGet (m.map (fun p => (p.1, f p.2))) key = (mapGet m key).map f := by
  induction m with
  | nil => rfl
  | cons p t ih =>
    obtain ⟨k, v⟩ := p
    simp only [List.map_cons, mapGet]
    split_ifs
    · rfl
    · exact ih

/-- C15. For every map `obj` (its keys distinct, as in any Go map),
`CleanObject(obj)` has exactly the keys of `obj`, and under each key the value
`CleanValue` makes of the one in `obj`: a string is replaced by its
`CleanString`, a nested map by its `CleanObject` (so at every depth), and an
integer, float or boolean is returned unchanged. `obj` itself is an argument of
a pure function and is not modified. -/
theorem CleanObject_spec (obj : Table) (hnd : (obj.map Prod.fst).Nodup) :
    (CleanObject obj).map Prod.fst = obj.map Prod.fst
      ∧ (∀ k, mapGet (CleanObject obj) k = (mapGet obj k).map CleanValue)
      ∧ (∀ s, CleanValue (.str s) = .str (CleanString s))
      ∧ (∀ m, CleanValue (.table m) = .table (CleanObject m))
      ∧ (∀ n, CleanValue (.int n) = .int n)
      ∧ (∀ x, CleanValue (.float x) = .float x)
      ∧ (∀ b, CleanValue (.bool b) = .bool b) := by
  have hkeys : (obj.map (fun p => (p.1, CleanValue p.2))).map Prod.fst = obj.map Prod.fst := by
    rw [List.map_map]
    rfl
  have heq : CleanObject obj = obj.map (fun p => (p.1, CleanValue p.2)) := by
    unfold CleanObject
    rw [CleanObjectLoop_eq_mapMerge, mapMerge_of_nodup _ [] (by
      rw [List.nil_append, hkeys]; exact hnd), List.nil_append]
  refine ⟨by rw [heq, hkeys], fun k => by rw [heq, mapGet_map], fun s => ?_, fun m => ?_,
    fun n => ?_, fun x => ?_, fun b => ?_⟩
  · rw [CleanValue]
  · rw [CleanValue, CleanObject]
  · rw [CleanValue] <;> (intro val hv; cases hv)
  · rw [CleanValue] <;> (intro val hv; cases hv)
  · rw [CleanValue] <;> (intro val hv; cases hv)

/-- C15 on a map holding a string, an integer and a nested map with a string. -/
theorem CleanObject_spec_witness :
    (CleanObject [([0x61], .str [0x01, 0x78]), ([0x62], .int 7),
        ([0x63], .table [([0x64], .str [0x79, 0x02])])]).map Prod.fst
      = [[0x61], [0x62], [0x63]]
    ∧ CleanObject [([0x61], .str [0x01, 0x78]), ([0x62], .int 7),
        ([0x63], .table [([0x64], .str [0x79, 0x02])])]
      = [([0x61], .str [0x78]), ([0x62], .int 7), ([0x63], .table [([0x64], .str [0x79])])] :=
  ⟨(CleanObject_spec [([0x61], .str [0x01, 0x78]), ([0x62], .int 7),
      ([0x63], .table [([0x64], .str [0x79, 0x02])])] (by decide)).1, rfl⟩

/-! ## The classifier -/

/-- The decision of `classifyObject`: it returns `true` and has made exactly one
assignment, into one category map, or it returns `false` and has changed
nothing. -/
theorem classifyObject_cases (key : Str) (obj : Table) (gd : GameData) :
    (∃ cat, classifyObject key obj gd = (true, gd.store cat key obj))
      ∨ classifyObject key obj gd = (false, gd) := by
  unfold classifyObject
  simp only
  generalize objectName key obj = name
  split_ifs
  · exact Or.inl ⟨.Skills, rfl⟩
  · exact Or.inl ⟨.NPCs, rfl⟩
  · exact Or.inl ⟨.Thoughts, rfl⟩
  · exact Or.inl ⟨.Items, rfl⟩
  · exact Or.inl ⟨.WorldObjects, rfl⟩
  · exact Or.inl ⟨.Unclassified, rfl⟩
  · exact Or.inr rfl

theorem GameData.store_spec (gd : GameData) (cat : Category) (key : Str) (obj : Table) :
    mapGet ((gd.store cat key obj).get cat) key = some obj
      ∧ (∀ c2, c2 ≠ cat → (gd.store cat key obj).get c2 = gd.get c2)
      ∧ (gd.store cat key obj).variables = gd.variables := by
  refine ⟨?_, ?_, ?_⟩
  · cases cat <;> simp [GameData.store, GameData.get, mapGet_mapSet]
  · intro c2 hc
    cases cat <;> cases c2 <;> first | rfl | exact absurd rfl hc
  · cases cat <;> rfl

/-- C20. `classifyObject` either returns `true` after exactly one assignment
`gd.<category>[key] = obj` into one of the six category maps, or returns `false`
and leaves `gd` as it was. The one assignment puts `obj` under `key` in that map
and leaves the other five category maps and the four variable maps unchanged.
For an entry that is a table, `walkTree` takes the result of `classifyObject`
when it returned `true`, without visiting the sub-tables of the object, and
descends into the object when it returned `false`; other entries are skipped. -/
theorem classifyObject_walkTree_spec (key : Str) (obj : Table) (gd : GameData) :
    ((∃ cat, classifyObject key obj gd = (true, gd.store cat key obj))
        ∨ classifyObject key obj gd = (false, gd))
      ∧ (∀ cat, mapGet ((gd.store cat key obj).get cat) key = some obj
          ∧ (∀ c2, c2 ≠ cat → (gd.store cat key obj).get c2 = gd.get c2)
          ∧ (gd.store cat key obj).variables = gd.variables)
      ∧ ((classifyObject key obj gd).1 = true →
          walkEntry (.table obj) key gd = (classifyObject key obj gd).2)
      ∧ ((classifyObject key obj gd).1 = false →
          walkEntry (.table obj) key gd = walkTree obj key gd)
      ∧ (∀ (rest : List (Str × Value)) (context : Str),
          walkTree ((key, .table obj) :: rest) context gd
            = walkTree rest context (walkEntry (.table obj) key gd))
      ∧ (∀ (s : Str) (n : Int) (x : Nat) (b : Bool),
          walkEntry (.str s) key gd = gd ∧ walkEntry (.int n) key gd = gd
            ∧ walkEntry (.float x) key gd = gd ∧ walkEntry (.bool b) key gd = gd) := by
  have hcases := classifyObject_cases key obj gd
  refine ⟨hcases, fun cat => GameData.store_spec gd cat key obj, ?_, ?_, ?_, ?_⟩
  · intro h
    rw [walkEntry, if_pos h]
  · intro h
    rw [walkEntry, if_neg (by rw [h]; simp)]
    rcases hcases with ⟨cat, hc⟩ | hc
    · rw [hc] at h
      cases h
    · rw [hc]
  · intro rest context
    rw [walkTree]
  · intro s n x b
    refine ⟨?_, ?_, ?_, ?_⟩ <;> rw [walkEntry] <;> (intro obj1 hv; cases hv)

/-- An entry that is classified is not descended into, and one that is not
classified is: the thought `t` holds an NPC `n`; `walkTree` records `t` alone.
The plain table `p` holds the same NPC; `walkTree` records `n`. -/
theorem walkTree_example :
    walkTree [(ascii "t", .table [(ascii "isThought", .bool true),
        (ascii "n", .table [(ascii "IsNPC", .bool true)])])] [] NewGameData
      = NewGameData.store .Thoughts (ascii "t") [(ascii "isThought", .bool true),
          (ascii "n", .table [(ascii "IsNPC", .bool true)])]
    ∧ walkTree [(ascii "p", .table [(ascii "n", .table [(ascii "IsNPC", .bool true)])])] []
        NewGameData
      = NewGameData.store .NPCs (ascii "n") [(ascii "IsNPC", .bool true)] :=
  ⟨rfl, rfl⟩

theorem classifyObject_variables (key : Str) (obj : Table) (gd : GameData) :
    (classifyObject key obj gd).2.variables = gd.variables := by
  rcases classifyObject_cases key obj gd with ⟨cat, h⟩ | h
  · rw [h]
    exact (GameData.store_spec gd cat key obj).2.2
  · rw [h]

mutual
theorem walkEntry_variables :
    (v : Value) → ∀ (key : Str) (gd : GameData), (walkEntry v key gd).variables = gd.variables
  | .table obj, key, gd => by
    rw [walkEntry]
    split_ifs
    · exact classifyObject_variables key obj gd
    · rw [walkTree_variables obj key _]
      exact classifyObject_variables key obj gd
  | .str _, _, _ => rfl
  | .int _, _, _ => rfl
  | .float _, _, _ => rfl
  | .bool _, _, _ => rfl
theorem walkTree_variables :
    (data : List (Str × Value)) → ∀ (context : Str) (gd : GameData),
      (walkTree data context gd).variables = gd.variables
  | [], _, _ => rfl
  | (key, val) :: rest, context, gd => by
    rw [walkTree, walkTree_variables rest context _, walkEntry_variables val key gd]
end

theorem foldl_classifyVariable :
    ∀ (data : Table) (gd : GameData),
      (data.foldl classifyVariable gd).AllVariables
          = mapMerge gd.AllVariables (data.filter (fun kv => !kv.2.isTable))
        ∧ (data.foldl classifyVariable gd).TaskVariables
          = mapMerge gd.TaskVariables
              (data.filter (fun kv => !kv.2.isTable && (ascii "TASK.").isPrefixOf kv.1))
        ∧ (data.foldl classifyVariable gd).SubstanceVariables
          = mapMerge gd.SubstanceVariables
              (data.filter (fun kv => !kv.2.isTable && !(ascii "TASK.").isPrefixOf kv.1
                && (ascii "SUBSTANCE.").isPrefixOf kv.1))
        ∧ (data.foldl classifyVariable gd).GameVariables
          = mapMerge gd.GameVariables
              (data.filter (fun kv => !kv.2.isTable && !(ascii "TASK.").isPrefixOf kv.1
                && !(ascii "SUBSTANCE.").isPrefixOf kv.1)) := by
  intro data
  induction data with
  | nil => intro gd; exact ⟨rfl, rfl, rfl, rfl⟩
  | cons kv rest ih =>
    intro gd
    obtain ⟨h1, h2, h3, h4⟩ := ih (classifyVariable gd kv)
    rw [List.foldl_cons, h1, h2, h3, h4]
    unfold classifyVariable
    by_cases ht : kv.2.isTable = true
    · simp [List.filter_cons, ht]
    · have hf : kv.2.isTable = false := by simpa using ht
      by_cases hT : (ascii "TASK.").isPrefixOf kv.1 = true
      · simp [List.filter_cons, hf, hT, mapMerge]
      · have hT2 : (ascii "TASK.").isPrefixOf kv.1 = false := by
          rw [← Bool.not_eq_true]; exact hT
        by_cases hS : (ascii "SUBSTANCE.").isPrefixOf kv.1 = true
        · simp [List.filter_cons, hf, hT2, hS, mapMerge]
        · have hS2 : (ascii "SUBSTANCE.").isPrefixOf kv.1 = false := by
            rw [← Bool.not_eq_true]; exact hS
          simp [List.filter_cons, hf, hT2, hS2, mapMerge]

theorem mapGet_filter {α : Type} (P : Str × α → Bool) (m : List (Str × α))
    (hnd : (m.map Prod.fst).Nodup) (key : Str) :
    mapGet (m.filter P) key
      = (mapGet m key).bind (fun v => if P (key, v) then some v else none) := by
  induction m with
  | nil => rfl
  | cons p t ih =>
    obtain ⟨k, v⟩ := p
    simp only [List.map_cons, List.nodup_cons] at hnd
    have ih1 := ih hnd.2
    by_cases hk : k = key
    · subst hk
      have hnone : mapGet t k = none := mapGet_eq_none t k hnd.1
      cases hP : P (k, v) with
      | true => simp [List.filter_cons, hP, mapGet]
      | false =>
        rw [List.filter_cons, hP]
        simp only [Bool.false_eq_true, if_false, ih1, hnone, mapGet, if_true, Option.bind, hP]
    · cases hP : P (k, v) with
      | true =>
        rw [List.filter_cons, hP]
        simp only [if_true, mapGet, if_neg hk, ih1]
      | false =>
        rw [List.filter_cons, hP]
        simp only [Bool.false_eq_true, if_false, mapGet, if_neg hk, ih1]

theorem nodup_keys_filter {α : Type} (P : Str × α → Bool) (m : List (Str × α))
    (hnd : (m.map Prod.fst).Nodup) : ((m.filter P).map Prod.fst).Nodup :=
  List.Nodup.sublist (List.Sublist.map _ (List.filter_sublist m)) hnd

theorem mapGet_mapMerge_nil_filter {α : Type} (P : Str × α → Bool) (m : List (Str × α))
    (hnd : (m.map Prod.fst).Nodup) (key : Str) (v : α) :
    mapGet (mapMerge [] (m.filter P)) key = some v
      ↔ mapGet m key = some v ∧ P (key, v) = true := by
  rw [mapMerge_of_nodup _ [] (by rw [List.nil_append]; exact nodup_keys_filter P m hnd),
    List.nil_append, mapGet_filter P m hnd]
  cases hm : mapGet m key with
  | none => simp
  | some x =>
    simp only [Option.bind, Option.some.injEq]
    constructor
    · intro h
      split_ifs at h with hP
      simp only [Option.some.injEq] at h
      subst h
      exact ⟨rfl, hP⟩
    · rintro ⟨rfl, hP⟩
      rw [if_pos hP]

theorem not_substance_of_task (k : Str) (h : (ascii "TASK.").isPrefixOf k = true) :
    (ascii "SUBSTANCE.").isPrefixOf k = false := by
  have hT : ascii "TASK." = [0x54, 0x41, 0x53, 0x4B, 0x2E] := by decide
  have hS : ascii "SUBSTANCE."
      = [0x53, 0x55, 0x42, 0x53, 0x54, 0x41, 0x4E, 0x43, 0x45, 0x2E] := by decide
  rw [hT] at h
  rw [hS]
  cases k with
  | nil => simp [List.isPrefixOf] at h
  | cons b t =>
    simp only [List.isPrefixOf, Bool.and_eq_true, beq_iff_eq] at h
    have hb : b = 0x54 := h.1.symm
    subst hb
    simp [List.isPrefixOf]

/-- C16. For every top-level mapping `data` (its keys distinct, as in any Go
map), `Classify` puts the entry `(k, v)` into `AllVariables` exactly when `v` is
not a table, and each entry of `AllVariables` is, with the same value, in
`TaskVariables` exactly when `k` starts with `"TASK."`, in `SubstanceVariables`
exactly when it starts with `"SUBSTANCE."`, and in `GameVariables` exactly when
it starts with neither. So `AllVariables` is the disjoint union of the three
maps, and none of the four holds a table. -/
theorem Classify_variables (data : Table) (hnd : (data.map Prod.fst).Nodup) (k : Str)
    (v : Value) :
    (mapGet (Classify data).AllVariables k = some v
        ↔ mapGet data k = some v ∧ v.isTable = false)
      ∧ (mapGet (Classify data).TaskVariables k = some v
        ↔ mapGet (Classify data).AllVariables k = some v
          ∧ (ascii "TASK.").isPrefixOf k = true)
      ∧ (mapGet (Classify data).SubstanceVariables k = some v
        ↔ mapGet (Classify data).AllVariables k = some v
          ∧ (ascii "SUBSTANCE.").isPrefixOf k = true)
      ∧ (mapGet (Classify data).GameVariables k = some v
        ↔ mapGet (Classify data).AllVariables k = some v
          ∧ (ascii "TASK.").isPrefixOf k = false ∧ (ascii "SUBSTANCE.").isPrefixOf k = false) := by
  have hvars := walkTree_variables data [] (data.foldl classifyVariable NewGameData)
  obtain ⟨h1, h2, h3, h4⟩ := foldl_classifyVariable data NewGameData
  simp only [GameData.variables, Prod.mk.injEq] at hvars
  obtain ⟨e1, e2, e3, e4⟩ := hvars
  have hAll : (Classify data).AllVariables
      = mapMerge [] (data.filter (fun kv => !kv.2.isTable)) := by
    unfold Classify; rw [e4, h1]; rfl
  have hTask : (Classify data).TaskVariables = mapMerge []
      (data.filter (fun kv => !kv.2.isTable && (ascii "TASK.").isPrefixOf kv.1)) := by
    unfold Classify; rw [e1, h2]; rfl
  have hSub : (Classify data).SubstanceVariables = mapMerge []
      (data.filter (fun kv => !kv.2.isTable && !(ascii "TASK.").isPrefixOf kv.1
        && (ascii "SUBSTANCE.").isPrefixOf kv.1)) := by
    unfold Classify; rw [e2, h3]; rfl
  have hGame : (Classify data).GameVariables = mapMerge []
      (data.filter (fun kv => !kv.2.isTable && !(ascii "TASK.").isPrefixOf kv.1
        && !(ascii "SUBSTANCE.").isPrefixOf kv.1)) := by
    unfold Classify; rw [e3, h4]; rfl
  rw [hAll, hTask, hSub, hGame]
  simp only [mapGet_mapMerge_nil_filter _ data hnd]
  refine ⟨by simp, by simp; tauto, ?_, by simp; tauto⟩
  simp only [Bool.and_eq_true, Bool.not_eq_true']
  constructor
  · rintro ⟨hd, ⟨hf, hT⟩, hS⟩
    exact ⟨⟨hd, hf⟩, hS⟩
  · rintro ⟨⟨hd, hf⟩, hS⟩
    refine ⟨hd, ⟨hf, ?_⟩, hS⟩
    by_contra hcon
    have hT : (ascii "TASK.").isPrefixOf k = true := by simpa using hcon
    rw [not_substance_of_task k hT] at hS
    cases hS

/-- C16 on a mapping with a task variable, a substance variable, another
variable and a table. -/
theorem Classify_variables_witness :
    (mapGet (Classify [(ascii "TASK.a", .bool true), (ascii "SUBSTANCE.b", .int 2),
          (ascii "c", .str [0x78]), (ascii "d", .table [])]).TaskVariables (ascii "TASK.a")
        = some (.bool true)
      ↔ mapGet (Classify [(ascii "TASK.a", .bool true), (ascii "SUBSTANCE.b", .int 2),
          (ascii "c", .str [0x78]), (ascii "d", .table [])]).AllVariables (ascii "TASK.a")
          = some (.bool true)
        ∧ (ascii "TASK.").isPrefixOf (ascii "TASK.a") = true)
    ∧ (Classify [(ascii "TASK.a", .bool true), (ascii "SUBSTANCE.b", .int 2),
          (ascii "c", .str [0x78]), (ascii "d", .table [])]).variables
      = ([(ascii "TASK.a", .bool true)], [(ascii "SUBSTANCE.b", .int 2)],
          [(ascii "c", .str [0x78])],
          [(ascii "TASK.a", .bool true), (ascii "SUBSTANCE.b", .int 2),
            (ascii "c", .str [0x78])]) :=
  ⟨(Classify_variables [(ascii "TASK.a", .bool true), (ascii "SUBSTANCE.b", .int 2),
      (ascii "c", .str [0x78]), (ascii "d", .table [])] (by decide) (ascii "TASK.a")
      (.bool true)).2.1, rfl⟩

theorem trimLeftControl_spec :
    ∀ (n : Nat) (s : Str), s.length ≤ n →
      (∃ pre, s = pre ++ trimLeftControl s)
        ∧ (∀ b t, trimLeftControl s = b :: t → isControlByte b = false) := by
  intro n
  induction n with
  | zero =>
    intro s hs
    have : s = [] := List.length_eq_zero.mp (by omega)
    subst this
    exact ⟨⟨[], rfl⟩, fun b t h => by cases h⟩
  | succ n ih =>
    intro s hs
    match s, hs with
    | [], _ => exact ⟨⟨[], rfl⟩, fun b t h => by cases h⟩
    | [b], _ =>
      rw [trimLeftControl]
      split_ifs with hb
      · exact ⟨⟨[b], rfl⟩, fun b1 t h => by cases h⟩
      · refine ⟨⟨[], rfl⟩, fun b1 t h => ?_⟩
        injection h with h1 _
        subst h1
        simpa using hb
    | b :: c :: u, hs =>
      simp only [List.length_cons] at hs
      rw [trimLeftControl]
      split_ifs with hb hc
      · obtain ⟨⟨pre, hpre⟩, h2⟩ := ih (c :: u) (by simp only [List.length_cons]; omega)
        exact ⟨⟨b :: pre, by rw [List.cons_append, ← hpre]⟩, h2⟩
      · obtain ⟨⟨pre, hpre⟩, h2⟩ := ih u (by omega)
        exact ⟨⟨b :: c :: pre, by rw [List.cons_append, List.cons_append, ← hpre]⟩, h2⟩
      · refine ⟨⟨[], rfl⟩, fun b1 t h => ?_⟩
        injection h with h1 _
        subst h1
        simpa using hb

theorem trimRightControlRev_spec :
    ∀ (n : Nat) (s : Str), s.length ≤ n →
      (∃ pre, s = pre ++ trimRightControlRev s)
        ∧ (∀ b t, trimRightControlRev s = b :: t → isControlByte b = false) := by
  intro n
  induction n with
  | zero =>
    intro s hs
    have : s = [] := List.length_eq_zero.mp (by omega)
    subst this
    exact ⟨⟨[], rfl⟩, fun b t h => by cases h⟩
  | succ n ih =>
    intro s hs
    match s, hs with
    | [], _ => exact ⟨⟨[], rfl⟩, fun b t h => by cases h⟩
    | [b], _ =>
      rw [trimRightControlRev]
      split_ifs with hb
      · exact ⟨⟨[b], rfl⟩, fun b1 t h => by cases h⟩
      · refine ⟨⟨[], rfl⟩, fun b1 t h => ?_⟩
        injection h with h1 _
        subst h1
        simpa using hb
    | b :: c :: u, hs =>
      simp only [List.length_cons] at hs
      rw [trimRightControlRev]
      split_ifs with hb hc
      · obtain ⟨⟨pre, hpre⟩, h2⟩ := ih (c :: u) (by simp only [List.length_cons]; omega)
        exact ⟨⟨b :: pre, by rw [List.cons_append, ← hpre]⟩, h2⟩
      · obtain ⟨⟨pre, hpre⟩, h2⟩ := ih u (by omega)
        exact ⟨⟨b :: c :: pre, by rw [List.cons_append, List.cons_append, ← hpre]⟩, h2⟩
      · refine ⟨⟨[], rfl⟩, fun b1 t h => ?_⟩
        injection h with h1 _
        subst h1
        simpa using hb

/-- What `CleanString` guarantees: the result is `s` without some of its first
and some of its last bytes, and neither its first nor its last byte is a
one-byte control character. -/
theorem CleanString_spec (s : Str) :
    (∃ pre post, s = pre ++ CleanString s ++ post)
      ∧ (∀ b t, CleanString s = b :: t → isControlByte b = false)
      ∧ (∀ b t, CleanString s = t ++ [b] → isControlByte b = false) := by
  obtain ⟨⟨pre, hpre⟩, hl⟩ := trimLeftControl_spec _ s (Nat.le_refl _)
  obtain ⟨⟨post, hpost⟩, hr⟩ :=
    trimRightControlRev_spec _ (trimLeftControl s).reverse (Nat.le_refl _)
  have hmid : trimLeftControl s = CleanString s ++ post.reverse := by
    have := congrArg List.reverse hpost
    rw [List.reverse_reverse, List.reverse_append] at this
    exact this
  refine ⟨⟨pre, post.reverse, ?_⟩, ?_, ?_⟩
  · rw [List.append_assoc, ← hmid, ← hpre]
  · intro b t hb
    rw [hb, List.cons_append] at hmid
    exact hl b _ hmid
  · intro b t hb
    have h1 : trimRightControlRev (trimLeftControl s).reverse = b :: t.reverse := by
      have := congrArg List.reverse hb
      unfold CleanString trimRightControl at this
      rw [List.reverse_reverse, List.reverse_append] at this
      exact this
    exact hr b _ h1

/-! ## Allocations sized by the input -/

/-- A string whose declared length is above the limit of `make([]byte, length)`:
`ReadValue` does not return, whatever follows the length. -/
theorem ReadValue_string_over_limit (F : GoFmt) (n : Nat) (rest : List Byte) (off : Nat)
    (hn : n < 2 ^ 63) (hlim : sliceLimit F ⟨rest, off + 1 + (encVarint n).length⟩ < n) :
    ReadValue F ⟨TypeString :: (encVarint n ++ rest), off⟩ = some .panic := by
  apply ReadValue_eq_of_fuel F 1
  obtain ⟨hT, hV⟩ := encVarint_spec n
  have h7 := read7BitInt_groups (encVarint n) rest (off + 1) hT (by rw [hV]; exact hn)
  rw [hV] at h7
  rw [ReadValueFuel_cons, if_pos rfl]
  unfold readString
  rw [h7]
  simp only
  rw [if_pos (Or.inr (by exact_mod_cast hlim))]

/-- A table whose declared count is above the limit of
`make(map[string]interface{}, int(count))`: `ReadValue` does not return,
whatever follows the count. -/
theorem ReadValue_table_over_limit (F : GoFmt) (pad : List Byte) (n : Nat) (rest : List Byte)
    (off : Nat) (hp : pad.length = 4) (hn : n < 2 ^ 31)
    (hlim : mapLimit F ⟨rest, off + 1 + 8⟩ < n) :
    ReadValue F ⟨TypeTable :: (pad ++ (leBytes 4 n ++ rest)), off⟩ = some .panic := by
  apply ReadValue_eq_of_fuel F 1
  have h1 : TypeTable ≠ TypeString := by decide
  have h2 : TypeTable ≠ TypeNumber := by decide
  have h3 : TypeTable ≠ TypeBoolean := by decide
  rw [ReadValueFuel_cons, if_neg h1, if_neg h2, if_neg h3, if_pos rfl,
    readTableHeader_encode pad n rest (off + 1) hp hn]
  simp only
  rw [if_pos (by exact_mod_cast hlim)]

/-- A table whose declared count is positive and within the limit, with no
pair present: the loop stops at its first read. -/
theorem ReadValue_table_no_pairs (F : GoFmt) (pad : List Byte) (n : Nat) (off : Nat)
    (hp : pad.length = 4) (hn : n < 2 ^ 31) (hpos : 0 < n)
    (hlim : n ≤ mapLimit F ⟨[], off + 1 + 8⟩) :
    ReadValue F ⟨TypeTable :: (pad ++ (leBytes 4 n ++ [])), off⟩
      = some (.err (.tableKey 0 .EOF) ⟨[], off + 1 + 8⟩) := by
  apply ReadValue_eq_of_fuel F 2
  have h1 : TypeTable ≠ TypeString := by decide
  have h2 : TypeTable ≠ TypeNumber := by decide
  have h3 : TypeTable ≠ TypeBoolean := by decide
  obtain ⟨m, rfl⟩ : ∃ m, n = m + 1 := ⟨n - 1, by omega⟩
  rw [ReadValueFuel_cons, if_neg h1, if_neg h2, if_neg h3, if_pos rfl,
    readTableHeader_encode pad (m + 1) [] (off + 1) hp hn]
  simp only
  rw [if_neg (by omega)]
  have h4 : ((m + 1 : Nat) : Int).toNat = m + 1 := Int.toNat_ofNat _
  rw [h4, readPairs]
  rfl

/-- A proper prefix of a well-formed encoding is never decoded to a value,
whatever the allocation limits: the outcome is an error or no return. -/
theorem ReadValue_truncated_outcome (F : GoFmt) (w : Wire) (hw : w.fits = true) (k : Nat)
    (hk : k < w.encode.length) (off : Nat) :
    (∃ e r, ReadValue F ⟨w.encode.take k, off⟩ = some (.err e r))
      ∨ ReadValue F ⟨w.encode.take k, off⟩ = some .panic := by
  cases h : ReadValue F ⟨w.encode.take k, off⟩ with
  | none => exact absurd h (ReadValue_isSome F _)
  | some res =>
    cases res with
    | err e r => exact Or.inl ⟨e, r, rfl⟩
    | panic => exact Or.inr rfl
    | ok v r1 =>
      exfalso
      obtain ⟨c, hc, hoff, hpost⟩ := ReadValue_frame_reader F _ off v r1 h
      have h2 := hpost (r1.rest ++ w.encode.drop k)
      have hE : c ++ (r1.rest ++ w.encode.drop k) = w.encode := by
        rw [← List.append_assoc, ← hc, List.take_append_drop]
      rw [hE] at h2
      have h3 := ReadValue_encode F w hw [] off
      rw [List.append_nil, h2] at h3
      simp only [Option.some.injEq, Res.ok.injEq, Reader.mk.injEq] at h3
      have h4 := congrArg List.length h3.2.1
      simp only [List.length_append, List.length_drop, List.length_nil] at h4
      omega

/-- A read that does not return ends `ReadAll` the same way. -/
theorem ReadAll_of_no_return (F : GoFmt) (data : List Byte) (hd : data ≠ [])
    (h : ReadValue F (New data) = some .panic) : ReadAll F data = some .panic := by
  unfold ReadAll
  have hlen : (New data).Len > 0 := by
    cases data with
    | nil => exact absurd rfl hd
    | cons b t => simp [Reader.Len, New]
  rw [ReadAllLoop, if_pos hlen]
  unfold ReadAllStep
  rw [h]

theorem encVarint_two_pow_62 :
    encVarint (2 ^ 62) = [0x80, 0x80, 0x80, 0x80, 0x80, 0x80, 0x80, 0x80, 0x40] := by
  decide

/-- The encoding of a string of `2^62` bytes starts with the tag and the nine
groups of its length. -/
theorem Wire.str_two_pow_62 (s : Str) (hs : s.length = 2 ^ 62) :
    (Wire.str s).fits = true
      ∧ 10 < (Wire.str s).encode.length
      ∧ (Wire.str s).encode.take 10
          = [0x53, 0x80, 0x80, 0x80, 0x80, 0x80, 0x80, 0x80, 0x80, 0x40] := by
  refine ⟨?_, ?_, ?_⟩
  · simp only [Wire.fits, hs, decide_eq_true_eq]
    norm_num
  · simp only [Wire.encode, List.length_cons, List.length_append, hs]
    omega
  · simp only [Wire.encode, hs, encVarint_two_pow_62]
    rfl

/-- The tag `'S'` and the declared length `2^62`, with nothing after them. -/
theorem ReadValue_length_two_pow_62 (F : GoFmt) (hF : F.maxAlloc < 2 ^ 62) :
    ReadValue F (New [0x53, 0x80, 0x80, 0x80, 0x80, 0x80, 0x80, 0x80, 0x80, 0x40])
      = some .panic := by
  have hlim : sliceLimit F ⟨[], 0 + 1 + (encVarint (2 ^ 62)).length⟩ < 2 ^ 62 := by
    rw [encVarint_two_pow_62]
    exact max_lt hF (by norm_num [Reader.Size])
  have h := ReadValue_string_over_limit F (2 ^ 62) [] 0 (by norm_num) hlim
  rw [encVarint_two_pow_62] at h
  exact h

/-- The tag `'T'`, four padding bytes and the declared count `2^31 - 1`, with
nothing after them. -/
theorem ReadValue_count_two_pow_31 (F : GoFmt) (hF : F.maxMapHint < 2 ^ 31 - 1) :
    ReadValue F (New [0x54, 0, 0, 0, 0, 0xFF, 0xFF, 0xFF, 0x7F]) = some .panic := by
  have hlim : mapLimit F ⟨[], 0 + 1 + 8⟩ < 2 ^ 31 - 1 :=
    max_lt hF (by norm_num [Reader.Size])
  have hb : leBytes 4 (2 ^ 31 - 1) = [0xFF, 0xFF, 0xFF, 0x7F] := by decide
  have h0 := ReadValue_table_over_limit F [0, 0, 0, 0] (2 ^ 31 - 1) [] 0 rfl (by norm_num) hlim
  rw [hb] at h0
  exact h0

/-- C9. For every string `s` of `2^62` bytes, the ten bytes
`53 80 80 80 80 80 80 80 80 40` are a proper prefix of the well-formed encoding
of `s`: its tag and its declared length, cut before the body. On them
`ReadValue` returns no error. Line 68 calls `make([]byte, length)` with the
declared length before a byte of the body is read, and on every run that
cannot allocate `2^62` bytes the call does not return. -/
theorem ReadValue_truncated_string_panics (F : GoFmt) (hF : F.maxAlloc < 2 ^ 62) (s : Str)
    (hs : s.length = 2 ^ 62) :
    (Wire.str s).fits = true
      ∧ 10 < (Wire.str s).encode.length
      ∧ (Wire.str s).encode.take 10
          = [0x53, 0x80, 0x80, 0x80, 0x80, 0x80, 0x80, 0x80, 0x80, 0x40]
      ∧ ReadValue F (New [0x53, 0x80, 0x80, 0x80, 0x80, 0x80, 0x80, 0x80, 0x80, 0x40])
          = some .panic :=
  ⟨(Wire.str_two_pow_62 s hs).1, (Wire.str_two_pow_62 s hs).2.1, (Wire.str_two_pow_62 s hs).2.2,
    ReadValue_length_two_pow_62 F hF⟩

/-- C9 on the example run, whose limit for a byte slice is `2^32` bytes, and
the string of `2^62` zero bytes. -/
theorem ReadValue_truncated_string_panics_witness :
    exampleFmt.maxAlloc < 2 ^ 62
      ∧ (List.replicate (2 ^ 62) (0 : Byte)).length = 2 ^ 62
      ∧ (Wire.str (List.replicate (2 ^ 62) 0)).fits = true
      ∧ 10 < (Wire.str (List.replicate (2 ^ 62) 0)).encode.length
      ∧ (Wire.str (List.replicate (2 ^ 62) 0)).encode.take 10
          = [0x53, 0x80, 0x80, 0x80, 0x80, 0x80, 0x80, 0x80, 0x80, 0x40]
      ∧ ReadValue exampleFmt
          (New [0x53, 0x80, 0x80, 0x80, 0x80, 0x80, 0x80, 0x80, 0x80, 0x40]) = some .panic :=
  ⟨by decide, List.length_replicate _ _,
    ReadValue_truncated_string_panics exampleFmt (by decide) _ (List.length_replicate _ _)⟩

/-- C18. The nine bytes `54 00 00 00 00 FF FF FF 7F` are a table header with
the count `2^31 - 1` and no pair after it, a count far larger than the input
that remains. Line 101 calls `make(map[string]interface{}, int(count))` with
that count before the loop reads anything, and on every run that cannot
allocate a map for `2^31 - 1` entries neither `ReadValue` nor `ReadAll`
returns. -/
theorem ReadValue_table_count_no_return (F : GoFmt) (hF : F.maxMapHint < 2 ^ 31 - 1) :
    ReadValue F (New [0x54, 0, 0, 0, 0, 0xFF, 0xFF, 0xFF, 0x7F]) = some .panic
      ∧ ReadAll F [0x54, 0, 0, 0, 0, 0xFF, 0xFF, 0xFF, 0x7F] = some .panic :=
  ⟨ReadValue_count_two_pow_31 F hF,
    ReadAll_of_no_return F _ (List.cons_ne_nil _ _) (ReadValue_count_two_pow_31 F hF)⟩

/-- C18 on the example run, whose limit for a map is `2^24` entries. -/
theorem ReadValue_table_count_no_return_witness :
    exampleFmt.maxMapHint < 2 ^ 31 - 1
      ∧ ReadValue exampleFmt (New [0x54, 0, 0, 0, 0, 0xFF, 0xFF, 0xFF, 0x7F]) = some .panic
      ∧ ReadAll exampleFmt [0x54, 0, 0, 0, 0, 0xFF, 0xFF, 0xFF, 0x7F] = some .panic :=
  ⟨by decide, ReadValue_table_count_no_return exampleFmt (by decide)⟩

end LuaParser
